import Mathlib

/-!
# Segmented, paged memory simulator: a shallow embedding of `memory_simulator.cpp`

The C++ classes `PhysicalMemory`, `PageTable`, `DirEntry` and `SegmentTable` are embedded as
structures with explicit state passing.  C++ `int`/`long` values are mathematical integers;
the one place where a signed overflow can be reached by calling the engine (`++time_`, and
`1000 + s*5000` in the constructor) is modelled as "no result".  Every operation that is
undefined in C++ (an out-of-range `operator[]`, a null `unique_ptr` dereference, a division
by zero) or that terminates the program (a vector of negative size) yields `none`.

The process-wide `rand()` generator is an arbitrary stream `R : Nat → Nat`; the number of
draws consumed so far is carried in the state (`rand_`).
-/

namespace MemSim

/-! ## Vectors indexed by a C++ `int` -/

/-- `v[i]` for a vector and an `int` index; `none` when the access is out of range. -/
def vget {α : Type} (xs : List α) (i : Int) : Option α :=
  if i < 0 then none else xs[i.toNat]?

/-- `v[i] = a`; only applied to an index that `vget` found in range. -/
def vset {α : Type} (xs : List α) (i : Int) (a : α) : List α :=
  if i < 0 then xs else xs.set i.toNat a

/-- In-place update `v[i] = f(v[i])` of an element that is in range. -/
def vmod {α : Type} (xs : List α) (i : Int) (f : α → α) : List α :=
  match vget xs i with
  | none => xs
  | some a => vset xs i (f a)

/-! ## Types -/

inductive Protection where
  | READ_ONLY
  | READ_WRITE
deriving DecidableEq, Repr

inductive Access where
  | READ
  | WRITE
deriving DecidableEq, Repr

inductive Policy where
  | FIFO
  | LRU
deriving DecidableEq, Repr

/-- The command line options that reach the engine (`struct CLI`). -/
structure CLI where
  frames : Int := 16
  page_size : Int := 1000
  segments : Int := 3
  dir_size : Int := 4
  policy : Policy := Policy.FIFO
deriving DecidableEq, Repr

structure Page where
  frame : Int := -1
  present : Bool := false
  prot : Protection := Protection.READ_WRITE
  last_access : Int := 0
deriving DecidableEq, Repr

structure Segment where
  base : Int := 0
  limit_pages : Int := 0
  prot : Protection := Protection.READ_WRITE
deriving DecidableEq, Repr

structure FrameMeta where
  free : Bool := true
  seg : Int := -1
  dir : Int := -1
  page : Int := -1
  loaded_time : Int := 0
  last_access : Int := 0
deriving DecidableEq, Repr

/-- The largest value of a 32-bit `int`. -/
def INT_MAX : Int := 2147483647

/-! ## Physical memory -/

structure PhysicalMemory where
  num_frames : Int
  policy : Policy
  meta : List FrameMeta
  fifo_q : List Int
deriving DecidableEq, Repr

/-- Constructor `PhysicalMemory(n, p)`: `meta.resize(n)`; a negative `n` throws. -/
def PhysicalMemory.new (n : Int) (p : Policy) : Option PhysicalMemory :=
  if n < 0 then none
  else some { num_frames := n, policy := p, meta := List.replicate n.toNat {}, fifo_q := [] }

/-- The loop of `allocate_any_free`: `n` iterations left, at index `i`. -/
def scan_free (meta : List FrameMeta) : Nat → Nat → Option Int
  | 0, _ => some (-1)
  | n + 1, i =>
    match meta[i]? with
    | none => none
    | some m => if m.free then some (i : Int) else scan_free meta n (i + 1)

/-- Method `allocate_any_free`: grab the first free frame if possible. -/
def PhysicalMemory.allocate_any_free (pm : PhysicalMemory) : Option (PhysicalMemory × Int) :=
  match scan_free pm.meta pm.num_frames.toNat 0 with
  | none => none
  | some f =>
    if f = -1 then some (pm, -1)
    else some ({ pm with meta := vmod pm.meta f (fun m => { m with free := false }),
                         fifo_q := pm.fifo_q ++ [f] }, f)

/-- The `while` loop of the FIFO branch: pop queue heads that are marked free. -/
def drop_stale (meta : List FrameMeta) : List Int → Option (List Int)
  | [] => some []
  | f :: q =>
    match vget meta f with
    | none => none
    | some m => if m.free then drop_stale meta q else some (f :: q)

/-- The loop of the LRU branch: `n` iterations left, at index `i`. -/
def lru_scan (meta : List FrameMeta) : Nat → Nat → Int → Int → Option Int
  | 0, _, best, _ => some best
  | n + 1, i, best, ts =>
    match meta[i]? with
    | none => none
    | some m =>
      if m.free = false ∧ m.last_access < ts then lru_scan meta n (i + 1) (i : Int) m.last_access
      else lru_scan meta n (i + 1) best ts

/-- Method `choose_victim(now)`: choose a victim under the current policy. -/
def PhysicalMemory.choose_victim (pm : PhysicalMemory) (_now : Int) :
    Option (PhysicalMemory × Int) :=
  match pm.policy with
  | Policy.FIFO =>
    match drop_stale pm.meta pm.fifo_q with
    | none => none
    | some [] => some ({ pm with fifo_q := [] }, -1)
    | some (f :: q) => some ({ pm with fifo_q := q ++ [f] }, f)
  | Policy.LRU =>
    match lru_scan pm.meta pm.num_frames.toNat 0 (-1) INT_MAX with
    | none => none
    | some best => some (pm, best)

/-- Method `map(frame, seg, dir, page, now)`. -/
def PhysicalMemory.map (pm : PhysicalMemory) (frame seg dir page now : Int) :
    Option PhysicalMemory :=
  match vget pm.meta frame with
  | none => none
  | some _ =>
    some { pm with
      meta := vset pm.meta frame
        { free := false, seg := seg, dir := dir, page := page,
          loaded_time := now, last_access := now },
      fifo_q := pm.fifo_q ++ [frame] }

/-- Private method `valid(f)`. -/
def PhysicalMemory.valid (pm : PhysicalMemory) (f : Int) : Option Bool :=
  if f ≥ 0 ∧ f < pm.num_frames then
    match vget pm.meta f with
    | none => none
    | some m => some (!m.free)
  else some false

/-- Method `touch(frame, now)`. -/
def PhysicalMemory.touch (pm : PhysicalMemory) (frame now : Int) : Option PhysicalMemory :=
  match pm.valid frame with
  | none => none
  | some true => some { pm with meta := vmod pm.meta frame (fun m => { m with last_access := now }) }
  | some false => some pm

/-- Method `free_frame(frame)`. -/
def PhysicalMemory.free_frame (pm : PhysicalMemory) (frame : Int) : Option PhysicalMemory :=
  if frame ≥ 0 ∧ frame < pm.num_frames then
    match vget pm.meta frame with
    | none => none
    | some _ => some { pm with meta := vset pm.meta frame {} }
  else some pm

/-- Method `info(frame)`. -/
def PhysicalMemory.info (pm : PhysicalMemory) (frame : Int) : Option FrameMeta :=
  vget pm.meta frame

/-! ## Page tables -/

structure PageTable where
  pages_ : Int := 0
  page_size_ : Int := 0
  table_ : List Page := []
deriving DecidableEq, Repr

/-- Method `randomize_presence`: two `rand()` draws per entry, starting at draw `c`. -/
def randomize_presence (R : Nat → Nat) : List Page → Nat → List Page × Nat
  | [], c => ([], c)
  | p :: ps, c =>
    let p1 : Page :=
      { p with present := decide (R c % 2 ≠ 0), frame := -1,
               prot := if R (c + 1) % 2 ≠ 0 then Protection.READ_ONLY
                       else Protection.READ_WRITE }
    let r := randomize_presence R ps (c + 2)
    (p1 :: r.1, r.2)

/-- Constructor `PageTable(pages, page_size)`; a negative `pages` throws. -/
def PageTable.new (R : Nat → Nat) (pages page_size : Int) (c : Nat) : Option (PageTable × Nat) :=
  if pages < 0 then none
  else
    let r := randomize_presence R (List.replicate pages.toNat {}) c
    some ({ pages_ := pages, page_size_ := page_size, table_ := r.1 }, r.2)

structure DirEntry where
  present : Bool := false
  pt : Option PageTable := none
deriving DecidableEq, Repr

/-! ## Segment table and translation -/

structure Metrics where
  translations : Int := 0
  faults : Int := 0
  replacements : Int := 0
  prot_viol : Int := 0
  seg_faults : Int := 0
  offset_faults : Int := 0
  writes_denied : Int := 0
  logs : Int := 0
  total_latency : Int := 0
deriving DecidableEq, Repr

structure SegmentTable where
  dir_size_ : Int
  page_size_ : Int
  pm_ : PhysicalMemory
  segments_ : List Segment
  dirs_ : List (List DirEntry)
  metrics_ : Metrics := {}
  time_ : Int := 0
  rand_ : Nat := 0
deriving DecidableEq, Repr

/-- The constructor loop over the segments: `n` left, at index `s`, next draw `c`. -/
def init_segments (R : Nat → Nat) : Nat → Nat → Nat → List Segment × Nat
  | 0, _, c => ([], c)
  | n + 1, s, c =>
    let S : Segment :=
      { base := 1000 + (s : Int) * 5000,
        limit_pages := 3 + ((R c % 5 : Nat) : Int),
        prot := if R (c + 1) % 2 ≠ 0 then Protection.READ_ONLY else Protection.READ_WRITE }
    let r := init_segments R n (s + 1) (c + 2)
    (S :: r.1, r.2)

/-- Constructor `SegmentTable(segs, dir_size, page_size, pm)`, with `c` draws consumed before. -/
def SegmentTable.new (R : Nat → Nat) (segs dir_size page_size : Int) (pm : PhysicalMemory)
    (c : Nat) : Option SegmentTable :=
  if segs < 0 then none
  else if 0 < segs ∧ dir_size < 0 then none
  else if 0 < segs ∧ INT_MAX < 1000 + (segs - 1) * 5000 then none
  else
    let r := init_segments R segs.toNat 0 c
    some { dir_size_ := dir_size, page_size_ := page_size, pm_ := pm,
           segments_ := r.1,
           dirs_ := List.replicate segs.toNat (List.replicate dir_size.toNat {}),
           rand_ := r.2 }

/-- The engine as `main` builds it after `srand(seed)`. -/
def boot (R : Nat → Nat) (cli : CLI) : Option SegmentTable :=
  match PhysicalMemory.new cli.frames cli.policy with
  | none => none
  | some pm => SegmentTable.new R cli.segments cli.dir_size cli.page_size pm 0

/-- Method `log`: the sink is external, the counter is kept. -/
def SegmentTable.log (st : SegmentTable) : SegmentTable :=
  { st with metrics_ := { st.metrics_ with logs := st.metrics_.logs + 1 } }

/-- The page entry `dirs_[s][d].pt->at(p)`, when every step of the access is defined. -/
def pageAt (dirs : List (List DirEntry)) (s d p : Int) : Option Page :=
  match vget dirs s with
  | none => none
  | some row =>
    match vget row d with
    | none => none
    | some de =>
      match de.pt with
      | none => none
      | some t => vget t.table_ p

/-- In-place update of the page entry `dirs_[s][d].pt->at(p)`. -/
def modPage (dirs : List (List DirEntry)) (s d p : Int) (f : Page → Page) :
    List (List DirEntry) :=
  vmod dirs s (fun row =>
    vmod row d (fun de =>
      { de with pt := de.pt.map (fun t => { t with table_ := vmod t.table_ p f }) }))

/-- Private method `owning_clear(m)`: unlink the victim's owner. -/
def SegmentTable.owning_clear (st : SegmentTable) (m : FrameMeta) :
    Option (SegmentTable × Bool) :=
  if m.seg < 0 then some (st, false)
  else if m.seg ≥ st.dirs_.length then some (st, false)
  else
    match vget st.dirs_ m.seg with
    | none => none
    | some row =>
      if m.dir < 0 ∨ m.dir ≥ row.length then some (st, false)
      else
        match vget row m.dir with
        | none => none
        | some de =>
          match de.pt with
          | none => some (st, false)
          | some t =>
            if de.present = false then some (st, false)
            else if m.page < 0 ∨ m.page ≥ t.pages_ then some (st, false)
            else
              match vget t.table_ m.page with
              | none => none
              | some _ =>
                let cleared := modPage st.dirs_ m.seg m.dir m.page
                  (fun P => { P with present := false, frame := -1 })
                some ({ st with dirs_ := cleared }, true)

/-- Lines 165-166 of `translate`: lazy allocation of the second level at `dirs_[seg][dir]`. -/
def SegmentTable.lazy_alloc (R : Nat → Nat) (st : SegmentTable) (seg dir : Int) :
    Option SegmentTable :=
  match vget st.dirs_ seg with
  | none => none
  | some row =>
    match vget row dir with
    | none => none
    | some de =>
      if de.present then some st
      else
        match PageTable.new R st.dir_size_ st.page_size_ st.rand_ with
        | none => none
        | some (t, c) =>
          some { st with
            dirs_ := vset st.dirs_ seg (vset row dir { present := true, pt := some t }),
            rand_ := c }

/-- Lines 177-181 of `translate`: choose a victim and unlink its owner.  The result is the
victim, or `-1` when `choose_victim` found none. -/
def SegmentTable.evict (st : SegmentTable) (now : Int) : Option (SegmentTable × Int) :=
  match st.pm_.choose_victim now with
  | none => none
  | some (pm2, victim) =>
    let st3 := { st with pm_ := pm2 }
    if victim = -1 then some (st3, -1)
    else
      match st3.pm_.info victim with
      | none => none
      | some finfo =>
        match st3.owning_clear finfo with
        | none => none
        | some (st4, true) =>
          match st4.pm_.free_frame victim with
          | none => none
          | some pm5 =>
            let mt := { st4.metrics_ with replacements := st4.metrics_.replacements + 1 }
            some ({ st4 with pm_ := pm5, metrics_ := mt }, victim)
        | some (st4, false) => some (st4, victim)

/-- Lines 183-184 of `translate`: link the page to frame `f` and record it in the pool. -/
def SegmentTable.install (st : SegmentTable) (f seg dir page now : Int) :
    Option SegmentTable :=
  let linked := modPage st.dirs_ seg dir page
    (fun P => { P with present := true, frame := f, last_access := now })
  match st.pm_.map f seg dir page now with
  | none => none
  | some pm8 => some { st with dirs_ := linked, pm_ := pm8 }

/-- Lines 173-184 of `translate`: the absent branch.  The flag is `false` on the early
`return -1` ("No victim available"), before `log` is applied. -/
def SegmentTable.page_fault (st : SegmentTable) (seg dir page now : Int) :
    Option (SegmentTable × Bool) :=
  let st1 := { st with metrics_ := { st.metrics_ with faults := st.metrics_.faults + 1 } }
  match st1.pm_.allocate_any_free with
  | none => none
  | some (pm1, f0) =>
    let st2 := { st1 with pm_ := pm1 }
    if f0 = -1 then
      match st2.evict now with
      | none => none
      | some (st6, victim) =>
        if victim = -1 then some (st6, false)
        else (st6.install victim seg dir page now).map (fun s => (s, true))
    else (st2.install f0 seg dir page now).map (fun s => (s, true))

/-- The two statements that open `translate`: `++time_` and the `rand()` draw of `latency`. -/
def SegmentTable.tick (st : SegmentTable) : SegmentTable :=
  { st with time_ := st.time_ + 1, rand_ := st.rand_ + 1 }

/-- The failure exits `metrics_.seg_faults++; log(...); return -1`. -/
def SegmentTable.seg_fault (st : SegmentTable) : SegmentTable :=
  ({ st with metrics_ := { st.metrics_ with seg_faults := st.metrics_.seg_faults + 1 } }).log

/-- The failure exits `metrics_.prot_viol++; metrics_.writes_denied++; log(...); return -1`. -/
def SegmentTable.prot_violation (st : SegmentTable) : SegmentTable :=
  let mt := { st.metrics_ with
    prot_viol := st.metrics_.prot_viol + 1
    writes_denied := st.metrics_.writes_denied + 1 }
  ({ st with metrics_ := mt }).log

/-- The failure exit `metrics_.offset_faults++; log(...); return -1`. -/
def SegmentTable.offset_fault (st : SegmentTable) : SegmentTable :=
  let mt := { st.metrics_ with offset_faults := st.metrics_.offset_faults + 1 }
  ({ st with metrics_ := mt }).log

/-- Line 190 of `translate`: `metrics_.translations++; metrics_.total_latency += latency`. -/
def SegmentTable.success (st : SegmentTable) (latency : Int) : SegmentTable :=
  let mt := { st.metrics_ with
    translations := st.metrics_.translations + 1
    total_latency := st.metrics_.total_latency + latency }
  { st with metrics_ := mt }

/-- Line 186 of `translate`: the present branch, `pm_.touch(P.frame, now); P.last_access = now`. -/
def SegmentTable.page_hit (st : SegmentTable) (P : Page) (seg dir page now : Int) :
    Option SegmentTable :=
  match st.pm_.touch P.frame now with
  | none => none
  | some pm1 =>
    let stamped := modPage st.dirs_ seg dir page (fun Q => { Q with last_access := now })
    some { st with pm_ := pm1, dirs_ := stamped }

/-- Lines 159-191 of `translate`: the part after the segment, page-number and offset checks,
for the segment `S = segments_[seg]`; `st` is the state after `tick`. -/
def SegmentTable.walk (R : Nat → Nat) (st : SegmentTable) (S : Segment)
    (seg pageNum offset : Int) (acc : Access) (now latency : Int) :
    Option (SegmentTable × Int × Int) :=
  if st.dir_size_ = 0 then none
  else
    let dir := Int.tdiv pageNum st.dir_size_
    let page := Int.tmod pageNum st.dir_size_
    match st.lazy_alloc R seg dir with
    | none => none
    | some sa =>
      match pageAt sa.dirs_ seg dir page with
      | none => none
      | some P =>
        if acc = Access.WRITE ∧ P.prot = Protection.READ_ONLY then
          some (sa.prot_violation, -1, latency)
        else if P.present = false then
          match sa.page_fault seg dir page now with
          | none => none
          | some (sb, false) => some (sb.log, -1, latency)
          | some (sb, true) =>
            some (sb.success latency, S.base + pageNum * sb.page_size_ + offset, latency)
        else
          match sa.page_hit P seg dir page now with
          | none => none
          | some sb =>
            some (sb.success latency, S.base + pageNum * sb.page_size_ + offset, latency)

/-- Method `translate(seg, pageNum, offset, acc, latency)`: the new state, the returned
physical address (or `-1`) and the value left in `latency`. -/
def SegmentTable.translate (R : Nat → Nat) (st0 : SegmentTable) (seg pageNum offset : Int)
    (acc : Access) : Option (SegmentTable × Int × Int) :=
  if st0.time_ ≥ INT_MAX then none
  else
    let now := st0.time_ + 1
    let latency : Int := 1 + ((R st0.rand_ % 5 : Nat) : Int)
    let st := st0.tick
    if seg < 0 ∨ seg ≥ st.segments_.length then some (st.seg_fault, -1, latency)
    else
      match vget st.segments_ seg with
      | none => none
      | some S =>
        if acc = Access.WRITE ∧ S.prot = Protection.READ_ONLY then
          some (st.prot_violation, -1, latency)
        else if pageNum < 0 ∨ pageNum ≥ S.limit_pages then some (st.seg_fault, -1, latency)
        else if offset < 0 ∨ offset ≥ st.page_size_ then some (st.offset_fault, -1, latency)
        else st.walk R S seg pageNum offset acc now latency

/-- A batch of requests replayed in order (the batch loop of `main`); the returned
addresses are collected. -/
def run (R : Nat → Nat) :
    SegmentTable → List (Int × Int × Int × Access) → Option (SegmentTable × List Int)
  | st, [] => some (st, [])
  | st, (s, p, o, a) :: rest =>
    match st.translate R s p o a with
    | none => none
    | some (st1, r, _) => (run R st1 rest).map (fun x => (x.1, r :: x.2))

/-- The engine states reachable from construction by `translate` calls. -/
inductive Reachable (R : Nat → Nat) (cli : CLI) : SegmentTable → Prop where
  | boot {st : SegmentTable} : boot R cli = some st → Reachable R cli st
  | step {st st1 : SegmentTable} {seg pageNum offset : Int} {acc : Access} {r lat : Int} :
      Reachable R cli st → st.translate R seg pageNum offset acc = some (st1, r, lat) →
      Reachable R cli st1

/-- The request passes the segment, segment-protection, page-number and offset checks of
`translate` (lines 153-157) against the segment `S = segments_[seg]`. -/
def Passes (st : SegmentTable) (seg pageNum offset : Int) (acc : Access) (S : Segment) : Prop :=
  vget st.segments_ seg = some S ∧ ¬ (acc = Access.WRITE ∧ S.prot = Protection.READ_ONLY) ∧
  (0 ≤ pageNum ∧ pageNum < S.limit_pages) ∧ (0 ≤ offset ∧ offset < st.page_size_)

/-- The layout fixed at construction: the configuration, the segment descriptors, and the
sizes of the directory rows and of the second-level tables that exist. -/
structure Shape (cli : CLI) (st : SegmentTable) : Prop where
  dir_size : st.dir_size_ = cli.dir_size
  page_size : st.page_size_ = cli.page_size
  policy : st.pm_.policy = cli.policy
  frames : st.pm_.num_frames = cli.frames
  meta_len : (st.pm_.meta.length : Int) = cli.frames
  segs_len : (st.segments_.length : Int) = cli.segments
  dirs_len : st.dirs_.length = st.segments_.length
  seg_shape : ∀ s S, vget st.segments_ s = some S →
    S.base = 1000 + s * 5000 ∧ 3 ≤ S.limit_pages ∧ S.limit_pages ≤ 7
  row_len : ∀ s row, vget st.dirs_ s = some row → (row.length : Int) = cli.dir_size
  entry : ∀ s row d de, vget st.dirs_ s = some row → vget row d = some de →
    (de.present = true ↔ de.pt.isSome = true) ∧
    ∀ t, de.pt = some t → t.pages_ = cli.dir_size ∧ (t.table_.length : Int) = cli.dir_size

/-- Two-way consistency of the back-references between frames and pages. -/
structure Linked (dirs : List (List DirEntry)) (meta : List FrameMeta) : Prop where
  frame_page : ∀ f m, vget meta f = some m → m.free = false →
    ∃ pg, pageAt dirs m.seg m.dir m.page = some pg ∧ pg.present = true ∧ pg.frame = f
  page_frame : ∀ s d p pg, pageAt dirs s d p = some pg → pg.frame ≠ -1 →
    ∃ m, vget meta pg.frame = some m ∧ m.free = false ∧ m.seg = s ∧ m.dir = d ∧ m.page = p
  free_clear : ∀ f m, vget meta f = some m → m.free = true → m = {}

/-- The FIFO ordering queue holds frame ids only, and every used frame is in it. -/
structure QueueOK (pm : PhysicalMemory) : Prop where
  range : ∀ x ∈ pm.fifo_q, ∃ m, vget pm.meta x = some m
  cover : ∀ f m, vget pm.meta f = some m → m.free = false → f ∈ pm.fifo_q

/-- The invariant of the engine states. -/
structure Inv (cli : CLI) (st : SegmentTable) : Prop where
  shape : Shape cli st
  linked : Linked st.dirs_ st.pm_.meta
  queue : QueueOK st.pm_
  clock : 0 ≤ st.time_ ∧ st.time_ ≤ INT_MAX
  stamps : ∀ f m, vget st.pm_.meta f = some m → m.last_access ≤ st.time_

/-- The state left by a fault that takes the free frame `f`. -/
def faultFree (st : SegmentTable) (f seg dir page now : Int) : SegmentTable :=
  { st with
    metrics_ := { st.metrics_ with faults := st.metrics_.faults + 1 },
    dirs_ := modPage st.dirs_ seg dir page
      (fun P => { P with present := true, frame := f, last_access := now }),
    pm_ := { st.pm_ with
      meta := vset st.pm_.meta f { free := false, seg := seg, dir := dir, page := page,
                                    loaded_time := now, last_access := now },
      fifo_q := st.pm_.fifo_q ++ [f] ++ [f] } }

/-- The state left by a fault that evicts the victim `v`, owned by `m`, with the queue `q`
left by `choose_victim`. -/
def faultEvict (st : SegmentTable) (q : List Int) (v : Int) (m : FrameMeta)
    (seg dir page now : Int) : SegmentTable :=
  { st with
    metrics_ := { st.metrics_ with faults := st.metrics_.faults + 1,
                                   replacements := st.metrics_.replacements + 1 },
    dirs_ := modPage
      (modPage st.dirs_ m.seg m.dir m.page (fun P => { P with present := false, frame := -1 }))
      seg dir page (fun P => { P with present := true, frame := v, last_access := now }),
    pm_ := { st.pm_ with
      meta := vset st.pm_.meta v { free := false, seg := seg, dir := dir, page := page,
                                    loaded_time := now, last_access := now },
      fifo_q := q ++ [v] } }

/-- What no step of `translate` after the clock tick changes: the configuration, the segment
descriptors and the clock. -/
structure Fixed (st sb : SegmentTable) : Prop where
  dir_size : sb.dir_size_ = st.dir_size_
  page_size : sb.page_size_ = st.page_size_
  segments : sb.segments_ = st.segments_
  time : sb.time_ = st.time_

/-! ## Concrete engines used to exercise the theorems -/

/-- A `rand()` stream: the first draw is 1, all others 0 (segment limit 4, everything
read-write, every page entry absent, latency 1). -/
def demoR : Nat → Nat := fun n => if n = 0 then 1 else 0

/-- One segment, two frames, page size 1000, fan-out 4, FIFO. -/
def demoCLI : CLI := { frames := 2, page_size := 1000, segments := 1, dir_size := 4 }

/-- The engine built from `demoCLI` under `demoR`. -/
def demo0 : SegmentTable := (boot demoR demoCLI).get (by decide)

/-- Outcome of `translate(0, 1, 5, READ)` on `demo0`. -/
def demoStep1 : SegmentTable × Int × Int :=
  (demo0.translate demoR 0 1 5 Access.READ).get (by decide)

/-- The request is within bounds: the segment exists, the page number is below its limit
and the offset is below the page size. -/
def InBounds (st : SegmentTable) (seg pageNum offset : Int) : Prop :=
  ∃ S, vget st.segments_ seg = some S ∧ (0 ≤ pageNum ∧ pageNum < S.limit_pages) ∧
    (0 ≤ offset ∧ offset < st.page_size_)

/-- The `rand()` stream that always draws 0: every segment has limit 3 and is read-write,
every page entry starts absent and read-write, every latency is 1. -/
def zeroR : Nat → Nat := fun _ => 0

/-- An engine without physical frames (`--frames 0`). -/
def noFramesCLI : CLI := { frames := 0, page_size := 1000, segments := 1, dir_size := 4 }

/-- The engine built from `noFramesCLI` under `zeroR`. -/
def demoNF : SegmentTable := (boot zeroR noFramesCLI).get (by decide)

/-- Outcome of `translate(0, 0, 0, READ)` on `demoNF`: a fault that finds no frame. -/
def demoNFStep : SegmentTable × Int × Int :=
  (demoNF.translate zeroR 0 0 0 Access.READ).get (by decide)

/-- The engine built from `demoCLI` under `zeroR`: one read-write segment of limit 3. -/
def demoZ : SegmentTable := (boot zeroR demoCLI).get (by decide)

/-- Outcome of `translate(0, 5, 0, READ)` on `demoZ`: page 5 is beyond the limit 3. -/
def demoZStep : SegmentTable × Int × Int :=
  (demoZ.translate zeroR 0 5 0 Access.READ).get (by decide)

/-- A `rand()` stream whose only odd draw is the fifth: on the engine built from `demoCLI`
the first page entry that is materialised is read-only (and absent). -/
def roPageR : Nat → Nat := fun n => if n = 4 then 1 else 0

/-- The engine built from `demoCLI` under `roPageR`. -/
def demoRO : SegmentTable := (boot roPageR demoCLI).get (by decide)

/-- Outcome of `translate(0, 0, 0, WRITE)` on `demoRO`: a write to a read-only page. -/
def demoROStep : SegmentTable × Int × Int :=
  (demoRO.translate roPageR 0 0 0 Access.WRITE).get (by decide)

/-- The `rand()` stream that always draws 1: segments are read-only with limit 4, every page
entry is materialised present (with `frame = -1`) and read-only, every latency is 2. -/
def oneR : Nat → Nat := fun _ => 1

/-- The engine built from `demoCLI` under `oneR`. -/
def demoOne : SegmentTable := (boot oneR demoCLI).get (by decide)

/-- Outcome of `translate(0, 0, 0, READ)` on `demoOne`. -/
def demoOneStep : SegmentTable × Int × Int :=
  (demoOne.translate oneR 0 0 0 Access.READ).get (by decide)

/-- Outcome of a second `translate(0, 0, 0, READ)`, on the state left by the first. -/
def demoOneStep2 : SegmentTable × Int × Int :=
  (demoOneStep.1.translate oneR 0 0 0 Access.READ).get (by decide)

/-- One `translate` call that took the fault path: it returned and `faults` grew by one. -/
def faultStep (R : Nat → Nat) (st : SegmentTable) (q : Int × Int × Int × Access) :
    Option SegmentTable :=
  match st.translate R q.1 q.2.1 q.2.2.1 q.2.2.2 with
  | none => none
  | some (st1, _, _) =>
    if st1.metrics_.faults = st.metrics_.faults + 1 then some st1 else none

/-- A sequence of `translate` calls each of which took the fault path. -/
def faultRun (R : Nat → Nat) : SegmentTable → List (Int × Int × Int × Access) →
    Option SegmentTable
  | st, [] => some st
  | st, q :: rest =>
    match faultStep R st q with
    | none => none
    | some st1 => faultRun R st1 rest

/-- The state of a FIFO engine after `j` faults from construction, none of which evicted:
frames `0 .. j-1` are used, the others free; once `j >= 1` the queue starts with frame 0,
and frame 0 is owned by the page `(s1, d1, p1)` of the first fault. -/
structure FifoTrace (cli : CLI) (s1 d1 p1 : Int) (j : Int) (st : SegmentTable) : Prop where
  inv : Inv cli st
  used : ∀ f m, vget st.pm_.meta f = some m → (m.free = false ↔ f < j)
  empty : j = 0 → st.pm_.fifo_q = []
  head : 1 ≤ j → ∃ q, st.pm_.fifo_q = 0 :: q
  first : 1 ≤ j → ∃ m, vget st.pm_.meta 0 = some m ∧ m.free = false ∧
    m.seg = s1 ∧ m.dir = d1 ∧ m.page = p1

/-- The state of `demo0` after faults on pages 0 and 1 of segment 0: both frames are used. -/
def demoFull : SegmentTable :=
  (faultRun demoR demo0 [(0, 0, 0, Access.READ), (0, 1, 0, Access.READ)]).get (by decide)

/-- The state of `demoFull` after a third fault, on page 2 of segment 0. -/
def demoEvict : SegmentTable :=
  (faultStep demoR demoFull (0, 2, 0, Access.READ)).get (by decide)

/-- The frame-pool states reachable from `PhysicalMemory(n, p)` by the public operations,
in any order and with any arguments for which the operation is defined. -/
inductive PoolReachable (n : Int) (p : Policy) : PhysicalMemory → Prop where
  | new {pm : PhysicalMemory} : PhysicalMemory.new n p = some pm → PoolReachable n p pm
  | alloc {pm pm1 : PhysicalMemory} {f : Int} :
      PoolReachable n p pm → pm.allocate_any_free = some (pm1, f) → PoolReachable n p pm1
  | victim {pm pm1 : PhysicalMemory} {now v : Int} :
      PoolReachable n p pm → pm.choose_victim now = some (pm1, v) → PoolReachable n p pm1
  | map {pm pm1 : PhysicalMemory} {frame seg dir page now : Int} :
      PoolReachable n p pm → pm.map frame seg dir page now = some pm1 →
      PoolReachable n p pm1
  | touch {pm pm1 : PhysicalMemory} {frame now : Int} :
      PoolReachable n p pm → pm.touch frame now = some pm1 → PoolReachable n p pm1
  | free {pm pm1 : PhysicalMemory} {frame : Int} :
      PoolReachable n p pm → pm.free_frame frame = some pm1 → PoolReachable n p pm1

/-- The invariant of the frame pool on its own. -/
structure PoolInv (n : Int) (p : Policy) (pm : PhysicalMemory) : Prop where
  frames : pm.num_frames = n
  policy : pm.policy = p
  len : (pm.meta.length : Int) = pm.num_frames
  queue : QueueOK pm
  free_clear : ∀ f m, vget pm.meta f = some m → m.free = true → m = {}

/-- The pool built by `PhysicalMemory(1, LRU)`. -/
def lruFresh : PhysicalMemory := (PhysicalMemory.new 1 Policy.LRU).get (by decide)

/-- A one-frame LRU pool on which `map(0, 0, 0, 0, INT_MAX)` has been called: frame 0 is
used and its `last_access` is the largest `int`. -/
def lruEdge : PhysicalMemory :=
  (lruFresh.map 0 0 0 0 INT_MAX).get (by decide)

/-- A two-frame LRU pool with both frames used: frame 0 last accessed at 5, frame 1 at 3. -/
def lruTwo : PhysicalMemory :=
  { num_frames := 2, policy := Policy.LRU,
    meta := [{ free := false, seg := 0, dir := 0, page := 0, loaded_time := 1, last_access := 5 },
             { free := false, seg := 0, dir := 0, page := 1, loaded_time := 3, last_access := 3 }],
    fifo_q := [0, 0, 1, 1] }

/-- The engine states reached from `st` by further `translate` calls. -/
inductive Later (R : Nat → Nat) : SegmentTable → SegmentTable → Prop where
  | refl (st : SegmentTable) : Later R st st
  | step {st st1 st2 : SegmentTable} {seg pageNum offset : Int} {acc : Access} {r lat : Int} :
      Later R st st1 → st1.translate R seg pageNum offset acc = some (st2, r, lat) →
      Later R st st2

/-- The materialised tables of `dirs` are still there in `dirs1`: every directory entry that
is present stays present, and every page entry that exists still exists with the same
protection bit. -/
def KeepsTables (dirs dirs1 : List (List DirEntry)) : Prop :=
  (∀ s row d de, vget dirs s = some row → vget row d = some de → de.present = true →
    ∃ row1 de1, vget dirs1 s = some row1 ∧ vget row1 d = some de1 ∧ de1.present = true) ∧
  (∀ s d p pg, pageAt dirs s d p = some pg →
    ∃ pg1, pageAt dirs1 s d p = some pg1 ∧ pg1.prot = pg.prot)

/-- Two segments, two frames, page size 100, fan-out 4, FIFO: seven pages fit below the
distance 5000 between two segment bases. -/
def smallCLI : CLI := { frames := 2, page_size := 100, segments := 2, dir_size := 4 }

/-- The engine built from `smallCLI` under `demoR`. -/
def small0 : SegmentTable := (boot demoR smallCLI).get (by decide)

/-- Outcome of `translate(0, 1, 5, READ)` on `small0`. -/
def smallStepA : SegmentTable × Int × Int :=
  (small0.translate demoR 0 1 5 Access.READ).get (by decide)

/-- Outcome of `translate(1, 0, 5, READ)` on the state left by `smallStepA`. -/
def smallStepB : SegmentTable × Int × Int :=
  (smallStepA.1.translate demoR 1 0 5 Access.READ).get (by decide)

/-- The state of `demoEvict` after a fourth fault, on page 3 of segment 0. -/
def demoEvict2 : SegmentTable :=
  (faultStep demoR demoEvict (0, 3, 0, Access.READ)).get (by decide)

/-- The state of `demo0` after the clock tick and the lazy allocation of the first
second-level table of segment 0, as inside the first `translate` call. -/
def demoLazy : SegmentTable := (demo0.tick.lazy_alloc demoR 0 0).get (by decide)

theorem vget_some_range {α : Type} {xs : List α} {i : Int} {a : α} (h : vget xs i = some a) :
    0 ≤ i ∧ i < xs.length := by
  unfold vget at h
  split at h
  · simp at h
  · rename_i hi
    have h1 : i.toNat < xs.length := by
      by_contra hc
      rw [List.getElem?_eq_none (by omega)] at h
      simp at h
    omega

theorem vget_of_range {α : Type} {xs : List α} {i : Int} (h0 : 0 ≤ i) (h1 : i < xs.length) :
    ∃ a, vget xs i = some a := by
  unfold vget
  have h2 : i.toNat < xs.length := by omega
  refine ⟨xs[i.toNat], ?_⟩
  rw [if_neg (by omega)]
  exact List.getElem?_eq_getElem h2

theorem vget_mem {α : Type} {xs : List α} {i : Int} {a : α} (h : vget xs i = some a) :
    a ∈ xs := by
  unfold vget at h
  split at h
  · simp at h
  · exact List.getElem?_mem h

theorem length_vset {α : Type} (xs : List α) (i : Int) (a : α) :
    (vset xs i a).length = xs.length := by
  unfold vset; split <;> simp

theorem length_vmod {α : Type} (xs : List α) (i : Int) (f : α → α) :
    (vmod xs i f).length = xs.length := by
  unfold vmod; split <;> simp [length_vset]

theorem vget_vset {α : Type} (xs : List α) (i j : Int) (a : α) :
    vget (vset xs i a) j = if j = i then (vget xs i).map (fun _ => a) else vget xs j := by
  unfold vget vset
  by_cases hi : i < 0
  · by_cases hj : j = i
    · subst hj; simp [hi]
    · simp [hi, hj]
  · by_cases hj : j = i
    · subst hj
      simp only [hi, if_false, if_true]
      rw [List.getElem?_set]
      by_cases hl : j.toNat < xs.length
      · simp [hl, List.getElem?_eq_getElem hl]
      · simp [hl, List.getElem?_eq_none (not_lt.mp hl)]
    · simp only [hi, hj, if_false]
      by_cases hj0 : j < 0
      · simp [hj0]
      · simp only [hj0, if_false]
        rw [List.getElem?_set_ne]
        omega

theorem vget_vmod {α : Type} (xs : List α) (i j : Int) (f : α → α) :
    vget (vmod xs i f) j = if j = i then (vget xs i).map f else vget xs j := by
  unfold vmod
  cases h : vget xs i with
  | none =>
    by_cases hj : j = i
    · subst hj; simp [h]
    · simp [hj]
  | some a =>
    simp only [vget_vset, h, Option.map_some']

theorem vmod_eq_vset {α : Type} {xs : List α} {i : Int} {a : α} (f : α → α)
    (h : vget xs i = some a) : vmod xs i f = vset xs i (f a) := by
  unfold vmod; rw [h]

/-! ## Page lookup lemmas -/

theorem pageAt_some {dirs : List (List DirEntry)} {s d p : Int} {pg : Page}
    (h : pageAt dirs s d p = some pg) :
    ∃ row de t, vget dirs s = some row ∧ vget row d = some de ∧ de.pt = some t ∧
      vget t.table_ p = some pg := by
  unfold pageAt at h
  split at h
  · simp at h
  · rename_i row hrow
    split at h
    · simp at h
    · rename_i de hde
      split at h
      · simp at h
      · rename_i t ht
        exact ⟨row, de, t, hrow, hde, ht, h⟩

theorem pageAt_of {dirs : List (List DirEntry)} {s d p : Int} {row : List DirEntry}
    {de : DirEntry} {t : PageTable} (h1 : vget dirs s = some row) (h2 : vget row d = some de)
    (h3 : de.pt = some t) : pageAt dirs s d p = vget t.table_ p := by
  unfold pageAt; rw [h1]; simp only; rw [h2]; simp only; rw [h3]

theorem pageAt_modPage (dirs : List (List DirEntry)) (s d p s1 d1 p1 : Int) (f : Page → Page) :
    pageAt (modPage dirs s d p f) s1 d1 p1 =
      if s1 = s ∧ d1 = d ∧ p1 = p then (pageAt dirs s d p).map f else pageAt dirs s1 d1 p1 := by
  unfold modPage pageAt
  rw [vget_vmod]
  by_cases hs : s1 = s
  · subst hs
    simp only [if_true, true_and]
    cases hrow : vget dirs s1 with
    | none => simp
    | some row =>
      simp only [Option.map_some']
      rw [vget_vmod]
      by_cases hd : d1 = d
      · subst hd
        simp only [if_true, true_and]
        cases hde : vget row d1 with
        | none => simp
        | some de =>
          simp only [Option.map_some']
          cases ht : de.pt with
          | none => simp
          | some t =>
            simp only [Option.map_some']
            rw [vget_vmod]
      · simp [hd]
  · simp [hs]

/-! ## Case analysis of `translate` -/

theorem translate_cases {R : Nat → Nat} {st st1 : SegmentTable} {seg pn off : Int}
    {acc : Access} {r lat : Int} (h : st.translate R seg pn off acc = some (st1, r, lat)) :
    st.time_ < INT_MAX ∧ lat = 1 + ((R st.rand_ % 5 : Nat) : Int) ∧
    ((¬ (0 ≤ seg ∧ seg < st.segments_.length) ∧ st1 = st.tick.seg_fault ∧ r = -1) ∨
     ∃ S, vget st.segments_ seg = some S ∧
      ((acc = Access.WRITE ∧ S.prot = Protection.READ_ONLY ∧
          st1 = st.tick.prot_violation ∧ r = -1) ∨
       (¬ (acc = Access.WRITE ∧ S.prot = Protection.READ_ONLY) ∧
          ¬ (0 ≤ pn ∧ pn < S.limit_pages) ∧ st1 = st.tick.seg_fault ∧ r = -1) ∨
       (¬ (acc = Access.WRITE ∧ S.prot = Protection.READ_ONLY) ∧
          (0 ≤ pn ∧ pn < S.limit_pages) ∧ ¬ (0 ≤ off ∧ off < st.page_size_) ∧
          st1 = st.tick.offset_fault ∧ r = -1) ∨
       (Passes st seg pn off acc S ∧
          st.tick.walk R S seg pn off acc (st.time_ + 1) lat = some (st1, r, lat)))) := by
  unfold SegmentTable.translate at h
  split at h
  · simp at h
  rename_i ht
  refine ⟨by omega, ?_⟩
  simp only at h
  split at h
  · rename_i hs
    simp only [Option.some.injEq, Prod.mk.injEq] at h
    obtain ⟨h1, h2, h3⟩ := h
    refine ⟨h3.symm, Or.inl ⟨?_, h1.symm, h2.symm⟩⟩
    simp only [SegmentTable.tick] at hs
    omega
  rename_i hs
  split at h
  · simp at h
  rename_i S hS
  simp only [SegmentTable.tick] at hS
  split at h
  · rename_i hw
    simp only [Option.some.injEq, Prod.mk.injEq] at h
    obtain ⟨h1, h2, h3⟩ := h
    exact ⟨h3.symm, Or.inr ⟨S, hS, Or.inl ⟨hw.1, hw.2, h1.symm, h2.symm⟩⟩⟩
  rename_i hw
  split at h
  · rename_i hp
    simp only [Option.some.injEq, Prod.mk.injEq] at h
    obtain ⟨h1, h2, h3⟩ := h
    exact ⟨h3.symm, Or.inr ⟨S, hS, Or.inr (Or.inl ⟨hw, by omega, h1.symm, h2.symm⟩)⟩⟩
  rename_i hp
  split at h
  · rename_i ho
    simp only [Option.some.injEq, Prod.mk.injEq] at h
    obtain ⟨h1, h2, h3⟩ := h
    simp only [SegmentTable.tick] at ho
    exact ⟨h3.symm, Or.inr ⟨S, hS, Or.inr (Or.inr (Or.inl
      ⟨hw, by omega, by omega, h1.symm, h2.symm⟩))⟩⟩
  rename_i ho
  simp only [SegmentTable.tick] at ho
  have hl : lat = 1 + ((R st.rand_ % 5 : Nat) : Int) := by
    unfold SegmentTable.walk at h
    split at h
    · simp at h
    simp only at h
    split at h
    · simp at h
    split at h
    · simp at h
    split at h
    · simp only [Option.some.injEq, Prod.mk.injEq] at h; exact h.2.2.symm
    split at h
    · split at h
      · simp at h
      · simp only [Option.some.injEq, Prod.mk.injEq] at h; exact h.2.2.symm
      · simp only [Option.some.injEq, Prod.mk.injEq] at h; exact h.2.2.symm
    · split at h
      · simp at h
      · simp only [Option.some.injEq, Prod.mk.injEq] at h; exact h.2.2.symm
  subst hl
  exact ⟨rfl, Or.inr ⟨S, hS, Or.inr (Or.inr (Or.inr ⟨⟨hS, hw, by omega, by omega⟩, h⟩))⟩⟩

theorem walk_cases {R : Nat → Nat} {st st1 : SegmentTable} {S : Segment} {seg pn off : Int}
    {acc : Access} {now lat r l : Int}
    (h : st.walk R S seg pn off acc now lat = some (st1, r, l)) :
    l = lat ∧ st.dir_size_ ≠ 0 ∧
    ∃ sa P, st.lazy_alloc R seg (Int.tdiv pn st.dir_size_) = some sa ∧
      pageAt sa.dirs_ seg (Int.tdiv pn st.dir_size_) (Int.tmod pn st.dir_size_) = some P ∧
      ((acc = Access.WRITE ∧ P.prot = Protection.READ_ONLY ∧
          st1 = sa.prot_violation ∧ r = -1) ∨
       (¬ (acc = Access.WRITE ∧ P.prot = Protection.READ_ONLY) ∧ P.present = false ∧
          ∃ sb, sa.page_fault seg (Int.tdiv pn st.dir_size_) (Int.tmod pn st.dir_size_) now
              = some (sb, false) ∧ st1 = sb.log ∧ r = -1) ∨
       (¬ (acc = Access.WRITE ∧ P.prot = Protection.READ_ONLY) ∧ P.present = false ∧
          ∃ sb, sa.page_fault seg (Int.tdiv pn st.dir_size_) (Int.tmod pn st.dir_size_) now
              = some (sb, true) ∧ st1 = sb.success lat ∧
            r = S.base + pn * sb.page_size_ + off) ∨
       (¬ (acc = Access.WRITE ∧ P.prot = Protection.READ_ONLY) ∧ P.present = true ∧
          ∃ sb, sa.page_hit P seg (Int.tdiv pn st.dir_size_) (Int.tmod pn st.dir_size_) now
              = some sb ∧ st1 = sb.success lat ∧
            r = S.base + pn * sb.page_size_ + off)) := by
  unfold SegmentTable.walk at h
  split at h
  · simp at h
  rename_i hd
  simp only at h
  split at h
  · simp at h
  rename_i sa hsa
  split at h
  · simp at h
  rename_i P hP
  split at h
  · rename_i hw
    simp only [Option.some.injEq, Prod.mk.injEq] at h
    obtain ⟨h1, h2, h3⟩ := h
    exact ⟨h3.symm, hd, sa, P, hsa, hP, Or.inl ⟨hw.1, hw.2, h1.symm, h2.symm⟩⟩
  rename_i hw
  split at h
  · rename_i hpres
    split at h
    · simp at h
    · rename_i sb hsb
      simp only [Option.some.injEq, Prod.mk.injEq] at h
      obtain ⟨h1, h2, h3⟩ := h
      exact ⟨h3.symm, hd, sa, P, hsa, hP, Or.inr (Or.inl ⟨hw, hpres, sb, hsb, h1.symm, h2.symm⟩)⟩
    · rename_i sb hsb
      simp only [Option.some.injEq, Prod.mk.injEq] at h
      obtain ⟨h1, h2, h3⟩ := h
      exact ⟨h3.symm, hd, sa, P, hsa, hP,
        Or.inr (Or.inr (Or.inl ⟨hw, hpres, sb, hsb, h1.symm, h2.symm⟩))⟩
  · rename_i hpres
    split at h
    · simp at h
    · rename_i sb hsb
      simp only [Option.some.injEq, Prod.mk.injEq] at h
      obtain ⟨h1, h2, h3⟩ := h
      exact ⟨h3.symm, hd, sa, P, hsa, hP,
        Or.inr (Or.inr (Or.inr ⟨hw, by simpa using hpres, sb, hsb, h1.symm, h2.symm⟩))⟩

/-! ## The frame pool operations -/

theorem vget_natCast {α : Type} (xs : List α) (i : Nat) : vget xs (i : Int) = xs[i]? := by
  unfold vget
  rw [if_neg (by omega)]
  simp

theorem scan_free_total (meta : List FrameMeta) (n i : Nat) (h : i + n ≤ meta.length) :
    ∃ f, scan_free meta n i = some f ∧
      ((f = -1 ∧ ∀ j : Nat, i ≤ j → j < i + n → ∃ m, meta[j]? = some m ∧ m.free = false) ∨
       (∃ k : Nat, f = (k : Int) ∧ i ≤ k ∧ k < i + n ∧ (∃ m, meta[k]? = some m ∧ m.free = true) ∧
          ∀ j : Nat, i ≤ j → j < k → ∃ m, meta[j]? = some m ∧ m.free = false)) := by
  induction n generalizing i with
  | zero =>
    exact ⟨-1, rfl, Or.inl ⟨rfl, fun j h1 h2 => by omega⟩⟩
  | succ n ih =>
    have hi : i < meta.length := by omega
    have hget : meta[i]? = some meta[i] := List.getElem?_eq_getElem hi
    unfold scan_free
    rw [hget]
    simp only
    by_cases hfree : meta[i].free = true
    · rw [if_pos hfree]
      exact ⟨(i : Int), rfl, Or.inr ⟨i, rfl, le_refl _, by omega, ⟨meta[i], hget, hfree⟩,
        fun j h1 h2 => by omega⟩⟩
    · rw [if_neg hfree]
      obtain ⟨f, hf, hcase⟩ := ih (i + 1) (by omega)
      refine ⟨f, hf, ?_⟩
      have hnf : meta[i].free = false := by simpa using hfree
      rcases hcase with ⟨h1, h2⟩ | ⟨k, hk, hk1, hk2, hk3, hk4⟩
      · left
        refine ⟨h1, fun j hj1 hj2 => ?_⟩
        by_cases hji : j = i
        · subst hji; exact ⟨meta[j], hget, hnf⟩
        · exact h2 j (by omega) (by omega)
      · right
        refine ⟨k, hk, by omega, by omega, hk3, fun j hj1 hj2 => ?_⟩
        by_cases hji : j = i
        · subst hji; exact ⟨meta[j], hget, hnf⟩
        · exact hk4 j (by omega) hj2

/-- What `allocate_any_free` does on a pool whose `meta` has `num_frames` entries. -/
theorem allocate_any_free_total (pm : PhysicalMemory)
    (hlen : (pm.meta.length : Int) = pm.num_frames) :
    (pm.allocate_any_free = some (pm, -1) ∧
        ∀ f m, vget pm.meta f = some m → m.free = false) ∨
    (∃ f m, vget pm.meta f = some m ∧ m.free = true ∧
        (∀ j mj, 0 ≤ j → j < f → vget pm.meta j = some mj → mj.free = false) ∧
        pm.allocate_any_free =
          some ({ pm with meta := vset pm.meta f { m with free := false },
                          fifo_q := pm.fifo_q ++ [f] }, f)) := by
  have hn : pm.num_frames.toNat = pm.meta.length := by omega
  obtain ⟨f, hf, hcase⟩ := scan_free_total pm.meta pm.num_frames.toNat 0 (by omega)
  unfold PhysicalMemory.allocate_any_free
  rw [hf]
  simp only
  rcases hcase with ⟨h1, h2⟩ | ⟨k, hk, _, hk2, ⟨m, hm, hmf⟩, hk4⟩
  · left
    subst h1
    refine ⟨by simp, fun f m hfm => ?_⟩
    have hr := vget_some_range hfm
    obtain ⟨m1, hm1, hm1f⟩ := h2 f.toNat (by omega) (by omega)
    have : vget pm.meta f = pm.meta[f.toNat]? := by
      unfold vget; rw [if_neg (by omega)]
    rw [this, hm1] at hfm
    cases hfm
    exact hm1f
  · right
    subst hk
    have hget : vget pm.meta (k : Int) = some m := by rw [vget_natCast]; exact hm
    refine ⟨(k : Int), m, hget, hmf, ?_, ?_⟩
    · intro j mj hj0 hjk hj
      obtain ⟨m1, hm1, hm1f⟩ := hk4 j.toNat (by omega) (by omega)
      have : vget pm.meta j = pm.meta[j.toNat]? := by
        unfold vget; rw [if_neg (by omega)]
      rw [this, hm1] at hj
      cases hj
      exact hm1f
    · rw [if_neg (by omega), vmod_eq_vset _ hget]

/-- Reading off a result of `allocate_any_free` that reports no free frame. -/
theorem allocate_any_free_none {pm pm1 : PhysicalMemory}
    (h : pm.allocate_any_free = some (pm1, -1)) : pm1 = pm := by
  unfold PhysicalMemory.allocate_any_free at h
  split at h
  · simp at h
  · rename_i f hf
    split at h
    · simp only [Option.some.injEq, Prod.mk.injEq] at h; exact h.1.symm
    · rename_i hne
      simp only [Option.some.injEq, Prod.mk.injEq] at h
      exact absurd h.2 hne

theorem drop_stale_total (meta : List FrameMeta) (q : List Int)
    (hq : ∀ x ∈ q, ∃ m, vget meta x = some m) :
    ∃ q1, drop_stale meta q = some q1 ∧ (∀ x ∈ q1, x ∈ q) ∧
      (∀ x ∈ q, (∀ m, vget meta x = some m → m.free = false) → x ∈ q1) ∧
      (∀ f q2, q1 = f :: q2 → ∃ m, vget meta f = some m ∧ m.free = false) := by
  induction q with
  | nil => exact ⟨[], rfl, fun x hx => hx, fun x hx _ => hx, fun f q2 h => by simp at h⟩
  | cons a q ih =>
    obtain ⟨m, hm⟩ := hq a (List.mem_cons_self a q)
    obtain ⟨q1, h1, h2, h3, h4⟩ := ih (fun x hx => hq x (List.mem_cons_of_mem a hx))
    unfold drop_stale
    rw [hm]
    simp only
    by_cases hfree : m.free = true
    · rw [if_pos hfree]
      refine ⟨q1, h1, fun x hx => List.mem_cons_of_mem a (h2 x hx), fun x hx hnf => ?_, h4⟩
      rcases List.mem_cons.mp hx with hxa | hxq
      · subst hxa
        have := hnf m hm
        rw [this] at hfree
        simp at hfree
      · exact h3 x hxq hnf
    · rw [if_neg hfree]
      refine ⟨a :: q, rfl, fun x hx => hx, fun x hx _ => hx, fun f q2 h => ?_⟩
      simp only [List.cons.injEq] at h
      obtain ⟨hfa, _⟩ := h
      subst hfa
      exact ⟨m, hm, by simpa using hfree⟩

theorem drop_stale_head {meta : List FrameMeta} {q q1 : List Int} {f : Int}
    (h : drop_stale meta q = some (f :: q1)) : ∃ m, vget meta f = some m ∧ m.free = false := by
  induction q with
  | nil => simp [drop_stale] at h
  | cons a q ih =>
    unfold drop_stale at h
    split at h
    · simp at h
    · rename_i m hm
      split at h
      · exact ih h
      · rename_i hfree
        simp only [Option.some.injEq, List.cons.injEq] at h
        obtain ⟨hfa, _⟩ := h
        subst hfa
        exact ⟨m, hm, by simpa using hfree⟩

theorem lru_scan_total (meta : List FrameMeta) (T : Int) (n i : Nat) (best ts : Int)
    (h : i + n ≤ meta.length)
    (hb : best = -1 ∨ ∃ m, vget meta best = some m ∧ m.free = false)
    (hbt : best = -1 → T ≤ ts) :
    ∃ b, lru_scan meta n i best ts = some b ∧
      (b = -1 ∨ ∃ m, vget meta b = some m ∧ m.free = false) ∧
      ((∃ (j : Nat) (m : FrameMeta), i ≤ j ∧ j < i + n ∧ meta[j]? = some m ∧ m.free = false ∧
          m.last_access < T) → b ≠ -1) ∧
      (best ≠ -1 → b ≠ -1) := by
  induction n generalizing i best ts with
  | zero =>
    refine ⟨best, rfl, hb, ?_, fun hne => hne⟩
    rintro ⟨j, m, h1, h2, _⟩
    omega
  | succ n ih =>
    have hi : i < meta.length := by omega
    have hget : meta[i]? = some meta[i] := List.getElem?_eq_getElem hi
    unfold lru_scan
    rw [hget]
    simp only
    by_cases hc : meta[i].free = false ∧ meta[i].last_access < ts
    · rw [if_pos hc]
      have hne : (i : Int) ≠ -1 := by omega
      obtain ⟨b, hb1, hb2, _, hb4⟩ := ih (i + 1) (i : Int) meta[i].last_access (by omega)
        (Or.inr ⟨meta[i], by rw [vget_natCast]; exact hget, hc.1⟩) (fun h0 => absurd h0 hne)
      exact ⟨b, hb1, hb2, fun _ => hb4 hne, fun _ => hb4 hne⟩
    · rw [if_neg hc]
      obtain ⟨b, hb1, hb2, hb3, hb4⟩ := ih (i + 1) best ts (by omega) hb hbt
      refine ⟨b, hb1, hb2, ?_, hb4⟩
      rintro ⟨j, m, h1, h2, h3, h4, h5⟩
      by_cases hji : j = i
      · subst hji
        rw [hget] at h3
        cases h3
        by_cases hbest : best = -1
        · exact absurd ⟨h4, lt_of_lt_of_le h5 (hbt hbest)⟩ hc
        · exact hb4 hbest
      · exact hb3 ⟨j, m, by omega, by omega, h3, h4, h5⟩

/-- What `choose_victim` does on a pool whose `meta` has `num_frames` entries and whose queue
holds frame ids only: it is defined, leaves the frames alone, and a victim is a used frame. -/
theorem choose_victim_total (pm : PhysicalMemory) (now : Int)
    (hlen : (pm.meta.length : Int) = pm.num_frames)
    (hq : ∀ x ∈ pm.fifo_q, ∃ m, vget pm.meta x = some m) :
    ∃ pm2 v, pm.choose_victim now = some (pm2, v) ∧
      pm2.meta = pm.meta ∧ pm2.num_frames = pm.num_frames ∧ pm2.policy = pm.policy ∧
      (v = -1 ∨ ∃ m, vget pm.meta v = some m ∧ m.free = false) ∧
      (∀ x ∈ pm2.fifo_q, x ∈ pm.fifo_q) ∧
      (∀ x ∈ pm.fifo_q, (∀ m, vget pm.meta x = some m → m.free = false) → x ∈ pm2.fifo_q) ∧
      ((∀ f m, vget pm.meta f = some m → m.free = false → f ∈ pm.fifo_q) →
        (∀ f m, vget pm.meta f = some m → m.last_access < INT_MAX) →
        v = -1 → ∀ f m, vget pm.meta f = some m → m.free = true) := by
  obtain ⟨nf, pol, meta, q⟩ := pm
  simp only at hlen hq ⊢
  unfold PhysicalMemory.choose_victim
  cases pol with
  | FIFO =>
    simp only
    obtain ⟨q1, h1, h2, h3, h4⟩ := drop_stale_total meta q hq
    rw [h1]
    cases q1 with
    | nil =>
      refine ⟨_, -1, rfl, rfl, rfl, rfl, Or.inl rfl,
        fun x hx => by simp at hx, fun x hx hnf => h3 x hx hnf, ?_⟩
      intro hcover _ _ f m hfm
      by_contra hfree
      have hnf : m.free = false := by simpa using hfree
      have hmem := h3 f (hcover f m hfm hnf) (fun m1 hm1 => by
        rw [hfm] at hm1; cases hm1; exact hnf)
      simp at hmem
    | cons f q2 =>
      obtain ⟨m, hm, hmf⟩ := h4 f q2 rfl
      have hne : f ≠ -1 := by
        have := (vget_some_range hm).1
        omega
      refine ⟨_, f, rfl, rfl, rfl, rfl, Or.inr ⟨m, hm, hmf⟩,
        ?_, ?_, fun _ _ hv => absurd hv hne⟩
      · intro x hx
        simp only [List.mem_append, List.mem_singleton] at hx
        rcases hx with hx | hx
        · exact h2 x (List.mem_cons_of_mem f hx)
        · subst hx; exact h2 x (List.mem_cons_self x q2)
      · intro x hx hnf
        have := h3 x hx hnf
        simp only [List.mem_append, List.mem_singleton]
        rcases List.mem_cons.mp this with hxf | hxq
        · exact Or.inr hxf
        · exact Or.inl hxq
  | LRU =>
    simp only
    obtain ⟨b, hb1, hb2, hb3, _⟩ := lru_scan_total meta INT_MAX nf.toNat 0 (-1)
      INT_MAX (by omega) (Or.inl rfl) (fun _ => le_refl _)
    rw [hb1]
    refine ⟨_, b, rfl, rfl, rfl, rfl, hb2, fun x hx => hx, fun x hx _ => hx, ?_⟩
    intro _ hts hv f m hfm
    by_contra hfree
    have hnf : m.free = false := by simpa using hfree
    have hr := vget_some_range hfm
    refine hb3 ⟨f.toNat, m, by omega, by omega, ?_, hnf, hts f m hfm⟩ hv
    unfold vget at hfm
    rw [if_neg (by omega)] at hfm
    exact hfm

/-! ## Updates of one page entry keep the layout -/

theorem vset_vset {α : Type} (xs : List α) (i : Int) (a b : α) :
    vset (vset xs i a) i b = vset xs i b := by
  unfold vset
  split
  · rfl
  · simp

theorem length_modPage (dirs : List (List DirEntry)) (s d p : Int) (f : Page → Page) :
    (modPage dirs s d p f).length = dirs.length := by
  unfold modPage; exact length_vmod _ _ _

theorem vget_modPage {dirs : List (List DirEntry)} {s d p s1 : Int} {f : Page → Page}
    {row1 : List DirEntry} (h : vget (modPage dirs s d p f) s1 = some row1) :
    ∃ row, vget dirs s1 = some row ∧ row1.length = row.length ∧
      ∀ d1 de1, vget row1 d1 = some de1 →
        ∃ de, vget row d1 = some de ∧ de1.present = de.present ∧
          (de1.pt.isSome = de.pt.isSome) ∧
          ∀ t1, de1.pt = some t1 →
            ∃ t, de.pt = some t ∧ t1.pages_ = t.pages_ ∧ t1.table_.length = t.table_.length := by
  unfold modPage at h
  rw [vget_vmod] at h
  by_cases hs : s1 = s
  · subst hs
    simp only [if_true] at h
    cases hrow : vget dirs s1 with
    | none => rw [hrow] at h; simp at h
    | some row =>
      rw [hrow] at h
      simp only [Option.map_some', Option.some.injEq] at h
      subst h
      refine ⟨row, rfl, length_vmod _ _ _, ?_⟩
      intro d1 de1 hde1
      rw [vget_vmod] at hde1
      by_cases hd : d1 = d
      · subst hd
        simp only [if_true] at hde1
        cases hde : vget row d1 with
        | none => rw [hde] at hde1; simp at hde1
        | some de =>
          rw [hde] at hde1
          simp only [Option.map_some', Option.some.injEq] at hde1
          subst hde1
          refine ⟨de, rfl, rfl, by simp, ?_⟩
          intro t1 ht1
          cases hpt : de.pt with
          | none => rw [hpt] at ht1; simp at ht1
          | some t =>
            rw [hpt] at ht1
            simp only [Option.map_some', Option.some.injEq] at ht1
            subst ht1
            exact ⟨t, rfl, rfl, length_vmod _ _ _⟩
      · simp only [hd, if_false] at hde1
        exact ⟨de1, hde1, rfl, rfl, fun t1 ht1 => ⟨t1, ht1, rfl, rfl⟩⟩
  · simp only [hs, if_false] at h
    exact ⟨row1, h, rfl, fun d1 de1 hde1 =>
      ⟨de1, hde1, rfl, rfl, fun t1 ht1 => ⟨t1, ht1, rfl, rfl⟩⟩⟩

/-- Rewriting one page entry, and the pool's frames or queue, keeps the layout. -/
theorem Shape.update {cli : CLI} {st : SegmentTable} (hs : Shape cli st)
    (s d p : Int) (f : Page → Page) (meta : List FrameMeta) (q : List Int) (mt : Metrics)
    (hm : meta.length = st.pm_.meta.length) :
    Shape cli { st with dirs_ := modPage st.dirs_ s d p f,
                        pm_ := { st.pm_ with meta := meta, fifo_q := q }, metrics_ := mt } := by
  constructor
  · exact hs.dir_size
  · exact hs.page_size
  · exact hs.policy
  · exact hs.frames
  · simp only; rw [hm]; exact hs.meta_len
  · exact hs.segs_len
  · simp only; rw [length_modPage]; exact hs.dirs_len
  · exact hs.seg_shape
  · intro s1 row1 h1
    obtain ⟨row, hrow, hlen, _⟩ := vget_modPage h1
    rw [hlen]; exact hs.row_len s1 row hrow
  · intro s1 row1 d1 de1 h1 h2
    obtain ⟨row, hrow, _, hrest⟩ := vget_modPage h1
    obtain ⟨de, hde, hp, hpt, ht⟩ := hrest d1 de1 h2
    obtain ⟨e1, e2⟩ := hs.entry s1 row d1 de hrow hde
    refine ⟨by rw [hp, hpt]; exact e1, ?_⟩
    intro t1 ht1
    obtain ⟨t, htt, h3, h4⟩ := ht t1 ht1
    obtain ⟨e3, e4⟩ := e2 t htt
    exact ⟨by rw [h3]; exact e3, by rw [h4]; exact e4⟩

/-! ## Linking and unlinking keep the back-references consistent -/

theorem Linked.absent_frame {dirs : List (List DirEntry)} {meta : List FrameMeta}
    (hl : Linked dirs meta) {s d p : Int} {P : Page} (hP : pageAt dirs s d p = some P)
    (hab : P.present = false) : P.frame = -1 := by
  by_contra hne
  obtain ⟨m, hm, hmf, h1, h2, h3⟩ := hl.page_frame s d p P hP hne
  obtain ⟨pg, hpg, hpres, _⟩ := hl.frame_page P.frame m hm hmf
  rw [h1, h2, h3, hP] at hpg
  cases hpg
  rw [hab] at hpres
  cases hpres

theorem Linked.present_of_frame {dirs : List (List DirEntry)} {meta : List FrameMeta}
    (hl : Linked dirs meta) {s d p : Int} {P : Page} (hP : pageAt dirs s d p = some P)
    (hne : P.frame ≠ -1) : P.present = true := by
  by_contra hc
  exact hne (hl.absent_frame hP (by simpa using hc))

theorem Linked.link {dirs : List (List DirEntry)} {meta : List FrameMeta}
    (hl : Linked dirs meta) {f s d p now : Int} {m : FrameMeta} {P : Page}
    (hm : vget meta f = some m) (hfree : m.free = true)
    (hP : pageAt dirs s d p = some P) (hab : P.present = false) :
    Linked (modPage dirs s d p (fun Q => { Q with present := true, frame := f, last_access := now }))
      (vset meta f { free := false, seg := s, dir := d, page := p,
                     loaded_time := now, last_access := now }) := by
  constructor
  · intro f1 m1 h1 h1f
    rw [vget_vset] at h1
    by_cases hf : f1 = f
    · subst hf
      rw [if_pos rfl, hm] at h1
      simp only [Option.map_some', Option.some.injEq] at h1
      subst h1
      simp only
      rw [pageAt_modPage, if_pos ⟨rfl, rfl, rfl⟩, hP]
      exact ⟨_, rfl, rfl, rfl⟩
    · rw [if_neg hf] at h1
      obtain ⟨pg, hpg, hpres, hfr⟩ := hl.frame_page f1 m1 h1 h1f
      refine ⟨pg, ?_, hpres, hfr⟩
      rw [pageAt_modPage, if_neg]
      · exact hpg
      · rintro ⟨e1, e2, e3⟩
        rw [e1, e2, e3, hP] at hpg
        cases hpg
        rw [hab] at hpres
        cases hpres
  · intro s1 d1 p1 pg hpg hne
    rw [pageAt_modPage] at hpg
    by_cases ht : s1 = s ∧ d1 = d ∧ p1 = p
    · rw [if_pos ht, hP] at hpg
      simp only [Option.map_some', Option.some.injEq] at hpg
      subst hpg
      simp only
      rw [vget_vset, if_pos rfl, hm]
      exact ⟨_, rfl, rfl, ht.1.symm, ht.2.1.symm, ht.2.2.symm⟩
    · rw [if_neg ht] at hpg
      obtain ⟨m1, hm1, hm1f, h1, h2, h3⟩ := hl.page_frame s1 d1 p1 pg hpg hne
      have hff : pg.frame ≠ f := by
        intro e
        rw [e, hm] at hm1
        cases hm1
        rw [hfree] at hm1f
        cases hm1f
      exact ⟨m1, by rw [vget_vset, if_neg hff]; exact hm1, hm1f, h1, h2, h3⟩
  · intro f1 m1 h1 h1f
    rw [vget_vset] at h1
    by_cases hf : f1 = f
    · subst hf
      rw [if_pos rfl, hm] at h1
      simp only [Option.map_some', Option.some.injEq] at h1
      subst h1
      cases h1f
    · rw [if_neg hf] at h1
      exact hl.free_clear f1 m1 h1 h1f

theorem Linked.unlink {dirs : List (List DirEntry)} {meta : List FrameMeta}
    (hl : Linked dirs meta) {v : Int} {m : FrameMeta}
    (hm : vget meta v = some m) (hused : m.free = false) :
    Linked (modPage dirs m.seg m.dir m.page (fun Q => { Q with present := false, frame := -1 }))
      (vset meta v {}) := by
  obtain ⟨own, hown, _, hownf⟩ := hl.frame_page v m hm hused
  constructor
  · intro f1 m1 h1 h1f
    rw [vget_vset] at h1
    by_cases hf : f1 = v
    · subst hf
      rw [if_pos rfl, hm] at h1
      simp only [Option.map_some', Option.some.injEq] at h1
      subst h1
      cases h1f
    · rw [if_neg hf] at h1
      obtain ⟨pg, hpg, hpres, hfr⟩ := hl.frame_page f1 m1 h1 h1f
      refine ⟨pg, ?_, hpres, hfr⟩
      rw [pageAt_modPage, if_neg]
      · exact hpg
      · rintro ⟨e1, e2, e3⟩
        rw [e1, e2, e3, hown] at hpg
        cases hpg
        exact hf (hfr.symm.trans hownf)
  · intro s1 d1 p1 pg hpg hne
    rw [pageAt_modPage] at hpg
    by_cases ht : s1 = m.seg ∧ d1 = m.dir ∧ p1 = m.page
    · rw [if_pos ht, hown] at hpg
      simp only [Option.map_some', Option.some.injEq] at hpg
      subst hpg
      exact absurd rfl hne
    · rw [if_neg ht] at hpg
      obtain ⟨m1, hm1, hm1f, h1, h2, h3⟩ := hl.page_frame s1 d1 p1 pg hpg hne
      have hff : pg.frame ≠ v := by
        intro e
        rw [e, hm] at hm1
        cases hm1
        exact ht ⟨h1.symm, h2.symm, h3.symm⟩
      exact ⟨m1, by rw [vget_vset, if_neg hff]; exact hm1, hm1f, h1, h2, h3⟩
  · intro f1 m1 h1 h1f
    rw [vget_vset] at h1
    by_cases hf : f1 = v
    · subst hf
      rw [if_pos rfl, hm] at h1
      simp only [Option.map_some', Option.some.injEq] at h1
      exact h1.symm
    · rw [if_neg hf] at h1
      exact hl.free_clear f1 m1 h1 h1f

theorem Linked.stamp {dirs : List (List DirEntry)} {meta : List FrameMeta}
    (hl : Linked dirs meta) (s d p now : Int) :
    Linked (modPage dirs s d p (fun Q => { Q with last_access := now })) meta := by
  constructor
  · intro f1 m1 h1 h1f
    obtain ⟨pg, hpg, hpres, hfr⟩ := hl.frame_page f1 m1 h1 h1f
    rw [pageAt_modPage]
    by_cases ht : m1.seg = s ∧ m1.dir = d ∧ m1.page = p
    · rw [if_pos ht]
      rw [ht.1, ht.2.1, ht.2.2] at hpg
      rw [hpg]
      exact ⟨_, rfl, hpres, hfr⟩
    · rw [if_neg ht]
      exact ⟨pg, hpg, hpres, hfr⟩
  · intro s1 d1 p1 pg hpg hne
    rw [pageAt_modPage] at hpg
    by_cases ht : s1 = s ∧ d1 = d ∧ p1 = p
    · rw [if_pos ht] at hpg
      cases hP : pageAt dirs s d p with
      | none => rw [hP] at hpg; simp at hpg
      | some P =>
        rw [hP] at hpg
        simp only [Option.map_some', Option.some.injEq] at hpg
        subst hpg
        rw [← ht.1, ← ht.2.1, ← ht.2.2] at hP
        exact hl.page_frame s1 d1 p1 P hP hne
    · rw [if_neg ht] at hpg
      exact hl.page_frame s1 d1 p1 pg hpg hne
  · exact hl.free_clear

theorem Linked.touch {dirs : List (List DirEntry)} {meta : List FrameMeta}
    (hl : Linked dirs meta) {f now : Int} {m : FrameMeta}
    (hm : vget meta f = some m) (hused : m.free = false) :
    Linked dirs (vset meta f { m with last_access := now }) := by
  constructor
  · intro f1 m1 h1 h1f
    rw [vget_vset] at h1
    by_cases hf : f1 = f
    · subst hf
      rw [if_pos rfl, hm] at h1
      simp only [Option.map_some', Option.some.injEq] at h1
      subst h1
      exact hl.frame_page f1 m hm hused
    · rw [if_neg hf] at h1
      exact hl.frame_page f1 m1 h1 h1f
  · intro s1 d1 p1 pg hpg hne
    obtain ⟨m1, hm1, hm1f, h1, h2, h3⟩ := hl.page_frame s1 d1 p1 pg hpg hne
    rw [vget_vset]
    by_cases hf : pg.frame = f
    · rw [if_pos hf, hm]
      rw [hf, hm] at hm1
      cases hm1
      exact ⟨_, rfl, hm1f, h1, h2, h3⟩
    · rw [if_neg hf]
      exact ⟨m1, hm1, hm1f, h1, h2, h3⟩
  · intro f1 m1 h1 h1f
    rw [vget_vset] at h1
    by_cases hf : f1 = f
    · subst hf
      rw [if_pos rfl, hm] at h1
      simp only [Option.map_some', Option.some.injEq] at h1
      subst h1
      rw [hused] at h1f
      cases h1f
    · rw [if_neg hf] at h1
      exact hl.free_clear f1 m1 h1 h1f

/-! ## The fault path on an engine that satisfies the invariant -/

theorem owning_clear_total {st : SegmentTable}
    (he : ∀ s row d de, vget st.dirs_ s = some row → vget row d = some de →
      (de.present = true ↔ de.pt.isSome = true) ∧
      ∀ t, de.pt = some t → t.pages_ = (t.table_.length : Int))
    {m : FrameMeta} {pg : Page} (hpg : pageAt st.dirs_ m.seg m.dir m.page = some pg) :
    st.owning_clear m =
      some ({ st with
        dirs_ := modPage st.dirs_ m.seg m.dir m.page
          (fun P => { P with present := false, frame := -1 }) }, true) := by
  obtain ⟨row, de, t, hrow, hde, ht, hp⟩ := pageAt_some hpg
  have r1 := vget_some_range hrow
  have r2 := vget_some_range hde
  have r3 := vget_some_range hp
  obtain ⟨e1, e2⟩ := he m.seg row m.dir de hrow hde
  have e3 := e2 t ht
  have hpres : de.present = true := e1.mpr (by rw [ht]; rfl)
  unfold SegmentTable.owning_clear
  rw [if_neg (by omega), if_neg (by omega), hrow]
  simp only
  rw [if_neg (by omega), hde]
  simp only
  rw [ht]
  simp only
  rw [if_neg (by rw [hpres]; simp), if_neg (by omega), hp]

theorem Shape.entry_ok {cli : CLI} {st : SegmentTable} (hs : Shape cli st) :
    ∀ s row d de, vget st.dirs_ s = some row → vget row d = some de →
      (de.present = true ↔ de.pt.isSome = true) ∧
      ∀ t, de.pt = some t → t.pages_ = (t.table_.length : Int) := by
  intro s row d de h1 h2
  obtain ⟨e1, e2⟩ := hs.entry s row d de h1 h2
  refine ⟨e1, fun t ht => ?_⟩
  obtain ⟨e3, e4⟩ := e2 t ht
  rw [e3, e4]

theorem install_total (st : SegmentTable) {f : Int} {m : FrameMeta} (seg dir page now : Int)
    (hm : vget st.pm_.meta f = some m) :
    st.install f seg dir page now =
      some { st with
        dirs_ := modPage st.dirs_ seg dir page
          (fun P => { P with present := true, frame := f, last_access := now }),
        pm_ := { st.pm_ with
          meta := vset st.pm_.meta f { free := false, seg := seg, dir := dir, page := page,
                                        loaded_time := now, last_access := now },
          fifo_q := st.pm_.fifo_q ++ [f] } } := by
  unfold SegmentTable.install PhysicalMemory.map
  rw [hm]

theorem page_fault_total {cli : CLI} {st : SegmentTable} (hs : Shape cli st)
    (hl : Linked st.dirs_ st.pm_.meta) (hq : QueueOK st.pm_) (seg dir page now : Int) :
    (∃ f m, vget st.pm_.meta f = some m ∧ m.free = true ∧
        (∀ j mj, 0 ≤ j → j < f → vget st.pm_.meta j = some mj → mj.free = false) ∧
        st.page_fault seg dir page now = some (faultFree st f seg dir page now, true)) ∨
    ((∀ f m, vget st.pm_.meta f = some m → m.free = false) ∧
      ((∃ pm2 v m, st.pm_.choose_victim now = some (pm2, v) ∧ vget st.pm_.meta v = some m ∧
          m.free = false ∧
          st.page_fault seg dir page now
            = some (faultEvict st pm2.fifo_q v m seg dir page now, true)) ∨
       (∃ pm2, st.pm_.choose_victim now = some (pm2, -1) ∧
          st.page_fault seg dir page now =
            some ({ st with
              metrics_ := { st.metrics_ with faults := st.metrics_.faults + 1 },
              pm_ := pm2 }, false)))) := by
  have hlen : (st.pm_.meta.length : Int) = st.pm_.num_frames := by
    rw [hs.meta_len, hs.frames]
  rcases allocate_any_free_total st.pm_ hlen with ⟨ha, hall⟩ | ⟨f, m, hm, hmf, hfirst, ha⟩
  · right
    refine ⟨hall, ?_⟩
    obtain ⟨pm2, v, hcv, hmeta, hnf, hpol, hv, _⟩ := choose_victim_total st.pm_ now hlen hq.range
    rcases hv with hv | ⟨m, hm, hmf⟩
    · right
      subst hv
      refine ⟨pm2, hcv, ?_⟩
      simp only [SegmentTable.page_fault, ha, SegmentTable.evict, hcv, if_true]
    · left
      have hv0 : v ≠ -1 := by
        have := (vget_some_range hm).1
        omega
      refine ⟨pm2, v, m, hcv, hm, hmf, ?_⟩
      obtain ⟨pg, hpg, _, _⟩ := hl.frame_page v m hm hmf
      have hr := vget_some_range hm
      have he := hs.entry_ok
      obtain ⟨ds, ps, pm, segs, dirs, mt, tm, rd⟩ := st
      obtain ⟨nf2, pol2, meta2, q2⟩ := pm2
      simp only at hmeta hnf hpol hm hpg hr he hcv ha hlen
      subst hmeta hnf hpol
      have hoc := fun (x : SegmentTable) (hx : x.dirs_ = dirs) =>
        @owning_clear_total x (by rw [hx]; exact he) m pg (by rw [hx]; exact hpg)
      simp only [SegmentTable.page_fault, ha, SegmentTable.evict, hcv, if_true, if_neg hv0,
        PhysicalMemory.info, hm]
      rw [hoc _ rfl]
      simp only [PhysicalMemory.free_frame, hm]
      rw [if_pos (by omega)]
      simp only
      rw [install_total _ (m := ({} : FrameMeta)) seg dir page now
        (by simp only; rw [vget_vset, if_pos rfl, hm]; rfl)]
      simp only [Option.map_some', faultEvict, vset_vset]
      rw [if_neg hv0]
  · left
    refine ⟨f, m, hm, hmf, hfirst, ?_⟩
    have hf0 : f ≠ -1 := by
      have := (vget_some_range hm).1
      omega
    simp only [SegmentTable.page_fault, ha, if_neg hf0]
    rw [install_total _ (m := { m with free := false }) seg dir page now
      (by simp only; rw [vget_vset, if_pos rfl, hm]; rfl)]
    simp only [Option.map_some', faultFree, vset_vset, List.append_assoc]

/-! ## The invariant is kept by the fault path -/

theorem Inv.congr {cli : CLI} {st st1 : SegmentTable} (h : Inv cli st)
    (h1 : st1.dir_size_ = st.dir_size_) (h2 : st1.page_size_ = st.page_size_)
    (h3 : st1.pm_ = st.pm_) (h4 : st1.segments_ = st.segments_) (h5 : st1.dirs_ = st.dirs_)
    (h6 : st1.time_ = st.time_) : Inv cli st1 := by
  obtain ⟨a1, a2, a3, a4, a5, a6, a7, a8⟩ := st
  obtain ⟨b1, b2, b3, b4, b5, b6, b7, b8⟩ := st1
  simp only at h1 h2 h3 h4 h5 h6
  subst h1 h2 h3 h4 h5 h6
  obtain ⟨⟨s1, s2, s3, s4, s5, s6, s7, s8, s9, s10⟩, hl, hq, hc, hst⟩ := h
  exact ⟨⟨s1, s2, s3, s4, s5, s6, s7, s8, s9, s10⟩, hl, hq, hc, hst⟩

theorem Inv.faultFree {cli : CLI} {st : SegmentTable} (h : Inv cli st)
    {f seg dir page now : Int} {m : FrameMeta} {P : Page}
    (hm : vget st.pm_.meta f = some m) (hfree : m.free = true)
    (hP : pageAt st.dirs_ seg dir page = some P) (hab : P.present = false)
    (hnow : now ≤ st.time_) : Inv cli (faultFree st f seg dir page now) := by
  refine ⟨?_, ?_, ?_, h.clock, ?_⟩
  · exact h.shape.update seg dir page _ _ _ _ (length_vset _ _ _)
  · exact h.linked.link hm hfree hP hab
  · constructor
    · intro x hx
      simp only [MemSim.faultFree, List.mem_append, List.mem_singleton] at hx ⊢
      rw [vget_vset]
      by_cases hxf : x = f
      · subst hxf; rw [if_pos rfl, hm]; exact ⟨_, rfl⟩
      · rw [if_neg hxf]
        rcases hx with (hx | hx) | hx
        · exact h.queue.range x hx
        · exact absurd hx hxf
        · exact absurd hx hxf
    · intro f1 m1 h1 h1f
      simp only [MemSim.faultFree, List.mem_append, List.mem_singleton] at h1 ⊢
      rw [vget_vset] at h1
      by_cases hxf : f1 = f
      · exact Or.inr hxf
      · rw [if_neg hxf] at h1
        exact Or.inl (Or.inl (h.queue.cover f1 m1 h1 h1f))
  · intro f1 m1 h1
    simp only [MemSim.faultFree] at h1 ⊢
    rw [vget_vset] at h1
    by_cases hxf : f1 = f
    · subst hxf
      rw [if_pos rfl, hm] at h1
      simp only [Option.map_some', Option.some.injEq] at h1
      subst h1
      exact hnow
    · rw [if_neg hxf] at h1
      exact h.stamps f1 m1 h1

theorem Inv.faultEvict {cli : CLI} {st : SegmentTable} (h : Inv cli st)
    {v seg dir page now : Int} {m : FrameMeta} {P : Page} {q2 : List Int}
    (hm : vget st.pm_.meta v = some m) (hused : m.free = false)
    (hP : pageAt st.dirs_ seg dir page = some P) (hab : P.present = false)
    (hq1 : ∀ x ∈ q2, x ∈ st.pm_.fifo_q)
    (hq2 : ∀ x ∈ st.pm_.fifo_q, (∀ m, vget st.pm_.meta x = some m → m.free = false) → x ∈ q2)
    (hnow : now ≤ st.time_) : Inv cli (faultEvict st q2 v m seg dir page now) := by
  refine ⟨?_, ?_, ?_, h.clock, ?_⟩
  · have s1 := h.shape.update m.seg m.dir m.page
      (fun P => { P with present := false, frame := -1 }) st.pm_.meta st.pm_.fifo_q
      st.metrics_ rfl
    exact s1.update seg dir page _ _ _ _ (length_vset _ _ _)
  · have l1 := h.linked.unlink hm hused
    obtain ⟨own, hown, hownp, _⟩ := h.linked.frame_page v m hm hused
    have hP1 : ∃ P1, pageAt (modPage st.dirs_ m.seg m.dir m.page
        (fun Q => { Q with present := false, frame := -1 })) seg dir page = some P1 ∧
        P1.present = false := by
      rw [pageAt_modPage]
      by_cases ht : seg = m.seg ∧ dir = m.dir ∧ page = m.page
      · rw [if_pos ht, hown]; exact ⟨_, rfl, rfl⟩
      · rw [if_neg ht]; exact ⟨P, hP, hab⟩
    obtain ⟨P1, hP1, hab1⟩ := hP1
    have l2 := @Linked.link _ _ l1 v seg dir page now ({} : FrameMeta) P1
      (by rw [vget_vset, if_pos rfl, hm]; rfl) rfl hP1 hab1
    rw [vset_vset] at l2
    exact l2
  · constructor
    · intro x hx
      simp only [MemSim.faultEvict, List.mem_append, List.mem_singleton] at hx ⊢
      rw [vget_vset]
      by_cases hxf : x = v
      · subst hxf; rw [if_pos rfl, hm]; exact ⟨_, rfl⟩
      · rw [if_neg hxf]
        rcases hx with hx | hx
        · exact h.queue.range x (hq1 x hx)
        · exact absurd hx hxf
    · intro f1 m1 h1 h1f
      simp only [MemSim.faultEvict, List.mem_append, List.mem_singleton] at h1 ⊢
      rw [vget_vset] at h1
      by_cases hxf : f1 = v
      · exact Or.inr hxf
      · rw [if_neg hxf] at h1
        refine Or.inl (hq2 f1 (h.queue.cover f1 m1 h1 h1f) (fun m2 hm2 => ?_))
        rw [h1] at hm2
        cases hm2
        exact h1f
  · intro f1 m1 h1
    simp only [MemSim.faultEvict] at h1 ⊢
    rw [vget_vset] at h1
    by_cases hxf : f1 = v
    · subst hxf
      rw [if_pos rfl, hm] at h1
      simp only [Option.map_some', Option.some.injEq] at h1
      subst h1
      exact hnow
    · rw [if_neg hxf] at h1
      exact h.stamps f1 m1 h1

theorem Inv.noVictim {cli : CLI} {st : SegmentTable} (h : Inv cli st) {pm2 : PhysicalMemory}
    (mt : Metrics) (h1 : pm2.meta = st.pm_.meta) (h2 : pm2.num_frames = st.pm_.num_frames)
    (h3 : pm2.policy = st.pm_.policy) (hq1 : ∀ x ∈ pm2.fifo_q, x ∈ st.pm_.fifo_q)
    (hq2 : ∀ x ∈ st.pm_.fifo_q, (∀ m, vget st.pm_.meta x = some m → m.free = false) →
      x ∈ pm2.fifo_q) :
    Inv cli { st with metrics_ := mt, pm_ := pm2 } := by
  obtain ⟨nf, pol, meta, q⟩ := pm2
  simp only at h1 h2 h3 hq1 hq2
  subst h1 h2 h3
  refine ⟨?_, h.linked, ?_, h.clock, h.stamps⟩
  · obtain ⟨s1, s2, s3, s4, s5, s6, s7, s8, s9, s10⟩ := h.shape
    exact ⟨s1, s2, s3, s4, s5, s6, s7, s8, s9, s10⟩
  · constructor
    · intro x hx
      exact h.queue.range x (hq1 x hx)
    · intro f1 m1 hm1 hf1
      refine hq2 f1 (h.queue.cover f1 m1 hm1 hf1) (fun m2 hm2 => ?_)
      simp only at hm2
      rw [hm1] at hm2
      cases hm2
      exact hf1

/-! ## Lazy allocation of a second-level table -/

theorem randomize_presence_length (R : Nat → Nat) (ps : List Page) (c : Nat) :
    (randomize_presence R ps c).1.length = ps.length := by
  induction ps generalizing c with
  | nil => rfl
  | cons p ps ih => simp only [randomize_presence, List.length_cons, ih]

theorem randomize_presence_frame (R : Nat → Nat) (ps : List Page) (c : Nat) :
    ∀ pg ∈ (randomize_presence R ps c).1, pg.frame = -1 := by
  induction ps generalizing c with
  | nil => intro pg hpg; simp [randomize_presence] at hpg
  | cons p ps ih =>
    intro pg hpg
    simp only [randomize_presence, List.mem_cons] at hpg
    rcases hpg with hpg | hpg
    · subst hpg; rfl
    · exact ih (c + 2) pg hpg

/-- The table built by `PageTable(pages, page_size)` from draw `c` on. -/
theorem PageTable.new_eq (R : Nat → Nat) {pages : Int} (page_size : Int) (c : Nat)
    (h : 0 ≤ pages) :
    ∃ t c1, PageTable.new R pages page_size c = some (t, c1) ∧ t.pages_ = pages ∧
      (t.table_.length : Int) = pages ∧ ∀ pg ∈ t.table_, pg.frame = -1 := by
  unfold PageTable.new
  rw [if_neg (by omega)]
  refine ⟨_, _, rfl, rfl, ?_, ?_⟩
  · simp only [randomize_presence_length, List.length_replicate]
    omega
  · exact randomize_presence_frame R _ c

theorem lazy_alloc_cases {R : Nat → Nat} {st sa : SegmentTable} {seg dir : Int}
    (h : st.lazy_alloc R seg dir = some sa) :
    ∃ row de, vget st.dirs_ seg = some row ∧ vget row dir = some de ∧
      ((de.present = true ∧ sa = st) ∨
       (de.present = false ∧ ∃ t c, PageTable.new R st.dir_size_ st.page_size_ st.rand_
            = some (t, c) ∧
          sa = { st with
            dirs_ := vset st.dirs_ seg (vset row dir { present := true, pt := some t }),
            rand_ := c })) := by
  unfold SegmentTable.lazy_alloc at h
  split at h
  · simp at h
  rename_i row hrow
  split at h
  · simp at h
  rename_i de hde
  refine ⟨row, de, hrow, hde, ?_⟩
  split at h
  · rename_i hp
    simp only [Option.some.injEq] at h
    exact Or.inl ⟨hp, h.symm⟩
  · rename_i hp
    split at h
    · simp at h
    · rename_i t c htc
      simp only [Option.some.injEq] at h
      exact Or.inr ⟨by simpa using hp, t, c, htc, h.symm⟩

theorem lazy_alloc_total (R : Nat → Nat) (st : SegmentTable) {seg dir : Int}
    {row : List DirEntry} {de : DirEntry} (hrow : vget st.dirs_ seg = some row)
    (hde : vget row dir = some de) (hd : 0 ≤ st.dir_size_) :
    ∃ sa, st.lazy_alloc R seg dir = some sa := by
  unfold SegmentTable.lazy_alloc
  rw [hrow]
  simp only
  rw [hde]
  simp only
  by_cases hp : de.present = true
  · rw [if_pos hp]; exact ⟨st, rfl⟩
  · rw [if_neg hp]
    obtain ⟨t, c, htc, _⟩ := PageTable.new_eq R st.page_size_ st.rand_ hd
    rw [htc]
    exact ⟨_, rfl⟩

theorem pageAt_vset_entry {dirs : List (List DirEntry)} {s d : Int} {row : List DirEntry}
    {de : DirEntry} (hrow : vget dirs s = some row) (hde : vget row d = some de)
    (de1 : DirEntry) (s1 d1 p1 : Int) :
    pageAt (vset dirs s (vset row d de1)) s1 d1 p1 =
      if s1 = s ∧ d1 = d then de1.pt.bind (fun t => vget t.table_ p1)
      else pageAt dirs s1 d1 p1 := by
  unfold pageAt
  rw [vget_vset]
  by_cases hs : s1 = s
  · subst hs
    rw [if_pos rfl, hrow]
    simp only [Option.map_some', true_and]
    rw [vget_vset]
    by_cases hd : d1 = d
    · subst hd
      rw [if_pos rfl, if_pos rfl, hde]
      simp only [Option.map_some']
      cases de1.pt <;> rfl
    · rw [if_neg hd, if_neg hd]
  · rw [if_neg hs, if_neg (fun hc => hs hc.1)]

theorem vget_vset_entry {dirs : List (List DirEntry)} {s d : Int} {row : List DirEntry}
    {de : DirEntry} (hrow : vget dirs s = some row) (hde : vget row d = some de)
    (de1 : DirEntry) {s1 d1 : Int} {row1 : List DirEntry} {e1 : DirEntry}
    (h1 : vget (vset dirs s (vset row d de1)) s1 = some row1) (h2 : vget row1 d1 = some e1) :
    ∃ row0, vget dirs s1 = some row0 ∧ row1.length = row0.length ∧
      ((s1 = s ∧ d1 = d ∧ e1 = de1) ∨ vget row0 d1 = some e1) := by
  rw [vget_vset] at h1
  by_cases hs : s1 = s
  · subst hs
    rw [if_pos rfl, hrow] at h1
    simp only [Option.map_some', Option.some.injEq] at h1
    subst h1
    refine ⟨row, hrow, length_vset _ _ _, ?_⟩
    rw [vget_vset] at h2
    by_cases hd : d1 = d
    · subst hd
      rw [if_pos rfl, hde] at h2
      simp only [Option.map_some', Option.some.injEq] at h2
      exact Or.inl ⟨rfl, rfl, h2.symm⟩
    · rw [if_neg hd] at h2
      exact Or.inr h2
  · rw [if_neg hs] at h1
    exact ⟨row1, h1, rfl, Or.inr h2⟩

theorem Inv.lazy_alloc {cli : CLI} {R : Nat → Nat} {st sa : SegmentTable} {seg dir : Int}
    (h : Inv cli st) (ha : st.lazy_alloc R seg dir = some sa) :
    Inv cli sa ∧ sa.time_ = st.time_ ∧ sa.pm_ = st.pm_ ∧ sa.segments_ = st.segments_ ∧
      sa.metrics_ = st.metrics_ ∧ sa.page_size_ = st.page_size_ ∧
      sa.dir_size_ = st.dir_size_ := by
  obtain ⟨row, de, hrow, hde, hc⟩ := lazy_alloc_cases ha
  rcases hc with ⟨_, rfl⟩ | ⟨hp, t, c, htc, rfl⟩
  · exact ⟨h, rfl, rfl, rfl, rfl, rfl, rfl⟩
  refine ⟨?_, rfl, rfl, rfl, rfl, rfl, rfl⟩
  have hd0 : 0 ≤ st.dir_size_ := by
    by_contra hneg
    unfold PageTable.new at htc
    rw [if_pos (by omega)] at htc
    cases htc
  obtain ⟨t1, c1, htc1, ht1, ht2, ht3⟩ := PageTable.new_eq R st.page_size_ st.rand_ hd0
  rw [htc] at htc1
  simp only [Option.some.injEq, Prod.mk.injEq] at htc1
  obtain ⟨rfl, rfl⟩ := htc1
  have hnone : de.pt = none := by
    have e := (h.shape.entry seg row dir de hrow hde).1
    cases hpt : de.pt with
    | none => rfl
    | some t0 =>
      have := e.mpr (by rw [hpt]; rfl)
      rw [hp] at this
      cases this
  have hold : ∀ p, pageAt st.dirs_ seg dir p = none := by
    intro p
    unfold pageAt
    rw [hrow]
    simp only
    rw [hde]
    simp only
    rw [hnone]
  refine ⟨?_, ?_, h.queue, h.clock, h.stamps⟩
  · obtain ⟨s1, s2, s3, s4, s5, s6, s7, s8, s9, s10⟩ := h.shape
    refine ⟨s1, s2, s3, s4, s5, s6, ?_, s8, ?_, ?_⟩
    · simp only; rw [length_vset]; exact s7
    · intro s row1 h1
      simp only at h1
      rw [vget_vset] at h1
      by_cases hs : s = seg
      · subst hs
        rw [if_pos rfl, hrow] at h1
        simp only [Option.map_some', Option.some.injEq] at h1
        subst h1
        rw [length_vset]
        exact s9 s row hrow
      · rw [if_neg hs] at h1
        exact s9 s row1 h1
    · intro s row1 d e1 h1 h2
      simp only at h1
      obtain ⟨row0, hrow0, _, hc⟩ := vget_vset_entry hrow hde _ h1 h2
      rcases hc with ⟨_, _, rfl⟩ | hc
      · refine ⟨by simp, ?_⟩
        intro t2 ht2
        simp only [Option.some.injEq] at ht2
        subst ht2
        rw [ht1, ht2]
        exact ⟨s1, s1⟩
      · exact s10 s row0 d e1 hrow0 hc
  · constructor
    · intro f m hm hmf
      obtain ⟨pg, hpg, hpres, hfr⟩ := h.linked.frame_page f m hm hmf
      refine ⟨pg, ?_, hpres, hfr⟩
      simp only
      rw [pageAt_vset_entry hrow hde, if_neg]
      · exact hpg
      · rintro ⟨e1, e2⟩
        rw [e1, e2, hold] at hpg
        cases hpg
    · intro s d p pg hpg hne
      simp only at hpg
      rw [pageAt_vset_entry hrow hde] at hpg
      by_cases hsd : s = seg ∧ d = dir
      · rw [if_pos hsd] at hpg
        simp only [Option.some_bind] at hpg
        exact absurd (ht3 pg (vget_mem hpg)) hne
      · rw [if_neg hsd] at hpg
        exact h.linked.page_frame s d p pg hpg hne
    · exact h.linked.free_clear

/-! ## The hit path, the clock tick and the counters -/

theorem touch_unmapped (pm : PhysicalMemory) (now : Int) : pm.touch (-1) now = some pm := by
  unfold PhysicalMemory.touch PhysicalMemory.valid
  rw [if_neg (by omega)]

theorem touch_used (pm : PhysicalMemory) {f : Int} {m : FrameMeta} (now : Int)
    (hlen : (pm.meta.length : Int) = pm.num_frames) (hm : vget pm.meta f = some m)
    (hused : m.free = false) :
    pm.touch f now = some { pm with meta := vset pm.meta f { m with last_access := now } } := by
  have hr := vget_some_range hm
  unfold PhysicalMemory.touch PhysicalMemory.valid
  rw [if_pos (by omega), hm]
  have hb : (!m.free) = true := by rw [hused]; rfl
  simp only [hb]
  rw [vmod_eq_vset _ hm]

theorem Inv.page_hit {cli : CLI} {st : SegmentTable} (h : Inv cli st)
    {seg dir page now : Int} {P : Page} (hP : pageAt st.dirs_ seg dir page = some P)
    (hnow : now ≤ st.time_) :
    ∃ sb, st.page_hit P seg dir page now = some sb ∧ Inv cli sb ∧
      sb.metrics_ = st.metrics_ ∧ sb.page_size_ = st.page_size_ ∧
      sb.segments_ = st.segments_ ∧ sb.time_ = st.time_ ∧
      (P.frame = -1 → sb.pm_ = st.pm_) := by
  have hlen : (st.pm_.meta.length : Int) = st.pm_.num_frames := by
    rw [h.shape.meta_len, h.shape.frames]
  by_cases hfr : P.frame = -1
  · unfold SegmentTable.page_hit
    rw [hfr, touch_unmapped]
    refine ⟨_, rfl, ⟨?_, h.linked.stamp seg dir page now, h.queue, h.clock, h.stamps⟩,
      rfl, rfl, rfl, rfl, fun _ => rfl⟩
    exact h.shape.update seg dir page _ st.pm_.meta st.pm_.fifo_q st.metrics_ rfl
  · obtain ⟨m, hm, hmf, _⟩ := h.linked.page_frame seg dir page P hP hfr
    unfold SegmentTable.page_hit
    rw [touch_used st.pm_ now hlen hm hmf]
    refine ⟨_, rfl, ⟨?_, ?_, ?_, h.clock, ?_⟩, rfl, rfl, rfl, rfl, fun hc => absurd hc hfr⟩
    · exact h.shape.update seg dir page _ _ st.pm_.fifo_q st.metrics_ (length_vset _ _ _)
    · exact (h.linked.touch hm hmf).stamp seg dir page now
    · constructor
      · intro x hx
        simp only at hx ⊢
        rw [vget_vset]
        by_cases hxf : x = P.frame
        · subst hxf; rw [if_pos rfl, hm]; exact ⟨_, rfl⟩
        · rw [if_neg hxf]; exact h.queue.range x hx
      · intro f1 m1 h1 h1f
        simp only at h1 ⊢
        rw [vget_vset] at h1
        by_cases hxf : f1 = P.frame
        · subst hxf; exact h.queue.cover _ m hm hmf
        · rw [if_neg hxf] at h1
          exact h.queue.cover f1 m1 h1 h1f
    · intro f1 m1 h1
      simp only at h1 ⊢
      rw [vget_vset] at h1
      by_cases hxf : f1 = P.frame
      · subst hxf
        rw [if_pos rfl, hm] at h1
        simp only [Option.map_some', Option.some.injEq] at h1
        subst h1
        exact hnow
      · rw [if_neg hxf] at h1
        exact h.stamps f1 m1 h1

theorem Inv.tick {cli : CLI} {st : SegmentTable} (h : Inv cli st) (ht : st.time_ < INT_MAX) :
    Inv cli st.tick := by
  refine ⟨?_, h.linked, h.queue, ?_, ?_⟩
  · obtain ⟨s1, s2, s3, s4, s5, s6, s7, s8, s9, s10⟩ := h.shape
    exact ⟨s1, s2, s3, s4, s5, s6, s7, s8, s9, s10⟩
  · have := h.clock
    simp only [SegmentTable.tick]
    omega
  · intro f m hm
    have := h.stamps f m hm
    simp only [SegmentTable.tick]
    omega

theorem Inv.metrics {cli : CLI} {st : SegmentTable} (h : Inv cli st) (mt : Metrics) :
    Inv cli { st with metrics_ := mt } :=
  h.congr rfl rfl rfl rfl rfl rfl

theorem Inv.seg_fault {cli : CLI} {st : SegmentTable} (h : Inv cli st) : Inv cli st.seg_fault :=
  h.congr rfl rfl rfl rfl rfl rfl

theorem Inv.prot_violation {cli : CLI} {st : SegmentTable} (h : Inv cli st) :
    Inv cli st.prot_violation :=
  h.congr rfl rfl rfl rfl rfl rfl

theorem Inv.offset_fault {cli : CLI} {st : SegmentTable} (h : Inv cli st) :
    Inv cli st.offset_fault :=
  h.congr rfl rfl rfl rfl rfl rfl

theorem Inv.success {cli : CLI} {st : SegmentTable} (h : Inv cli st) (lat : Int) :
    Inv cli (st.success lat) :=
  h.congr rfl rfl rfl rfl rfl rfl

theorem Inv.log {cli : CLI} {st : SegmentTable} (h : Inv cli st) : Inv cli st.log :=
  h.congr rfl rfl rfl rfl rfl rfl

/-- The fault path keeps the invariant, whatever its outcome. -/
theorem Inv.page_fault {cli : CLI} {st : SegmentTable} (h : Inv cli st)
    {seg dir page now : Int} {P : Page} (hP : pageAt st.dirs_ seg dir page = some P)
    (hab : P.present = false) (hnow : now ≤ st.time_) :
    ∃ sb ok, st.page_fault seg dir page now = some (sb, ok) ∧ Inv cli sb := by
  rcases page_fault_total h.shape h.linked h.queue seg dir page now with
    ⟨f, m, hm, hmf, _, hpf⟩ | ⟨_, ⟨pm2, v, m, hcv, hm, hmf, hpf⟩ | ⟨pm2, hcv, hpf⟩⟩
  · exact ⟨_, _, hpf, h.faultFree hm hmf hP hab hnow⟩
  · have hlen : (st.pm_.meta.length : Int) = st.pm_.num_frames := by
      rw [h.shape.meta_len, h.shape.frames]
    obtain ⟨pm3, v3, hcv3, _, _, _, _, hq1, hq2, _⟩ :=
      choose_victim_total st.pm_ now hlen h.queue.range
    rw [hcv] at hcv3
    simp only [Option.some.injEq, Prod.mk.injEq] at hcv3
    obtain ⟨rfl, rfl⟩ := hcv3
    exact ⟨_, _, hpf, h.faultEvict hm hmf hP hab hq1 hq2 hnow⟩
  · have hlen : (st.pm_.meta.length : Int) = st.pm_.num_frames := by
      rw [h.shape.meta_len, h.shape.frames]
    obtain ⟨pm3, v3, hcv3, h1, h2, h3, _, hq1, hq2, _⟩ :=
      choose_victim_total st.pm_ now hlen h.queue.range
    rw [hcv] at hcv3
    simp only [Option.some.injEq, Prod.mk.injEq] at hcv3
    obtain ⟨rfl, rfl⟩ := hcv3
    exact ⟨_, _, hpf, h.noVictim _ h1 h2 h3 hq1 hq2⟩

/-- Every `translate` call that returns keeps the invariant. -/
theorem Inv.translate {cli : CLI} {R : Nat → Nat} {st st1 : SegmentTable} {seg pn off : Int}
    {acc : Access} {r lat : Int} (h : Inv cli st)
    (ht : st.translate R seg pn off acc = some (st1, r, lat)) : Inv cli st1 := by
  obtain ⟨htime, _, hc⟩ := translate_cases ht
  have hk := h.tick htime
  rcases hc with ⟨_, rfl, _⟩ | ⟨S, hS, hc⟩
  · exact hk.seg_fault
  rcases hc with ⟨_, _, rfl, _⟩ | ⟨_, _, rfl, _⟩ | ⟨_, _, _, rfl, _⟩ | ⟨_, hw⟩
  · exact hk.prot_violation
  · exact hk.seg_fault
  · exact hk.offset_fault
  obtain ⟨_, _, sa, P, hsa, hP, hc⟩ := walk_cases hw
  obtain ⟨hia, hta, _⟩ := hk.lazy_alloc hsa
  have hnow : st.time_ + 1 ≤ sa.time_ := by
    rw [hta]; simp only [SegmentTable.tick]; exact le_refl _
  rcases hc with ⟨_, _, rfl, _⟩ | ⟨_, hab, sb, hsb, rfl, _⟩ | ⟨_, hab, sb, hsb, rfl, _⟩ |
    ⟨_, hpres, sb, hsb, rfl, _⟩
  · exact hia.prot_violation
  · obtain ⟨sb1, ok, h1, h2⟩ := hia.page_fault hP hab hnow
    rw [hsb] at h1
    simp only [Option.some.injEq, Prod.mk.injEq] at h1
    rw [h1.1]
    exact h2.log
  · obtain ⟨sb1, ok, h1, h2⟩ := hia.page_fault hP hab hnow
    rw [hsb] at h1
    simp only [Option.some.injEq, Prod.mk.injEq] at h1
    rw [h1.1]
    exact h2.success lat
  · obtain ⟨sb1, h1, h2, _⟩ := hia.page_hit hP hnow
    rw [hsb] at h1
    simp only [Option.some.injEq] at h1
    rw [h1]
    exact h2.success lat

/-! ## Construction establishes the invariant -/

theorem vget_replicate {α : Type} {n : Nat} {a b : α} {i : Int}
    (h : vget (List.replicate n a) i = some b) : b = a :=
  List.eq_of_mem_replicate (vget_mem h)

theorem init_segments_length (R : Nat → Nat) (n s c : Nat) :
    (init_segments R n s c).1.length = n := by
  induction n generalizing s c with
  | zero => rfl
  | succ n ih => simp only [init_segments, List.length_cons, ih]

theorem init_segments_get (R : Nat → Nat) (n s c i : Nat) (S : Segment)
    (h : (init_segments R n s c).1[i]? = some S) :
    S.base = 1000 + ((s + i : Nat) : Int) * 5000 ∧ 3 ≤ S.limit_pages ∧ S.limit_pages ≤ 7 := by
  induction n generalizing s c i with
  | zero => simp [init_segments] at h
  | succ n ih =>
    simp only [init_segments] at h
    cases i with
    | zero =>
      simp only [List.getElem?_cons_zero, Option.some.injEq] at h
      subst h
      refine ⟨by simp, ?_, ?_⟩
      · simp only; omega
      · simp only; omega
    | succ i =>
      simp only [List.getElem?_cons_succ] at h
      obtain ⟨h1, h2⟩ := ih (s + 1) (c + 2) i h
      refine ⟨?_, h2⟩
      rw [h1]
      push_cast
      ring

theorem boot_inv {R : Nat → Nat} {cli : CLI} {st : SegmentTable} (h : boot R cli = some st) :
    Inv cli st := by
  unfold boot PhysicalMemory.new at h
  split at h
  · simp at h
  rename_i pm hpm
  split at hpm
  · simp at hpm
  rename_i hf
  simp only [Option.some.injEq] at hpm
  subst hpm
  unfold SegmentTable.new at h
  split at h
  · simp at h
  rename_i hsg
  split at h
  · simp at h
  rename_i hds
  split at h
  · simp at h
  simp only [Option.some.injEq] at h
  subst h
  have hnone : ∀ s d p, pageAt (List.replicate cli.segments.toNat
      (List.replicate cli.dir_size.toNat ({} : DirEntry))) s d p = none := by
    intro s d p
    unfold pageAt
    split
    · rfl
    · rename_i row hrow
      have := vget_replicate hrow
      subst this
      split
      · rfl
      · rename_i de hde
        have := vget_replicate hde
        subst this
        rfl
  refine ⟨⟨rfl, rfl, rfl, rfl, ?_, ?_, ?_, ?_, ?_, ?_⟩, ⟨?_, ?_, ?_⟩, ⟨?_, ?_⟩, ?_, ?_⟩
  · simp only [List.length_replicate]; omega
  · simp only [init_segments_length]; omega
  · simp only [init_segments_length, List.length_replicate]
  · intro s S hS
    simp only at hS
    have hr := vget_some_range hS
    unfold vget at hS
    rw [if_neg (by omega)] at hS
    have := init_segments_get R _ 0 0 s.toNat S hS
    have e : ((0 + s.toNat : Nat) : Int) = s := by omega
    rw [e] at this
    exact this
  · intro s row hrow
    simp only at hrow
    have hr := vget_some_range hrow
    have := vget_replicate hrow
    subst this
    simp only [List.length_replicate] at hr ⊢
    omega
  · intro s row d de hrow hde
    simp only at hrow
    have := vget_replicate hrow
    subst this
    have := vget_replicate hde
    subst this
    exact ⟨by simp, fun t ht => by simp at ht⟩
  · intro f m hm hmf
    simp only at hm
    have := vget_replicate hm
    subst this
    cases hmf
  · intro s d p pg hpg
    simp only at hpg
    rw [hnone] at hpg
    cases hpg
  · intro f m hm _
    simp only at hm
    exact vget_replicate hm
  · intro x hx
    simp at hx
  · intro f m hm hmf
    simp only at hm
    have := vget_replicate hm
    subst this
    cases hmf
  · simp only [INT_MAX]; omega
  · intro f m hm
    simp only at hm
    have := vget_replicate hm
    subst this
    simp

/-- Every reachable engine state satisfies the invariant. -/
theorem reachable_inv {R : Nat → Nat} {cli : CLI} {st : SegmentTable}
    (h : Reachable R cli st) : Inv cli st := by
  induction h with
  | boot hb => exact boot_inv hb
  | step _ ht ih => exact ih.translate ht

/-! ## What the steps of `translate` leave alone, on any state -/

theorem Fixed.refl (st : SegmentTable) : Fixed st st := ⟨rfl, rfl, rfl, rfl⟩

theorem Fixed.trans {a b c : SegmentTable} (h1 : Fixed a b) (h2 : Fixed b c) : Fixed a c :=
  ⟨h2.dir_size.trans h1.dir_size, h2.page_size.trans h1.page_size,
    h2.segments.trans h1.segments, h2.time.trans h1.time⟩

theorem lazy_alloc_fixed {R : Nat → Nat} {st sa : SegmentTable} {seg dir : Int}
    (h : st.lazy_alloc R seg dir = some sa) :
    Fixed st sa ∧ sa.pm_ = st.pm_ ∧ sa.metrics_ = st.metrics_ := by
  obtain ⟨row, de, _, _, hc⟩ := lazy_alloc_cases h
  rcases hc with ⟨_, rfl⟩ | ⟨_, t, c, _, rfl⟩
  · exact ⟨Fixed.refl _, rfl, rfl⟩
  · exact ⟨⟨rfl, rfl, rfl, rfl⟩, rfl, rfl⟩

theorem owning_clear_fixed {st s4 : SegmentTable} {m : FrameMeta} {b : Bool}
    (h : st.owning_clear m = some (s4, b)) :
    Fixed st s4 ∧ s4.pm_ = st.pm_ ∧ s4.metrics_ = st.metrics_ ∧ s4.rand_ = st.rand_ := by
  have key : ∀ x : SegmentTable × Bool, x = (st, false) ∨
      x = ({ st with
        dirs_ := modPage st.dirs_ m.seg m.dir m.page
          (fun P => { P with present := false, frame := -1 }) }, true) →
      some x = some (s4, b) →
      Fixed st s4 ∧ s4.pm_ = st.pm_ ∧ s4.metrics_ = st.metrics_ ∧ s4.rand_ = st.rand_ := by
    intro x hx he
    simp only [Option.some.injEq] at he
    rcases hx with rfl | rfl
    · simp only [Prod.mk.injEq] at he
      obtain ⟨rfl, _⟩ := he
      exact ⟨Fixed.refl _, rfl, rfl, rfl⟩
    · simp only [Prod.mk.injEq] at he
      obtain ⟨rfl, _⟩ := he
      exact ⟨⟨rfl, rfl, rfl, rfl⟩, rfl, rfl, rfl⟩
  unfold SegmentTable.owning_clear at h
  split at h
  · exact key _ (Or.inl rfl) h
  split at h
  · exact key _ (Or.inl rfl) h
  split at h
  · simp at h
  split at h
  · exact key _ (Or.inl rfl) h
  split at h
  · simp at h
  split at h
  · exact key _ (Or.inl rfl) h
  split at h
  · exact key _ (Or.inl rfl) h
  split at h
  · exact key _ (Or.inl rfl) h
  split at h
  · simp at h
  · exact key _ (Or.inr rfl) h

theorem choose_victim_meta {pm pm2 : PhysicalMemory} {now v : Int}
    (h : pm.choose_victim now = some (pm2, v)) :
    pm2.meta = pm.meta ∧ pm2.num_frames = pm.num_frames ∧ pm2.policy = pm.policy ∧
      (pm.policy = Policy.LRU → pm2 = pm) := by
  obtain ⟨nf, pol, meta, q⟩ := pm
  unfold PhysicalMemory.choose_victim at h
  cases pol with
  | FIFO =>
    simp only at h
    split at h
    · simp at h
    · simp only [Option.some.injEq, Prod.mk.injEq] at h
      obtain ⟨rfl, _⟩ := h
      exact ⟨rfl, rfl, rfl, fun hc => by cases hc⟩
    · simp only [Option.some.injEq, Prod.mk.injEq] at h
      obtain ⟨rfl, _⟩ := h
      exact ⟨rfl, rfl, rfl, fun hc => by cases hc⟩
  | LRU =>
    simp only at h
    split at h
    · simp at h
    · simp only [Option.some.injEq, Prod.mk.injEq] at h
      obtain ⟨rfl, _⟩ := h
      exact ⟨rfl, rfl, rfl, fun _ => rfl⟩

theorem evict_fixed {st s6 : SegmentTable} {now v : Int} (h : st.evict now = some (s6, v)) :
    Fixed st s6 ∧ s6.rand_ = st.rand_ ∧
      (v = -1 → ∃ pm2, st.pm_.choose_victim now = some (pm2, -1) ∧
        s6 = { st with pm_ := pm2 }) := by
  unfold SegmentTable.evict at h
  split at h
  · simp at h
  rename_i pm2 victim hcv
  simp only at h
  split at h
  · rename_i hv
    simp only [Option.some.injEq, Prod.mk.injEq] at h
    obtain ⟨rfl, rfl⟩ := h
    subst hv
    exact ⟨⟨rfl, rfl, rfl, rfl⟩, rfl, fun _ => ⟨pm2, hcv, rfl⟩⟩
  rename_i hv
  split at h
  · simp at h
  split at h
  · simp at h
  · rename_i s4 hoc
    obtain ⟨hf, _, _, hr⟩ := owning_clear_fixed hoc
    split at h
    · simp at h
    · simp only [Option.some.injEq, Prod.mk.injEq] at h
      obtain ⟨rfl, rfl⟩ := h
      exact ⟨⟨hf.dir_size, hf.page_size, hf.segments, hf.time⟩, hr,
        fun hc => absurd hc hv⟩
  · rename_i s4 hoc
    obtain ⟨hf, _, _, hr⟩ := owning_clear_fixed hoc
    simp only [Option.some.injEq, Prod.mk.injEq] at h
    obtain ⟨rfl, rfl⟩ := h
    exact ⟨⟨hf.dir_size, hf.page_size, hf.segments, hf.time⟩, hr, fun hc => absurd hc hv⟩

theorem install_fixed {st sb : SegmentTable} {f seg dir page now : Int}
    (h : st.install f seg dir page now = some sb) :
    Fixed st sb ∧ sb.rand_ = st.rand_ ∧ sb.metrics_ = st.metrics_ := by
  unfold SegmentTable.install at h
  simp only at h
  split at h
  · simp at h
  · simp only [Option.some.injEq] at h
    subst h
    exact ⟨⟨rfl, rfl, rfl, rfl⟩, rfl, rfl⟩

theorem page_fault_fixed {st sb : SegmentTable} {seg dir page now : Int} {ok : Bool}
    (h : st.page_fault seg dir page now = some (sb, ok)) :
    Fixed st sb ∧ sb.rand_ = st.rand_ ∧
      (ok = false → ∃ pm2, st.pm_.choose_victim now = some (pm2, -1) ∧
        sb = { st with
          metrics_ := { st.metrics_ with faults := st.metrics_.faults + 1 },
          pm_ := pm2 }) := by
  unfold SegmentTable.page_fault at h
  simp only at h
  split at h
  · simp at h
  rename_i pm1 f0 ha
  split at h
  · rename_i hf0
    subst hf0
    have hpm := allocate_any_free_none ha
    subst hpm
    split at h
    · simp at h
    rename_i s6 victim hev
    obtain ⟨hf, hr, hv⟩ := evict_fixed hev
    split at h
    · rename_i hvv
      simp only [Option.some.injEq, Prod.mk.injEq] at h
      obtain ⟨rfl, rfl⟩ := h
      obtain ⟨pm2, hcv, rfl⟩ := hv hvv
      exact ⟨⟨rfl, rfl, rfl, rfl⟩, rfl, fun _ => ⟨pm2, hcv, rfl⟩⟩
    · cases hin : s6.install victim seg dir page now with
      | none => rw [hin] at h; simp at h
      | some s7 =>
        rw [hin] at h
        simp only [Option.map_some', Option.some.injEq, Prod.mk.injEq] at h
        obtain ⟨rfl, rfl⟩ := h
        obtain ⟨hf2, hr2, _⟩ := install_fixed hin
        refine ⟨?_, hr2.trans hr, fun hc => by cases hc⟩
        exact ⟨hf2.dir_size.trans hf.dir_size, hf2.page_size.trans hf.page_size,
          hf2.segments.trans hf.segments, hf2.time.trans hf.time⟩
  · rename_i hf0
    simp only [Option.map_eq_some'] at h
    obtain ⟨s7, hin, he⟩ := h
    simp only [Prod.mk.injEq] at he
    obtain ⟨rfl, rfl⟩ := he
    obtain ⟨hf2, hr2, _⟩ := install_fixed hin
    exact ⟨⟨hf2.dir_size, hf2.page_size, hf2.segments, hf2.time⟩, hr2, fun hc => by cases hc⟩

theorem page_hit_fixed {st sb : SegmentTable} {P : Page} {seg dir page now : Int}
    (h : st.page_hit P seg dir page now = some sb) :
    Fixed st sb ∧ sb.rand_ = st.rand_ ∧ sb.metrics_ = st.metrics_ := by
  unfold SegmentTable.page_hit at h
  split at h
  · simp at h
  · simp only [Option.some.injEq] at h
    subst h
    exact ⟨⟨rfl, rfl, rfl, rfl⟩, rfl, rfl⟩

/-! ## C1: the address of a successful translation -/

/-- C1: on every engine state, a `translate` call that returns a value other than the `-1`
sentinel returns `segments[seg].base + pageNum * pageSize + offset`, and the request had
`0 <= offset < pageSize` and `0 <= pageNum < segments[seg].limit_pages`. -/
theorem translate_success_address (R : Nat → Nat) (st st1 : SegmentTable)
    (seg pageNum offset : Int) (acc : Access) (r lat : Int)
    (h : st.translate R seg pageNum offset acc = some (st1, r, lat)) (hr : r ≠ -1) :
    ∃ S, vget st.segments_ seg = some S ∧
      r = S.base + pageNum * st.page_size_ + offset ∧
      (0 ≤ offset ∧ offset < st.page_size_) ∧ (0 ≤ pageNum ∧ pageNum < S.limit_pages) := by
  obtain ⟨_, _, hc⟩ := translate_cases h
  rcases hc with ⟨_, _, hr1⟩ | ⟨S, hS, hc⟩
  · exact absurd hr1 hr
  rcases hc with ⟨_, _, _, hr1⟩ | ⟨_, _, _, hr1⟩ | ⟨_, _, _, _, hr1⟩ | ⟨hpass, hw⟩
  · exact absurd hr1 hr
  · exact absurd hr1 hr
  · exact absurd hr1 hr
  obtain ⟨_, _, sa, P, hsa, _, hc⟩ := walk_cases hw
  obtain ⟨hfa, _, _⟩ := lazy_alloc_fixed hsa
  have hps : sa.page_size_ = st.page_size_ := hfa.page_size
  refine ⟨S, hS, ?_, hpass.2.2.2, hpass.2.2.1⟩
  rcases hc with ⟨_, _, _, hr1⟩ | ⟨_, _, _, _, _, hr1⟩ | ⟨_, _, sb, hsb, _, hr1⟩ |
    ⟨_, _, sb, hsb, _, hr1⟩
  · exact absurd hr1 hr
  · exact absurd hr1 hr
  · rw [hr1, (page_fault_fixed hsb).1.page_size, hps]
  · rw [hr1, (page_hit_fixed hsb).1.page_size, hps]

theorem translate_success_address_witness :
    demoStep1.2.1 = 2005 ∧
    ∃ S, vget demo0.segments_ 0 = some S ∧
      demoStep1.2.1 = S.base + 1 * demo0.page_size_ + 5 ∧
      (0 ≤ (5 : Int) ∧ 5 < demo0.page_size_) ∧ (0 ≤ (1 : Int) ∧ 1 < S.limit_pages) :=
  ⟨by decide, translate_success_address demoR demo0 demoStep1.1 0 1 5 Access.READ
    demoStep1.2.1 demoStep1.2.2 (by decide) (by decide)⟩

/-! ## `translate` always returns on a reachable engine with fan-out at least 3 -/

theorem split_range {pn d : Int} (h0 : 0 ≤ pn) (h7 : pn < 7) (hd : 3 ≤ d) :
    (0 ≤ Int.tdiv pn d ∧ Int.tdiv pn d < d) ∧ (0 ≤ Int.tmod pn d ∧ Int.tmod pn d < d) := by
  rw [Int.tdiv_eq_ediv h0 (by omega), Int.tmod_eq_emod h0 (by omega)]
  refine ⟨⟨Int.ediv_nonneg h0 (by omega), ?_⟩, Int.emod_nonneg pn (by omega),
    Int.emod_lt_of_pos pn (by omega)⟩
  apply Int.ediv_lt_of_lt_mul (by omega)
  nlinarith

theorem lazy_alloc_present {R : Nat → Nat} {st sa : SegmentTable} {seg dir : Int}
    (h : st.lazy_alloc R seg dir = some sa) :
    ∃ row de, vget sa.dirs_ seg = some row ∧ vget row dir = some de ∧ de.present = true := by
  obtain ⟨row, de, hrow, hde, hc⟩ := lazy_alloc_cases h
  rcases hc with ⟨hp, rfl⟩ | ⟨_, t, c, _, rfl⟩
  · exact ⟨row, de, hrow, hde, hp⟩
  · refine ⟨vset row dir { present := true, pt := some t }, { present := true, pt := some t },
      ?_, ?_, rfl⟩
    · simp only; rw [vget_vset, if_pos rfl, hrow]; rfl
    · rw [vget_vset, if_pos rfl, hde]; rfl

/-- On an engine that satisfies the invariant, with fan-out at least 3, the index split
stays in range: the second-level table is there after lazy allocation and holds the page. -/
theorem walk_lookup {cli : CLI} {R : Nat → Nat} {st : SegmentTable} (h : Inv cli st)
    (hd : 3 ≤ cli.dir_size) {seg pn off : Int} {acc : Access} {S : Segment}
    (hp : Passes st seg pn off acc S) :
    ∃ sa P, st.lazy_alloc R seg (Int.tdiv pn st.dir_size_) = some sa ∧
      pageAt sa.dirs_ seg (Int.tdiv pn st.dir_size_) (Int.tmod pn st.dir_size_) = some P := by
  obtain ⟨hS, _, hpn, _⟩ := hp
  have hlim := (h.shape.seg_shape seg S hS).2.2
  have hds := h.shape.dir_size
  have hsr := @split_range pn st.dir_size_ hpn.1 (by omega) (by rw [hds]; exact hd)
  have hr := vget_some_range hS
  obtain ⟨row, hrow⟩ := @vget_of_range _ st.dirs_ seg hr.1
    (by rw [h.shape.dirs_len]; exact hr.2)
  have hrl := h.shape.row_len seg row hrow
  obtain ⟨de, hde⟩ := @vget_of_range _ row _ hsr.1.1 (by rw [hrl, ← hds]; exact hsr.1.2)
  obtain ⟨sa, hsa⟩ := lazy_alloc_total R st hrow hde (by omega)
  obtain ⟨hia, _⟩ := h.lazy_alloc hsa
  obtain ⟨row1, de1, hrow1, hde1, hpres⟩ := lazy_alloc_present hsa
  obtain ⟨e1, e2⟩ := hia.shape.entry seg row1 _ de1 hrow1 hde1
  have hsome := e1.mp hpres
  cases hpt : de1.pt with
  | none => rw [hpt] at hsome; cases hsome
  | some t =>
    obtain ⟨_, e4⟩ := e2 t hpt
    obtain ⟨P, hP⟩ := @vget_of_range _ t.table_ _ hsr.2.1 (by rw [e4, ← hds]; exact hsr.2.2)
    exact ⟨sa, P, hsa, by rw [pageAt_of hrow1 hde1 hpt]; exact hP⟩

theorem walk_total {cli : CLI} {R : Nat → Nat} {st : SegmentTable} (h : Inv cli st)
    (hd : 3 ≤ cli.dir_size) {seg pn off : Int} {acc : Access} {S : Segment}
    (hp : Passes st seg pn off acc S) (now lat : Int) (hnow : now ≤ st.time_) :
    ∃ res, st.walk R S seg pn off acc now lat = some res := by
  obtain ⟨sa, P, hsa, hP⟩ := @walk_lookup cli R st h hd seg pn off acc S hp
  obtain ⟨hia, hta, _⟩ := h.lazy_alloc hsa
  unfold SegmentTable.walk
  rw [if_neg (by rw [h.shape.dir_size]; omega)]
  simp only [hsa, hP]
  split
  · exact ⟨_, rfl⟩
  split
  · rename_i hab
    obtain ⟨sb, ok, hpf, _⟩ := @Inv.page_fault cli sa hia seg (Int.tdiv pn st.dir_size_)
      (Int.tmod pn st.dir_size_) now P hP hab (by rw [hta]; exact hnow)
    rw [hpf]
    cases ok
    · exact ⟨_, rfl⟩
    · exact ⟨_, rfl⟩
  · obtain ⟨sb, hph, _⟩ := @Inv.page_hit cli sa hia seg (Int.tdiv pn st.dir_size_)
      (Int.tmod pn st.dir_size_) now P hP (by rw [hta]; exact hnow)
    rw [hph]
    exact ⟨_, rfl⟩

theorem translate_total {cli : CLI} {R : Nat → Nat} {st : SegmentTable} (h : Inv cli st)
    (hd : 3 ≤ cli.dir_size) (ht : st.time_ < INT_MAX) (seg pn off : Int) (acc : Access) :
    ∃ res, st.translate R seg pn off acc = some res := by
  have hk := h.tick ht
  unfold SegmentTable.translate
  rw [if_neg (by omega)]
  simp only
  split
  · exact ⟨_, rfl⟩
  rename_i hseg
  obtain ⟨S, hS⟩ := @vget_of_range _ st.tick.segments_ seg (by omega) (by omega)
  rw [hS]
  simp only
  split
  · exact ⟨_, rfl⟩
  rename_i hw
  split
  · exact ⟨_, rfl⟩
  rename_i hpn
  split
  · exact ⟨_, rfl⟩
  rename_i hoff
  exact walk_total hk hd ⟨hS, hw, by omega, by omega⟩ _ _ (le_refl _)

/-- With at least one frame, a fault on an engine that satisfies the invariant always finds
a frame: the early `return -1` of the fault path is not taken. -/
theorem page_fault_ok {cli : CLI} {st sb : SegmentTable} (h : Inv cli st)
    (hF : 1 ≤ cli.frames)
    (hts : ∀ f m, vget st.pm_.meta f = some m → m.last_access < INT_MAX)
    {seg dir page now : Int} {ok : Bool}
    (hpf : st.page_fault seg dir page now = some (sb, ok)) : ok = true := by
  have hlen : (st.pm_.meta.length : Int) = st.pm_.num_frames := by
    rw [h.shape.meta_len, h.shape.frames]
  rcases page_fault_total h.shape h.linked h.queue seg dir page now with
    ⟨f, m, _, _, _, h1⟩ | ⟨hall, ⟨pm2, v, m, _, _, _, h1⟩ | ⟨pm2, hcv, _⟩⟩
  · rw [hpf] at h1
    simp only [Option.some.injEq, Prod.mk.injEq] at h1
    exact h1.2
  · rw [hpf] at h1
    simp only [Option.some.injEq, Prod.mk.injEq] at h1
    exact h1.2
  · exfalso
    obtain ⟨pm3, v3, hcv3, _, _, _, _, _, _, hnone⟩ :=
      choose_victim_total st.pm_ now hlen h.queue.range
    rw [hcv] at hcv3
    simp only [Option.some.injEq, Prod.mk.injEq] at hcv3
    obtain ⟨_, rfl⟩ := hcv3
    obtain ⟨m0, hm0⟩ := @vget_of_range _ st.pm_.meta 0 (le_refl _)
      (by rw [h.shape.meta_len]; omega)
    have h1 := hnone h.queue.cover hts rfl 0 m0 hm0
    have h2 := hall 0 m0 hm0
    rw [h1] at h2
    cases h2

/-! ## C2: a read succeeds exactly when the request is within bounds -/

/-- C2: on every engine state reachable from construction with at least one physical frame
and fan-out at least 3 (and a clock that can still tick), a READ request returns, and it
returns a non-negative physical address if and only if the segment exists, the page number
is below the segment limit and the offset is below the page size; otherwise it returns the
`-1` sentinel. -/
theorem read_succeeds_iff_in_bounds (R : Nat → Nat) (cli : CLI) (st : SegmentTable)
    (hreach : Reachable R cli st) (hF : 1 ≤ cli.frames) (hD : 3 ≤ cli.dir_size)
    (hclock : st.time_ < INT_MAX) (seg pageNum offset : Int) :
    ∃ st1 r lat, st.translate R seg pageNum offset Access.READ = some (st1, r, lat) ∧
      (0 ≤ r ↔ InBounds st seg pageNum offset) ∧
      (¬ InBounds st seg pageNum offset → r = -1) := by
  have h := reachable_inv hreach
  obtain ⟨⟨st1, r, lat⟩, ht⟩ := @translate_total cli R st h hD hclock seg pageNum offset
    Access.READ
  refine ⟨st1, r, lat, ht, ?_⟩
  obtain ⟨_, _, hc⟩ := translate_cases ht
  have hno : r = -1 → ¬ InBounds st seg pageNum offset →
      (0 ≤ r ↔ InBounds st seg pageNum offset) ∧ (¬ InBounds st seg pageNum offset → r = -1) := by
    intro hr hnb
    refine ⟨⟨fun h0 => ?_, fun hb => absurd hb hnb⟩, fun _ => hr⟩
    rw [hr] at h0
    exact absurd h0 (by decide)
  rcases hc with ⟨hseg, _, hr⟩ | ⟨S, hS, hc⟩
  · refine hno hr ?_
    rintro ⟨S, hS, _⟩
    exact hseg (vget_some_range hS)
  have huniq : ∀ S1, vget st.segments_ seg = some S1 → S1 = S := by
    intro S1 h1
    rw [hS] at h1
    cases h1
    rfl
  rcases hc with ⟨hacc, _⟩ | ⟨_, hpn, _, hr⟩ | ⟨_, _, hoff, _, hr⟩ | ⟨hpass, hw⟩
  · cases hacc
  · refine hno hr ?_
    rintro ⟨S1, hS1, hb, _⟩
    rw [huniq S1 hS1] at hb
    exact hpn hb
  · refine hno hr ?_
    rintro ⟨S1, _, _, hb⟩
    exact hoff hb
  have hin : InBounds st seg pageNum offset := ⟨S, hS, hpass.2.2.1, hpass.2.2.2⟩
  have hk := h.tick hclock
  obtain ⟨_, _, sa, P, hsa, hP, hc⟩ := walk_cases hw
  obtain ⟨hia, _, hpm, _, _, hps, _⟩ := hk.lazy_alloc hsa
  have hbase := (h.shape.seg_shape seg S hS).1
  have hseg0 := (vget_some_range hS).1
  have hpos : ∀ sb : SegmentTable, sb.page_size_ = sa.page_size_ →
      0 ≤ S.base + pageNum * sb.page_size_ + offset := by
    intro sb hsb
    have e : sb.page_size_ = st.page_size_ := by rw [hsb, hps]; rfl
    have h1 : 0 ≤ pageNum * sb.page_size_ :=
      mul_nonneg hpass.2.2.1.1 (by rw [e]; have := hpass.2.2.2; omega)
    have := hpass.2.2.2.1
    rw [hbase]
    omega
  rcases hc with ⟨hacc, _⟩ | ⟨_, _, sb, hsb, _, _⟩ | ⟨_, _, sb, hsb, _, hr⟩ |
    ⟨_, _, sb, hsb, _, hr⟩
  · cases hacc
  · have hts : ∀ f m, vget sa.pm_.meta f = some m → m.last_access < INT_MAX := by
      intro f m hm
      rw [hpm] at hm
      have := h.stamps f m hm
      omega
    have := page_fault_ok hia hF hts hsb
    cases this
  · have h0 := hpos sb (page_fault_fixed hsb).1.page_size
    rw [← hr] at h0
    exact ⟨⟨fun _ => hin, fun _ => h0⟩, fun hnb => absurd hin hnb⟩
  · have h0 := hpos sb (page_hit_fixed hsb).1.page_size
    rw [← hr] at h0
    exact ⟨⟨fun _ => hin, fun _ => h0⟩, fun hnb => absurd hin hnb⟩

theorem read_succeeds_iff_in_bounds_witness :
    ∃ st1 r lat, demo0.translate demoR 0 1 5 Access.READ = some (st1, r, lat) ∧
      (0 ≤ r ↔ InBounds demo0 0 1 5) ∧ (¬ InBounds demo0 0 1 5 → r = -1) :=
  read_succeeds_iff_in_bounds demoR demoCLI demo0 (Reachable.boot (by decide)) (by decide)
    (by decide) (by decide) 0 1 5

/-! ## C3: which counter a failure increments -/

theorem success_nonneg {st : SegmentTable} {S : Segment} {seg pn off ps : Int}
    (hbase : ∀ S ∈ st.segments_, 0 ≤ S.base) (hS : vget st.segments_ seg = some S)
    (hpn : 0 ≤ pn) (hoff : 0 ≤ off ∧ off < ps) : S.base + pn * ps + off ≠ -1 := by
  have h1 := hbase S (vget_mem hS)
  have h2 : 0 ≤ pn * ps := mul_nonneg hpn (by omega)
  omega

/-- C3 (counterexample): on the engine built with zero frames, `translate(0,0,0,READ)` fails
although none of the five checks fails, and none of `seg_faults`, `prot_viol`,
`offset_faults` is incremented. -/
theorem failure_without_category_counter :
    boot zeroR noFramesCLI = some demoNF ∧
      demoNF.translate zeroR 0 0 0 Access.READ = some (demoNFStep.1, -1, demoNFStep.2.2) ∧
      demoNFStep.1.metrics_.seg_faults = demoNF.metrics_.seg_faults ∧
      demoNFStep.1.metrics_.prot_viol = demoNF.metrics_.prot_viol ∧
      demoNFStep.1.metrics_.offset_faults = demoNF.metrics_.offset_faults ∧
      demoNFStep.1.metrics_.faults = demoNF.metrics_.faults + 1 ∧
      demoNFStep.1.metrics_.logs = demoNF.metrics_.logs + 1 := by
  decide

/-- C3 (amended): on every engine state whose segment bases are non-negative, a `translate`
call that returns `-1` changed the counters in exactly one of six ways, fixed by the first
check that fails: (1) segment id out of range: `seg_faults` and `logs` grow by one;
(2) WRITE to a read-only segment: `prot_viol`, `writes_denied` and `logs` grow by one;
(3) page number out of range: `seg_faults` and `logs`; (4) offset out of range:
`offset_faults` and `logs`; (7) WRITE to a read-only page: `prot_viol`, `writes_denied` and
`logs`; and when no check fails (no frame available): `faults` and `logs`.  Every other
counter, `translations` included, keeps its value. -/
theorem failure_counters (R : Nat → Nat) (st st1 : SegmentTable) (seg pageNum offset : Int)
    (acc : Access) (lat : Int) (hbase : ∀ S ∈ st.segments_, 0 ≤ S.base)
    (h : st.translate R seg pageNum offset acc = some (st1, -1, lat)) :
    (¬ (0 ≤ seg ∧ seg < st.segments_.length) ∧
      st1.metrics_ = { st.metrics_ with
        seg_faults := st.metrics_.seg_faults + 1, logs := st.metrics_.logs + 1 }) ∨
    ∃ S, vget st.segments_ seg = some S ∧
      ((acc = Access.WRITE ∧ S.prot = Protection.READ_ONLY ∧
        st1.metrics_ = { st.metrics_ with
          prot_viol := st.metrics_.prot_viol + 1,
          writes_denied := st.metrics_.writes_denied + 1, logs := st.metrics_.logs + 1 }) ∨
       (¬ (acc = Access.WRITE ∧ S.prot = Protection.READ_ONLY) ∧
        ¬ (0 ≤ pageNum ∧ pageNum < S.limit_pages) ∧
        st1.metrics_ = { st.metrics_ with
          seg_faults := st.metrics_.seg_faults + 1, logs := st.metrics_.logs + 1 }) ∨
       (¬ (acc = Access.WRITE ∧ S.prot = Protection.READ_ONLY) ∧
        (0 ≤ pageNum ∧ pageNum < S.limit_pages) ∧ ¬ (0 ≤ offset ∧ offset < st.page_size_) ∧
        st1.metrics_ = { st.metrics_ with
          offset_faults := st.metrics_.offset_faults + 1, logs := st.metrics_.logs + 1 }) ∨
       (Passes st seg pageNum offset acc S ∧
        ∃ sa P, st.tick.lazy_alloc R seg (Int.tdiv pageNum st.dir_size_) = some sa ∧
          pageAt sa.dirs_ seg (Int.tdiv pageNum st.dir_size_) (Int.tmod pageNum st.dir_size_)
            = some P ∧
          ((acc = Access.WRITE ∧ P.prot = Protection.READ_ONLY ∧
            st1.metrics_ = { st.metrics_ with
              prot_viol := st.metrics_.prot_viol + 1,
              writes_denied := st.metrics_.writes_denied + 1,
              logs := st.metrics_.logs + 1 }) ∨
           (¬ (acc = Access.WRITE ∧ P.prot = Protection.READ_ONLY) ∧ P.present = false ∧
            st1.metrics_ = { st.metrics_ with
              faults := st.metrics_.faults + 1, logs := st.metrics_.logs + 1 })))) := by
  obtain ⟨_, _, hc⟩ := translate_cases h
  rcases hc with ⟨hseg, rfl, _⟩ | ⟨S, hS, hc⟩
  · exact Or.inl ⟨hseg, rfl⟩
  refine Or.inr ⟨S, hS, ?_⟩
  rcases hc with ⟨h1, h2, rfl, _⟩ | ⟨h1, h2, rfl, _⟩ | ⟨h1, h2, h3, rfl, _⟩ | ⟨hpass, hw⟩
  · exact Or.inl ⟨h1, h2, rfl⟩
  · exact Or.inr (Or.inl ⟨h1, h2, rfl⟩)
  · exact Or.inr (Or.inr (Or.inl ⟨h1, h2, h3, rfl⟩))
  refine Or.inr (Or.inr (Or.inr ⟨hpass, ?_⟩))
  obtain ⟨_, _, sa, P, hsa, hP, hc⟩ := walk_cases hw
  obtain ⟨hfa, _, hma⟩ := lazy_alloc_fixed hsa
  have hma1 : sa.metrics_ = st.metrics_ := hma
  refine ⟨sa, P, hsa, hP, ?_⟩
  rcases hc with ⟨h1, h2, rfl, _⟩ | ⟨h1, h2, sb, hsb, rfl, _⟩ | ⟨_, _, sb, hsb, _, hr⟩ |
    ⟨_, _, sb, hsb, _, hr⟩
  · refine Or.inl ⟨h1, h2, ?_⟩
    simp only [SegmentTable.prot_violation, SegmentTable.log, hma1]
  · obtain ⟨_, _, hfalse⟩ := page_fault_fixed hsb
    obtain ⟨pm2, _, rfl⟩ := hfalse rfl
    refine Or.inr ⟨h1, h2, ?_⟩
    simp only [SegmentTable.log, hma1]
  · exfalso
    exact success_nonneg hbase hS hpass.2.2.1.1
      (by rw [(page_fault_fixed hsb).1.page_size, hfa.page_size]; exact hpass.2.2.2) hr.symm
  · exfalso
    exact success_nonneg hbase hS hpass.2.2.1.1
      (by rw [(page_hit_fixed hsb).1.page_size, hfa.page_size]; exact hpass.2.2.2) hr.symm

theorem failure_counters_witness :
    (demoZStep.2.1 = -1 ∧
      demoZStep.1.metrics_.seg_faults = demoZ.metrics_.seg_faults + 1 ∧
      demoZStep.1.metrics_.translations = demoZ.metrics_.translations) ∧
    ((¬ (0 ≤ (0 : Int) ∧ (0 : Int) < demoZ.segments_.length) ∧
      demoZStep.1.metrics_ = { demoZ.metrics_ with
        seg_faults := demoZ.metrics_.seg_faults + 1, logs := demoZ.metrics_.logs + 1 }) ∨
    ∃ S, vget demoZ.segments_ 0 = some S ∧
      ((Access.READ = Access.WRITE ∧ S.prot = Protection.READ_ONLY ∧
        demoZStep.1.metrics_ = { demoZ.metrics_ with
          prot_viol := demoZ.metrics_.prot_viol + 1,
          writes_denied := demoZ.metrics_.writes_denied + 1, logs := demoZ.metrics_.logs + 1 }) ∨
       (¬ (Access.READ = Access.WRITE ∧ S.prot = Protection.READ_ONLY) ∧
        ¬ (0 ≤ (5 : Int) ∧ (5 : Int) < S.limit_pages) ∧
        demoZStep.1.metrics_ = { demoZ.metrics_ with
          seg_faults := demoZ.metrics_.seg_faults + 1, logs := demoZ.metrics_.logs + 1 }) ∨
       (¬ (Access.READ = Access.WRITE ∧ S.prot = Protection.READ_ONLY) ∧
        (0 ≤ (5 : Int) ∧ (5 : Int) < S.limit_pages) ∧ ¬ (0 ≤ (0 : Int) ∧ (0 : Int) < demoZ.page_size_) ∧
        demoZStep.1.metrics_ = { demoZ.metrics_ with
          offset_faults := demoZ.metrics_.offset_faults + 1, logs := demoZ.metrics_.logs + 1 }) ∨
       (Passes demoZ 0 5 0 Access.READ S ∧
        ∃ sa P, demoZ.tick.lazy_alloc zeroR 0 (Int.tdiv 5 demoZ.dir_size_) = some sa ∧
          pageAt sa.dirs_ 0 (Int.tdiv 5 demoZ.dir_size_) (Int.tmod 5 demoZ.dir_size_)
            = some P ∧
          ((Access.READ = Access.WRITE ∧ P.prot = Protection.READ_ONLY ∧
            demoZStep.1.metrics_ = { demoZ.metrics_ with
              prot_viol := demoZ.metrics_.prot_viol + 1,
              writes_denied := demoZ.metrics_.writes_denied + 1,
              logs := demoZ.metrics_.logs + 1 }) ∨
           (¬ (Access.READ = Access.WRITE ∧ P.prot = Protection.READ_ONLY) ∧ P.present = false ∧
            demoZStep.1.metrics_ = { demoZ.metrics_ with
              faults := demoZ.metrics_.faults + 1, logs := demoZ.metrics_.logs + 1 }))))) :=
  ⟨by decide, failure_counters zeroR demoZ demoZStep.1 0 5 0 Access.READ demoZStep.2.2
    (by decide) (by decide)⟩

/-! ## A fault that finds no frame leaves the pool as it was -/

theorem drop_stale_all_used {meta : List FrameMeta} {q : List Int}
    (hall : ∀ f m, vget meta f = some m → m.free = false)
    (h : drop_stale meta q = some []) : q = [] := by
  cases q with
  | nil => rfl
  | cons a q =>
    unfold drop_stale at h
    split at h
    · simp at h
    · rename_i m hm
      rw [hall a m hm] at h
      simp at h

/-- On a pool without a free frame, a `choose_victim` call that finds no victim leaves the
pool as it was: the FIFO loop pops nothing, since no queue head is marked free. -/
theorem choose_victim_none_full {pm pm2 : PhysicalMemory} {now : Int}
    (hall : ∀ f m, vget pm.meta f = some m → m.free = false)
    (h : pm.choose_victim now = some (pm2, -1)) : pm2 = pm := by
  obtain ⟨nf, pol, meta, q⟩ := pm
  cases pol with
  | LRU => exact (choose_victim_meta h).2.2.2 rfl
  | FIFO =>
    simp only at hall
    unfold PhysicalMemory.choose_victim at h
    simp only at h
    split at h
    · simp at h
    · rename_i hd
      simp only [Option.some.injEq, Prod.mk.injEq] at h
      rw [← h.1, drop_stale_all_used hall hd]
    · rename_i f q1 hd
      simp only [Option.some.injEq, Prod.mk.injEq] at h
      obtain ⟨m, hm, _⟩ := drop_stale_head hd
      have := (vget_some_range hm).1
      omega

/-- The fault path that finds neither a free frame nor a victim changes `faults` only. -/
theorem page_fault_no_victim {st sb : SegmentTable} {seg dir page now : Int}
    (hlen : (st.pm_.meta.length : Int) = st.pm_.num_frames)
    (h : st.page_fault seg dir page now = some (sb, false)) :
    sb = { st with metrics_ := { st.metrics_ with faults := st.metrics_.faults + 1 } } := by
  obtain ⟨_, _, hfalse⟩ := page_fault_fixed h
  obtain ⟨pm2, hcv, rfl⟩ := hfalse rfl
  rcases allocate_any_free_total st.pm_ hlen with ⟨_, hall⟩ | ⟨f, m, hm, _, _, ha⟩
  · rw [choose_victim_none_full hall hcv]
  · exfalso
    have hf : f ≠ -1 := by
      have := (vget_some_range hm).1
      omega
    unfold SegmentTable.page_fault at h
    simp only at h
    rw [ha] at h
    simp only [if_neg hf] at h
    cases hi : SegmentTable.install
      { st with metrics_ := { st.metrics_ with faults := st.metrics_.faults + 1 },
                pm_ := { st.pm_ with meta := vset st.pm_.meta f { m with free := false },
                                     fifo_q := st.pm_.fifo_q ++ [f] } } f seg dir page now with
    | none => rw [hi] at h; simp at h
    | some s => rw [hi] at h; simp at h

/-! ## C4: what a failing call leaves unchanged -/

/-- C4 (counterexample): a WRITE that fails at the page-level protection check has already
materialised the second-level table: the directory entries differ after the call. -/
theorem failed_write_materialises :
    demoRO.translate roPageR 0 0 0 Access.WRITE
        = some (demoROStep.1, -1, demoROStep.2.2) ∧
      demoROStep.1.dirs_ ≠ demoRO.dirs_ ∧
      pageAt demoRO.dirs_ 0 0 0 = none ∧
      (pageAt demoROStep.1.dirs_ 0 0 0).map (fun P => P.prot) = some Protection.READ_ONLY := by
  decide

/-- C4 (amended): on every engine state whose segment bases are non-negative and whose pool
has `num_frames` frames, a `translate` call that returns `-1` leaves the segments, the
configuration, the whole frame pool (frames and queue), `translations` and `total_latency`
as they were; the directory entries are as they were, except that the entry of a request
that passed the segment, page-number and offset checks, if its presence flag was not set,
has been replaced by a materialised one. -/
theorem failure_frame (R : Nat → Nat) (st st1 : SegmentTable) (seg pageNum offset : Int)
    (acc : Access) (lat : Int) (hbase : ∀ S ∈ st.segments_, 0 ≤ S.base)
    (hlen : (st.pm_.meta.length : Int) = st.pm_.num_frames)
    (h : st.translate R seg pageNum offset acc = some (st1, -1, lat)) :
    st1.segments_ = st.segments_ ∧ st1.dir_size_ = st.dir_size_ ∧
    st1.page_size_ = st.page_size_ ∧
    st1.pm_ = st.pm_ ∧
    st1.metrics_.translations = st.metrics_.translations ∧
    st1.metrics_.total_latency = st.metrics_.total_latency ∧
    (st1.dirs_ = st.dirs_ ∨
      ∃ S row de t, Passes st seg pageNum offset acc S ∧ vget st.dirs_ seg = some row ∧
        vget row (Int.tdiv pageNum st.dir_size_) = some de ∧ de.present = false ∧
        st1.dirs_ = vset st.dirs_ seg
          (vset row (Int.tdiv pageNum st.dir_size_) { present := true, pt := some t })) := by
  obtain ⟨_, _, hc⟩ := translate_cases h
  rcases hc with ⟨_, rfl, _⟩ | ⟨S, hS, hc⟩
  · exact ⟨rfl, rfl, rfl, rfl, rfl, rfl, Or.inl rfl⟩
  rcases hc with ⟨_, _, rfl, _⟩ | ⟨_, _, rfl, _⟩ | ⟨_, _, _, rfl, _⟩ | ⟨hpass, hw⟩
  · exact ⟨rfl, rfl, rfl, rfl, rfl, rfl, Or.inl rfl⟩
  · exact ⟨rfl, rfl, rfl, rfl, rfl, rfl, Or.inl rfl⟩
  · exact ⟨rfl, rfl, rfl, rfl, rfl, rfl, Or.inl rfl⟩
  obtain ⟨_, _, sa, P, hsa, hP, hc⟩ := walk_cases hw
  obtain ⟨hfa, hpa, hma⟩ := lazy_alloc_fixed hsa
  have hpa1 : sa.pm_ = st.pm_ := hpa
  have hdirs : sa.dirs_ = st.dirs_ ∨
      ∃ S row de t, Passes st seg pageNum offset acc S ∧ vget st.dirs_ seg = some row ∧
        vget row (Int.tdiv pageNum st.dir_size_) = some de ∧ de.present = false ∧
        sa.dirs_ = vset st.dirs_ seg
          (vset row (Int.tdiv pageNum st.dir_size_) { present := true, pt := some t }) := by
    obtain ⟨row, de, hrow, hde, hcase⟩ := lazy_alloc_cases hsa
    rcases hcase with ⟨_, rfl⟩ | ⟨hp, t, c, _, rfl⟩
    · exact Or.inl rfl
    · exact Or.inr ⟨S, row, de, t, hpass, hrow, hde, hp, rfl⟩
  rcases hc with ⟨_, _, rfl, _⟩ | ⟨_, _, sb, hsb, rfl, _⟩ | ⟨_, _, sb, hsb, _, hr⟩ |
    ⟨_, _, sb, hsb, _, hr⟩
  · refine ⟨hfa.segments, hfa.dir_size, hfa.page_size, hpa1, ?_, ?_, hdirs⟩
    · exact (congrArg Metrics.translations hma : sa.metrics_.translations = _)
    · exact (congrArg Metrics.total_latency hma : sa.metrics_.total_latency = _)
  · have hsb1 := page_fault_no_victim (by rw [hpa1]; exact hlen) hsb
    subst hsb1
    refine ⟨hfa.segments, hfa.dir_size, hfa.page_size, hpa1, ?_, ?_, hdirs⟩
    · exact (congrArg Metrics.translations hma : sa.metrics_.translations = _)
    · exact (congrArg Metrics.total_latency hma : sa.metrics_.total_latency = _)
  · exfalso
    exact success_nonneg hbase hS hpass.2.2.1.1
      (by rw [(page_fault_fixed hsb).1.page_size, hfa.page_size]; exact hpass.2.2.2) hr.symm
  · exfalso
    exact success_nonneg hbase hS hpass.2.2.1.1
      (by rw [(page_hit_fixed hsb).1.page_size, hfa.page_size]; exact hpass.2.2.2) hr.symm

theorem failure_frame_witness :
    (demoROStep.2.1 = -1 ∧
    demoROStep.1.segments_ = demoRO.segments_ ∧ demoROStep.1.dir_size_ = demoRO.dir_size_ ∧
    demoROStep.1.page_size_ = demoRO.page_size_ ∧
    demoROStep.1.pm_ = demoRO.pm_ ∧
    demoROStep.1.metrics_.translations = demoRO.metrics_.translations ∧
    demoROStep.1.metrics_.total_latency = demoRO.metrics_.total_latency ∧
    (demoROStep.1.dirs_ = demoRO.dirs_ ∨
      ∃ S row de t, Passes demoRO 0 0 0 Access.WRITE S ∧ vget demoRO.dirs_ 0 = some row ∧
        vget row (Int.tdiv 0 demoRO.dir_size_) = some de ∧ de.present = false ∧
        demoROStep.1.dirs_ = vset demoRO.dirs_ 0
          (vset row (Int.tdiv 0 demoRO.dir_size_) { present := true, pt := some t }))) ∧
    (demoNFStep.2.1 = -1 ∧
    demoNFStep.1.segments_ = demoNF.segments_ ∧ demoNFStep.1.dir_size_ = demoNF.dir_size_ ∧
    demoNFStep.1.page_size_ = demoNF.page_size_ ∧
    demoNFStep.1.pm_ = demoNF.pm_ ∧
    demoNFStep.1.metrics_.translations = demoNF.metrics_.translations ∧
    demoNFStep.1.metrics_.total_latency = demoNF.metrics_.total_latency ∧
    (demoNFStep.1.dirs_ = demoNF.dirs_ ∨
      ∃ S row de t, Passes demoNF 0 0 0 Access.READ S ∧ vget demoNF.dirs_ 0 = some row ∧
        vget row (Int.tdiv 0 demoNF.dir_size_) = some de ∧ de.present = false ∧
        demoNFStep.1.dirs_ = vset demoNF.dirs_ 0
          (vset row (Int.tdiv 0 demoNF.dir_size_) { present := true, pt := some t }))) :=
  ⟨⟨by decide, failure_frame roPageR demoRO demoROStep.1 0 0 0 Access.WRITE demoROStep.2.2
      (by decide) (by decide) (by decide)⟩,
    ⟨by decide, failure_frame zeroR demoNF demoNFStep.1 0 0 0 Access.READ demoNFStep.2.2
      (by decide) (by decide) (by decide)⟩⟩

/-! ## C5: a denied write -/

theorem translate_ro_segment (R : Nat → Nat) (st : SegmentTable) {seg : Int} {S : Segment}
    (pn off : Int) (ht : st.time_ < INT_MAX) (hS : vget st.segments_ seg = some S)
    (hro : S.prot = Protection.READ_ONLY) :
    st.translate R seg pn off Access.WRITE
      = some (st.tick.prot_violation, -1, 1 + ((R st.rand_ % 5 : Nat) : Int)) := by
  have hr := vget_some_range hS
  unfold SegmentTable.translate
  rw [if_neg (by omega)]
  simp only
  rw [if_neg (by simp only [SegmentTable.tick]; omega)]
  have hS1 : vget st.tick.segments_ seg = some S := hS
  rw [hS1]
  simp only [hro, and_self, if_true]

theorem translate_of_passes (R : Nat → Nat) {st : SegmentTable} {seg pn off : Int}
    {acc : Access} {S : Segment} (ht : st.time_ < INT_MAX) (hp : Passes st seg pn off acc S) :
    st.translate R seg pn off acc =
      st.tick.walk R S seg pn off acc (st.time_ + 1) (1 + ((R st.rand_ % 5 : Nat) : Int)) := by
  obtain ⟨hS, hw, hpn, hoff⟩ := hp
  have hr := vget_some_range hS
  unfold SegmentTable.translate
  rw [if_neg (by omega)]
  simp only
  rw [if_neg (by simp only [SegmentTable.tick]; omega)]
  have hS1 : vget st.tick.segments_ seg = some S := hS
  rw [hS1]
  simp only
  rw [if_neg hw, if_neg (by omega), if_neg (by simp only [SegmentTable.tick]; omega)]

/-- Lazy allocation leaves every page entry that exists as it is. -/
theorem lazy_alloc_pages {cli : CLI} {R : Nat → Nat} {st sa : SegmentTable} {seg dir : Int}
    (h : Inv cli st) (ha : st.lazy_alloc R seg dir = some sa) (s d p : Int) (pg : Page)
    (hpg : pageAt st.dirs_ s d p = some pg) : pageAt sa.dirs_ s d p = some pg := by
  obtain ⟨row, de, hrow, hde, hc⟩ := lazy_alloc_cases ha
  rcases hc with ⟨_, rfl⟩ | ⟨hp, t, c, _, rfl⟩
  · exact hpg
  simp only
  rw [pageAt_vset_entry hrow hde, if_neg]
  · exact hpg
  · rintro ⟨e1, e2⟩
    subst e1 e2
    obtain ⟨row1, de1, t1, h1, h2, h3, _⟩ := pageAt_some hpg
    rw [hrow] at h1
    cases h1
    rw [hde] at h2
    cases h2
    have := (h.shape.entry s row d de hrow hde).1.mpr (by rw [h3]; rfl)
    rw [hp] at this
    cases this

/-- C5: on every reachable engine state (with a clock that can still tick), a WRITE request
to a read-only segment, whatever its page number and offset, and a WRITE request that passes
the bound checks and resolves to a read-only page, return `-1`; `prot_viol` and
`writes_denied` each grow by exactly one, every page entry is as it was before (presence
flag and frame field included), and the frame pool is unchanged. -/
theorem write_denied (R : Nat → Nat) (cli : CLI) (st : SegmentTable)
    (hreach : Reachable R cli st) (hclock : st.time_ < INT_MAX) (seg pageNum offset : Int)
    (S : Segment) (hS : vget st.segments_ seg = some S)
    (hro : S.prot = Protection.READ_ONLY ∨
      ((0 ≤ pageNum ∧ pageNum < S.limit_pages) ∧ (0 ≤ offset ∧ offset < st.page_size_) ∧
        ∃ sa P, st.tick.lazy_alloc R seg (Int.tdiv pageNum st.dir_size_) = some sa ∧
          pageAt sa.dirs_ seg (Int.tdiv pageNum st.dir_size_)
            (Int.tmod pageNum st.dir_size_) = some P ∧
          P.prot = Protection.READ_ONLY)) :
    ∃ st1 lat, st.translate R seg pageNum offset Access.WRITE = some (st1, -1, lat) ∧
      st1.metrics_.prot_viol = st.metrics_.prot_viol + 1 ∧
      st1.metrics_.writes_denied = st.metrics_.writes_denied + 1 ∧
      (∀ s d p pg, pageAt st.dirs_ s d p = some pg → pageAt st1.dirs_ s d p = some pg) ∧
      st1.pm_ = st.pm_ := by
  have h := reachable_inv hreach
  by_cases hseg : S.prot = Protection.READ_ONLY
  · exact ⟨_, _, translate_ro_segment R st pageNum offset hclock hS hseg, rfl, rfl,
      fun s d p pg hpg => hpg, rfl⟩
  rcases hro with hro | ⟨hpn, hoff, sa, P, hsa, hP, hP_ro⟩
  · exact absurd hro hseg
  have hpass : Passes st seg pageNum offset Access.WRITE S :=
    ⟨hS, fun hc => hseg hc.2, hpn, hoff⟩
  have hk := h.tick hclock
  obtain ⟨hfa, hpa, hma⟩ := lazy_alloc_fixed hsa
  have hd0 : st.tick.dir_size_ ≠ 0 := by
    intro h0
    obtain ⟨row, de, hrow, hde, _⟩ := lazy_alloc_cases hsa
    have hl := hk.shape.row_len seg row hrow
    have hr := vget_some_range hde
    rw [← hk.shape.dir_size, h0] at hl
    omega
  refine ⟨sa.prot_violation, 1 + ((R st.rand_ % 5 : Nat) : Int), ?_, ?_, ?_, ?_, hpa⟩
  · rw [translate_of_passes R hclock hpass]
    unfold SegmentTable.walk
    rw [if_neg hd0]
    have e : st.tick.dir_size_ = st.dir_size_ := rfl
    simp only [e, hsa, hP, hP_ro, and_self, if_true]
  · exact congrArg (fun m : Metrics => m.prot_viol + 1) hma
  · exact congrArg (fun m : Metrics => m.writes_denied + 1) hma
  · intro s d p pg hpg
    exact lazy_alloc_pages hk hsa s d p pg hpg

theorem write_denied_witness :
    ∃ st1 lat, demoRO.translate roPageR 0 0 0 Access.WRITE = some (st1, -1, lat) ∧
      st1.metrics_.prot_viol = demoRO.metrics_.prot_viol + 1 ∧
      st1.metrics_.writes_denied = demoRO.metrics_.writes_denied + 1 ∧
      (∀ s d p pg, pageAt demoRO.dirs_ s d p = some pg → pageAt st1.dirs_ s d p = some pg) ∧
      st1.pm_ = demoRO.pm_ :=
  write_denied roPageR demoCLI demoRO (Reachable.boot (by decide)) (by decide) 0 0 0
    { base := 1000, limit_pages := 3, prot := Protection.READ_WRITE } (by decide)
    (Or.inr ⟨by decide, by decide,
      (demoRO.tick.lazy_alloc roPageR 0 (Int.tdiv 0 demoRO.dir_size_)).get (by decide),
      { frame := -1, present := false, prot := Protection.READ_ONLY, last_access := 0 },
      by decide, by decide, by decide⟩)

/-! ## C6, C7, C8: the frame and page invariants of the reachable states -/

theorem countP_free_add (meta : List FrameMeta) :
    List.countP (fun m => m.free) meta + List.countP (fun m => !m.free) meta = meta.length := by
  induction meta with
  | nil => rfl
  | cons m ms ih =>
    cases hm : m.free
    · simp only [List.countP_cons, hm, Bool.not_false, List.length_cons, if_true]
      simp only [Bool.false_eq_true, if_false]
      omega
    · simp only [List.countP_cons, hm, Bool.not_true, List.length_cons, if_true]
      simp only [Bool.false_eq_true, if_false]
      omega

/-- C6: in every engine state reachable from construction by `translate` calls, the frames
marked free plus the frames marked used are the `F` frames of the pool; the owning triple of
every used frame names a materialised page entry that is present and whose `frame` field is
that frame's id; and every page entry whose `frame` field is `>= 0` names a used frame in
`[0, F)` whose owning triple is that page. -/
theorem frame_page_consistency (R : Nat → Nat) (cli : CLI) (st : SegmentTable)
    (hreach : Reachable R cli st) :
    (((List.countP (fun m => m.free) st.pm_.meta +
        List.countP (fun m => !m.free) st.pm_.meta : Nat) : Int) = cli.frames ∧
      st.pm_.num_frames = cli.frames) ∧
    (∀ f m, vget st.pm_.meta f = some m → m.free = false →
      ∃ pg, pageAt st.dirs_ m.seg m.dir m.page = some pg ∧ pg.present = true ∧ pg.frame = f) ∧
    (∀ s d p pg, pageAt st.dirs_ s d p = some pg → 0 ≤ pg.frame →
      (0 ≤ pg.frame ∧ pg.frame < cli.frames) ∧
      ∃ m, vget st.pm_.meta pg.frame = some m ∧ m.free = false ∧
        m.seg = s ∧ m.dir = d ∧ m.page = p) := by
  have h := reachable_inv hreach
  refine ⟨⟨?_, h.shape.frames⟩, h.linked.frame_page, ?_⟩
  · rw [countP_free_add]; exact h.shape.meta_len
  · intro s d p pg hpg h0
    obtain ⟨m, hm, hrest⟩ := h.linked.page_frame s d p pg hpg (by omega)
    have hr := vget_some_range hm
    exact ⟨⟨hr.1, by rw [← h.shape.meta_len]; exact hr.2⟩, m, hm, hrest⟩

theorem demoStep1_reachable : Reachable demoR demoCLI demoStep1.1 :=
  Reachable.step (Reachable.boot (by decide : boot demoR demoCLI = some demo0))
    (by decide : demo0.translate demoR 0 1 5 Access.READ
      = some (demoStep1.1, demoStep1.2.1, demoStep1.2.2))

theorem frame_page_consistency_witness :
    (((List.countP (fun m => m.free) demoStep1.1.pm_.meta +
        List.countP (fun m => !m.free) demoStep1.1.pm_.meta : Nat) : Int) = demoCLI.frames ∧
      demoStep1.1.pm_.num_frames = demoCLI.frames) ∧
    (∀ f m, vget demoStep1.1.pm_.meta f = some m → m.free = false →
      ∃ pg, pageAt demoStep1.1.dirs_ m.seg m.dir m.page = some pg ∧ pg.present = true ∧
        pg.frame = f) ∧
    (∀ s d p pg, pageAt demoStep1.1.dirs_ s d p = some pg → 0 ≤ pg.frame →
      (0 ≤ pg.frame ∧ pg.frame < demoCLI.frames) ∧
      ∃ m, vget demoStep1.1.pm_.meta pg.frame = some m ∧ m.free = false ∧
        m.seg = s ∧ m.dir = d ∧ m.page = p) :=
  frame_page_consistency demoR demoCLI demoStep1.1 demoStep1_reachable

/-- C7: in every engine state reachable from construction by `translate` calls, two page
entries that hold the same frame id `>= 0` are the same entry (same segment, directory and
page index).  As this holds after every call, a call that gives a victim's frame to the
faulting page has unlinked the previous owner by the time it returns. -/
theorem exclusive_frame_ownership (R : Nat → Nat) (cli : CLI) (st : SegmentTable)
    (hreach : Reachable R cli st) (s d p s1 d1 p1 : Int) (pg pg1 : Page)
    (hpg : pageAt st.dirs_ s d p = some pg) (hpg1 : pageAt st.dirs_ s1 d1 p1 = some pg1)
    (h0 : 0 ≤ pg.frame) (heq : pg.frame = pg1.frame) : s = s1 ∧ d = d1 ∧ p = p1 := by
  have h := reachable_inv hreach
  obtain ⟨m, hm, _, e1, e2, e3⟩ := h.linked.page_frame s d p pg hpg (by omega)
  obtain ⟨m1, hm1, _, f1, f2, f3⟩ := h.linked.page_frame s1 d1 p1 pg1 hpg1 (by omega)
  rw [heq, hm1] at hm
  cases hm
  exact ⟨e1.symm.trans f1, e2.symm.trans f2, e3.symm.trans f3⟩

theorem exclusive_frame_ownership_witness :
    (0 : Int) = 0 ∧ (0 : Int) = 0 ∧ (1 : Int) = 1 :=
  exclusive_frame_ownership demoR demoCLI demoStep1.1 demoStep1_reachable 0 0 1 0 0 1
    { frame := 0, present := true, prot := Protection.READ_WRITE, last_access := 1 }
    { frame := 0, present := true, prot := Protection.READ_WRITE, last_access := 1 }
    (by decide) (by decide) (by decide) (by decide)

/-- C8 (counterexample): after one `translate(0,0,0,READ)` on the engine built under `oneR`,
the page entry `(0,0,0)` is present although its `frame` field is `-1`, not a pool index. -/
theorem present_page_without_frame :
    Reachable oneR demoCLI demoOneStep.1 ∧
      (pageAt demoOneStep.1.dirs_ 0 0 0).map (fun P => (P.present, P.frame))
        = some (true, -1) ∧
      demoOneStep.1.metrics_.faults = 0 :=
  ⟨Reachable.step (Reachable.boot (by decide : boot oneR demoCLI = some demoOne))
      (by decide : demoOne.translate oneR 0 0 0 Access.READ
        = some (demoOneStep.1, demoOneStep.2.1, demoOneStep.2.2)),
    by decide, by decide⟩

/-- C8 (amended): in every reachable engine state every page entry satisfies: its `frame`
field is either `-1` or a valid frame-pool index, and if it is a valid index then the
`present` flag is true (an absent entry has `frame = -1`). -/
theorem page_frame_implies_present (R : Nat → Nat) (cli : CLI) (st : SegmentTable)
    (hreach : Reachable R cli st) (s d p : Int) (pg : Page)
    (hpg : pageAt st.dirs_ s d p = some pg) :
    (pg.frame = -1 ∨ (0 ≤ pg.frame ∧ pg.frame < cli.frames)) ∧
    ((0 ≤ pg.frame ∧ pg.frame < cli.frames) → pg.present = true) ∧
    (pg.present = false → pg.frame = -1) := by
  have h := reachable_inv hreach
  refine ⟨?_, fun hv => h.linked.present_of_frame hpg (by omega),
    fun hab => h.linked.absent_frame hpg hab⟩
  by_cases hf : pg.frame = -1
  · exact Or.inl hf
  · obtain ⟨m, hm, _⟩ := h.linked.page_frame s d p pg hpg hf
    have hr := vget_some_range hm
    exact Or.inr ⟨hr.1, by rw [← h.shape.meta_len]; exact hr.2⟩

theorem page_frame_implies_present_witness :
    ((0 : Int) = -1 ∨ (0 ≤ (0 : Int) ∧ (0 : Int) < demoCLI.frames)) ∧
    ((0 ≤ (0 : Int) ∧ (0 : Int) < demoCLI.frames) → true = true) ∧
    (true = false → (0 : Int) = -1) :=
  page_frame_implies_present demoR demoCLI demoStep1.1 demoStep1_reachable
    0 0 1 { frame := 0, present := true, prot := Protection.READ_WRITE, last_access := 1 }
    (by decide)

/-! ## C9: a present page entry without a frame -/

/-- C9 (counterexample): on a reachable state whose page entry `(0,0,0)` is present with
`frame = -1`, a READ of that page succeeds without a fault: `faults` keeps its value, the
`frame` field stays `-1` and the pool is unchanged (no frame is obtained). -/
theorem unmapped_present_page_no_fault :
    Reachable oneR demoCLI demoOneStep.1 ∧
      (pageAt demoOneStep.1.dirs_ 0 0 0).map (fun P => (P.present, P.frame))
        = some (true, -1) ∧
      demoOneStep.1.translate oneR 0 0 0 Access.READ
        = some (demoOneStep2.1, 1000, demoOneStep2.2.2) ∧
      demoOneStep2.1.metrics_.faults = demoOneStep.1.metrics_.faults ∧
      (pageAt demoOneStep2.1.dirs_ 0 0 0).map (fun P => P.frame) = some (-1) ∧
      demoOneStep2.1.pm_ = demoOneStep.1.pm_ :=
  ⟨Reachable.step (Reachable.boot (by decide : boot oneR demoCLI = some demoOne))
      (by decide : demoOne.translate oneR 0 0 0 Access.READ
        = some (demoOneStep.1, demoOneStep.2.1, demoOneStep.2.2)),
    by decide, by decide, by decide, by decide, by decide⟩

/-- C9 (amended): on every engine state in which the target page entry is materialised with
`present = true` and `frame = -1`, a request that passes all bound and protection checks is
served as a hit: it returns the physical address, `translations` grows by one, `faults` is
unchanged, the frame pool is unchanged (no frame is obtained), and the page entry keeps
`present = true` and `frame = -1`; only its `last_access` is set to the new clock value. -/
theorem unmapped_present_page_hits (R : Nat → Nat) (st : SegmentTable)
    (seg pageNum offset : Int) (acc : Access) (S : Segment) (row : List DirEntry)
    (de : DirEntry) (P : Page) (hclock : st.time_ < INT_MAX)
    (hpass : Passes st seg pageNum offset acc S) (hd : st.dir_size_ ≠ 0)
    (hrow : vget st.dirs_ seg = some row)
    (hde : vget row (Int.tdiv pageNum st.dir_size_) = some de) (hpres : de.present = true)
    (hP : pageAt st.dirs_ seg (Int.tdiv pageNum st.dir_size_) (Int.tmod pageNum st.dir_size_)
      = some P)
    (hPp : P.present = true) (hPf : P.frame = -1)
    (hw : ¬ (acc = Access.WRITE ∧ P.prot = Protection.READ_ONLY)) :
    ∃ st1 lat, st.translate R seg pageNum offset acc
        = some (st1, S.base + pageNum * st.page_size_ + offset, lat) ∧
      st1.metrics_.translations = st.metrics_.translations + 1 ∧
      st1.metrics_.faults = st.metrics_.faults ∧ st1.pm_ = st.pm_ ∧
      pageAt st1.dirs_ seg (Int.tdiv pageNum st.dir_size_) (Int.tmod pageNum st.dir_size_)
        = some { P with last_access := st.time_ + 1 } := by
  have hla : st.tick.lazy_alloc R seg (Int.tdiv pageNum st.dir_size_) = some st.tick := by
    unfold SegmentTable.lazy_alloc
    have e : st.tick.dirs_ = st.dirs_ := rfl
    rw [e, hrow]
    simp only
    rw [hde]
    simp only
    rw [if_pos hpres]
  have hP1 : pageAt st.tick.dirs_ seg (Int.tdiv pageNum st.dir_size_)
      (Int.tmod pageNum st.dir_size_) = some P := hP
  have hhit : st.tick.page_hit P seg (Int.tdiv pageNum st.dir_size_)
      (Int.tmod pageNum st.dir_size_) (st.time_ + 1) =
      some { st.tick with
        dirs_ := modPage st.dirs_ seg (Int.tdiv pageNum st.dir_size_)
          (Int.tmod pageNum st.dir_size_) (fun Q => { Q with last_access := st.time_ + 1 }) } := by
    unfold SegmentTable.page_hit
    rw [hPf, touch_unmapped]
    rfl
  refine ⟨({ st.tick with
      dirs_ := modPage st.dirs_ seg (Int.tdiv pageNum st.dir_size_)
        (Int.tmod pageNum st.dir_size_)
        (fun Q => { Q with last_access := st.time_ + 1 }) }).success
      (1 + ((R st.rand_ % 5 : Nat) : Int)), 1 + ((R st.rand_ % 5 : Nat) : Int),
    ?_, ?_, ?_, ?_, ?_⟩
  · rw [translate_of_passes R hclock hpass]
    unfold SegmentTable.walk
    have e : st.tick.dir_size_ = st.dir_size_ := rfl
    rw [if_neg (by rw [e]; exact hd)]
    simp only [e, hla, hP1]
    rw [if_neg hw, if_neg (by rw [hPp]; simp)]
    simp only [hhit]
    rfl
  · rfl
  · rfl
  · rfl
  · simp only [SegmentTable.success]
    rw [pageAt_modPage, if_pos ⟨rfl, rfl, rfl⟩, hP]
    rfl

theorem unmapped_present_page_hits_witness :
    ∃ st1 lat, demoOneStep.1.translate oneR 0 0 0 Access.READ
        = some (st1, 1000 + 0 * demoOneStep.1.page_size_ + 0, lat) ∧
      st1.metrics_.translations = demoOneStep.1.metrics_.translations + 1 ∧
      st1.metrics_.faults = demoOneStep.1.metrics_.faults ∧ st1.pm_ = demoOneStep.1.pm_ ∧
      pageAt st1.dirs_ 0 (Int.tdiv 0 demoOneStep.1.dir_size_)
          (Int.tmod 0 demoOneStep.1.dir_size_)
        = some { frame := -1, present := true, prot := Protection.READ_ONLY,
                 last_access := demoOneStep.1.time_ + 1 } :=
  unmapped_present_page_hits oneR demoOneStep.1 0 0 0 Access.READ
    { base := 1000, limit_pages := 4, prot := Protection.READ_ONLY }
    ((vget demoOneStep.1.dirs_ 0).get (by decide))
    ((vget ((vget demoOneStep.1.dirs_ 0).get (by decide)) 0).get (by decide))
    { frame := -1, present := true, prot := Protection.READ_ONLY, last_access := 1 }
    (by decide) (by unfold Passes; decide) (by decide) (by decide) (by decide) (by decide)
    (by decide) (by decide) (by decide) (by decide)

/-! ## What a call that faults does -/

theorem faultStep_some {R : Nat → Nat} {st st1 : SegmentTable} {q : Int × Int × Int × Access}
    (h : faultStep R st q = some st1) :
    ∃ r lat, st.translate R q.1 q.2.1 q.2.2.1 q.2.2.2 = some (st1, r, lat) ∧
      st1.metrics_.faults = st.metrics_.faults + 1 := by
  unfold faultStep at h
  split at h
  · simp at h
  · rename_i s2 r lat ht
    split at h
    · rename_i hf
      simp only [Option.some.injEq] at h
      subst h
      exact ⟨r, lat, ht, hf⟩
    · simp at h

/-- The three outcomes of a call that faults, on an engine that satisfies the invariant: it
takes the first free frame, or evicts the victim chosen by `choose_victim`, or finds no
victim.  `sa` is the state after the clock tick and lazy allocation. -/
theorem fault_step_outcome {cli : CLI} {R : Nat → Nat} {st st1 : SegmentTable}
    {seg pn off : Int} {acc : Access} (h : Inv cli st)
    (hs : faultStep R st (seg, pn, off, acc) = some st1) :
    ∃ sa P lat, sa.pm_ = st.pm_ ∧ Inv cli sa ∧ sa.time_ = st.time_ + 1 ∧
      sa.metrics_ = st.metrics_ ∧
      (∀ s d p pg, pageAt st.dirs_ s d p = some pg → pageAt sa.dirs_ s d p = some pg) ∧
      pageAt sa.dirs_ seg (Int.tdiv pn st.dir_size_) (Int.tmod pn st.dir_size_) = some P ∧
      P.present = false ∧
      ((∃ f m, vget st.pm_.meta f = some m ∧ m.free = true ∧
          (∀ j mj, 0 ≤ j → j < f → vget st.pm_.meta j = some mj → mj.free = false) ∧
          st1 = (faultFree sa f seg (Int.tdiv pn st.dir_size_) (Int.tmod pn st.dir_size_)
            (st.time_ + 1)).success lat) ∨
       ((∀ f m, vget st.pm_.meta f = some m → m.free = false) ∧
        ((∃ pm2 v m, st.pm_.choose_victim (st.time_ + 1) = some (pm2, v) ∧
            vget st.pm_.meta v = some m ∧ m.free = false ∧
            st1 = (faultEvict sa pm2.fifo_q v m seg (Int.tdiv pn st.dir_size_)
              (Int.tmod pn st.dir_size_) (st.time_ + 1)).success lat) ∨
         (∃ pm2, st.pm_.choose_victim (st.time_ + 1) = some (pm2, -1) ∧
            st1.pm_ = pm2 ∧ st1.dirs_ = sa.dirs_)))) := by
  obtain ⟨r, lat, ht, hf⟩ := faultStep_some hs
  simp only at ht
  obtain ⟨hclock, _, hc⟩ := translate_cases ht
  have hk := h.tick hclock
  rcases hc with ⟨_, rfl, _⟩ | ⟨S, hS, hc⟩
  · exfalso
    simp only [SegmentTable.seg_fault, SegmentTable.log, SegmentTable.tick] at hf
    omega
  rcases hc with ⟨_, _, rfl, _⟩ | ⟨_, _, rfl, _⟩ | ⟨_, _, _, rfl, _⟩ | ⟨hpass, hw⟩
  · exfalso
    simp only [SegmentTable.prot_violation, SegmentTable.log, SegmentTable.tick] at hf
    omega
  · exfalso
    simp only [SegmentTable.seg_fault, SegmentTable.log, SegmentTable.tick] at hf
    omega
  · exfalso
    simp only [SegmentTable.offset_fault, SegmentTable.log, SegmentTable.tick] at hf
    omega
  obtain ⟨_, _, sa, P, hsa, hP, hc⟩ := walk_cases hw
  obtain ⟨hia, hta, hpa, _, hma, _, _⟩ := hk.lazy_alloc hsa
  have hma1 : sa.metrics_ = st.metrics_ := hma
  have hpa1 : sa.pm_ = st.pm_ := hpa
  have hta1 : sa.time_ = st.time_ + 1 := hta
  have hfa : sa.metrics_.faults = st.metrics_.faults := congrArg Metrics.faults hma1
  have hpages : ∀ s d p pg, pageAt st.dirs_ s d p = some pg →
      pageAt sa.dirs_ s d p = some pg := fun s d p pg hpg =>
    lazy_alloc_pages hk hsa s d p pg hpg
  have hreduce : ∀ sb ok, sa.page_fault seg (Int.tdiv pn st.dir_size_)
      (Int.tmod pn st.dir_size_) (st.time_ + 1) = some (sb, ok) →
      st1 = (if ok = true then sb.success lat else sb.log) →
      P.present = false →
      ((∃ f m, vget st.pm_.meta f = some m ∧ m.free = true ∧
          (∀ j mj, 0 ≤ j → j < f → vget st.pm_.meta j = some mj → mj.free = false) ∧
          st1 = (faultFree sa f seg (Int.tdiv pn st.dir_size_) (Int.tmod pn st.dir_size_)
            (st.time_ + 1)).success lat) ∨
       ((∀ f m, vget st.pm_.meta f = some m → m.free = false) ∧
        ((∃ pm2 v m, st.pm_.choose_victim (st.time_ + 1) = some (pm2, v) ∧
            vget st.pm_.meta v = some m ∧ m.free = false ∧
            st1 = (faultEvict sa pm2.fifo_q v m seg (Int.tdiv pn st.dir_size_)
              (Int.tmod pn st.dir_size_) (st.time_ + 1)).success lat) ∨
         (∃ pm2, st.pm_.choose_victim (st.time_ + 1) = some (pm2, -1) ∧
            st1.pm_ = pm2 ∧ st1.dirs_ = sa.dirs_)))) := by
    intro sb ok hsb hst1 _
    rcases page_fault_total hia.shape hia.linked hia.queue seg (Int.tdiv pn st.dir_size_)
        (Int.tmod pn st.dir_size_) (st.time_ + 1) with
      ⟨f, m, hm, hmf, hmin, hpf⟩ | ⟨hall, ⟨pm2, v, m, hcv, hm, hmf, hpf⟩ | ⟨pm2, hcv, hpf⟩⟩
    · rw [hsb] at hpf
      simp only [Option.some.injEq, Prod.mk.injEq] at hpf
      obtain ⟨rfl, rfl⟩ := hpf
      rw [hpa1] at hm hmin
      exact Or.inl ⟨f, m, hm, hmf, hmin, by simpa using hst1⟩
    · rw [hsb] at hpf
      simp only [Option.some.injEq, Prod.mk.injEq] at hpf
      obtain ⟨rfl, rfl⟩ := hpf
      rw [hpa1] at hm hall hcv
      exact Or.inr ⟨hall, Or.inl ⟨pm2, v, m, hcv, hm, hmf, by simpa using hst1⟩⟩
    · rw [hsb] at hpf
      simp only [Option.some.injEq, Prod.mk.injEq] at hpf
      obtain ⟨rfl, rfl⟩ := hpf
      rw [hpa1] at hall hcv
      refine Or.inr ⟨hall, Or.inr ⟨pm2, hcv, ?_, ?_⟩⟩
      · rw [hst1]; rfl
      · rw [hst1]; rfl
  rcases hc with ⟨_, _, rfl, _⟩ | ⟨_, hab, sb, hsb, rfl, _⟩ | ⟨_, hab, sb, hsb, rfl, _⟩ |
    ⟨_, _, sb, hsb, rfl, _⟩
  · exfalso
    simp only [SegmentTable.prot_violation, SegmentTable.log] at hf
    omega
  · exact ⟨sa, P, lat, hpa1, hia, hta1, hma1, hpages, hP, hab,
      hreduce sb false hsb (by simp) hab⟩
  · exact ⟨sa, P, lat, hpa1, hia, hta1, hma1, hpages, hP, hab,
      hreduce sb true hsb (by simp) hab⟩
  · exfalso
    obtain ⟨_, _, hmb⟩ := page_hit_fixed hsb
    have : sb.metrics_.faults = sa.metrics_.faults := congrArg Metrics.faults hmb
    simp only [SegmentTable.success] at hf
    omega

/-! ## C10: FIFO evicts the frame of the first fault -/

theorem choose_victim_fifo_head {pm : PhysicalMemory} {f : Int} {q : List Int}
    {m : FrameMeta} (now : Int) (hpol : pm.policy = Policy.FIFO) (hq : pm.fifo_q = f :: q)
    (hm : vget pm.meta f = some m) (hused : m.free = false) :
    pm.choose_victim now = some ({ pm with fifo_q := q ++ [f] }, f) := by
  obtain ⟨nf, pol, meta, fq⟩ := pm
  simp only at hpol hq hm
  subst hpol hq
  simp only [PhysicalMemory.choose_victim, drop_stale, hm, hused, Bool.false_eq_true,
    if_false]

theorem boot_pool {R : Nat → Nat} {cli : CLI} {st : SegmentTable}
    (h : boot R cli = some st) :
    st.pm_.fifo_q = [] ∧ ∀ f m, vget st.pm_.meta f = some m → m.free = true := by
  unfold boot PhysicalMemory.new at h
  split at h
  · simp at h
  rename_i pm hpm
  split at hpm
  · simp at hpm
  simp only [Option.some.injEq] at hpm
  subst hpm
  unfold SegmentTable.new at h
  split at h
  · simp at h
  split at h
  · simp at h
  split at h
  · simp at h
  simp only [Option.some.injEq] at h
  subst h
  refine ⟨rfl, fun f m hm => ?_⟩
  simp only at hm
  have := vget_replicate hm
  subst this
  rfl

theorem FifoTrace.boot {R : Nat → Nat} {cli : CLI} {st : SegmentTable}
    (h : MemSim.boot R cli = some st) (s1 d1 p1 : Int) : FifoTrace cli s1 d1 p1 0 st := by
  obtain ⟨hq, hfree⟩ := boot_pool h
  refine ⟨boot_inv h, ?_, fun _ => hq, fun h1 => by omega, fun h1 => by omega⟩
  intro f m hm
  have hr := vget_some_range hm
  have := hfree f m hm
  constructor
  · intro hc; rw [this] at hc; cases hc
  · intro hc; omega

/-- One more fault while a frame is still free takes frame `j`. -/
theorem FifoTrace.step {cli : CLI} {R : Nat → Nat} {s1 d1 p1 j : Int} {st st1 : SegmentTable}
    {seg pn off : Int} {acc : Access} (h : FifoTrace cli s1 d1 p1 j st) (h0 : 0 ≤ j)
    (hj : j < cli.frames) (hs : faultStep R st (seg, pn, off, acc) = some st1)
    (hfirst : j = 0 → seg = s1 ∧ Int.tdiv pn st.dir_size_ = d1 ∧
      Int.tmod pn st.dir_size_ = p1) :
    FifoTrace cli s1 d1 p1 (j + 1) st1 := by
  have hinv1 : Inv cli st1 := by
    obtain ⟨r, lat, ht, _⟩ := faultStep_some hs
    exact h.inv.translate ht
  obtain ⟨mj, hmj⟩ := @vget_of_range _ st.pm_.meta j h0 (by rw [h.inv.shape.meta_len]; exact hj)
  have hjfree : mj.free = true := by
    by_contra hc
    have := (h.used j mj hmj).mp (by simpa using hc)
    omega
  obtain ⟨sa, P, lat, hpa, _, _, _, _, _, _, hc⟩ := fault_step_outcome h.inv hs
  rcases hc with ⟨f, m, hm, hmf, hmin, rfl⟩ | ⟨hall, _⟩
  · have hfj : f = j := by
      have h1 : ¬ f < j := fun hlt => by
        have := (h.used f m hm).mpr hlt
        rw [hmf] at this
        cases this
      by_contra hne
      have := hmin j mj h0 (by omega) hmj
      rw [hjfree] at this
      cases this
    subst hfj
    refine ⟨hinv1, ?_, fun hc => by omega, ?_, ?_⟩
    · intro f1 m1 h1
      simp only [SegmentTable.success, faultFree, hpa] at h1
      rw [vget_vset] at h1
      by_cases hf1 : f1 = f
      · subst hf1
        rw [if_pos rfl, hm] at h1
        simp only [Option.map_some', Option.some.injEq] at h1
        subst h1
        simp
      · rw [if_neg hf1] at h1
        have := h.used f1 m1 h1
        constructor
        · intro hc; have := this.mp hc; omega
        · intro hc; exact this.mpr (by omega)
    · intro _
      simp only [SegmentTable.success, faultFree, hpa]
      by_cases hz : f = 0
      · rw [h.empty hz, hz]; exact ⟨[0], rfl⟩
      · obtain ⟨q, hq⟩ := h.head (by omega)
        rw [hq]; exact ⟨q ++ [f] ++ [f], by simp⟩
    · intro _
      simp only [SegmentTable.success, faultFree, hpa]
      rw [vget_vset]
      by_cases hz : f = 0
      · obtain ⟨e1, e2, e3⟩ := hfirst hz
        rw [if_pos hz.symm, hm]
        exact ⟨_, rfl, rfl, e1, e2, e3⟩
      · rw [if_neg (fun hc => hz hc.symm)]
        exact h.first (by omega)
  · exfalso
    have := hall j mj hmj
    rw [hjfree] at this
    cases this

/-- A run of faults that stays within the free frames. -/
theorem FifoTrace.run {cli : CLI} {R : Nat → Nat} {s1 d1 p1 : Int}
    (reqs : List (Int × Int × Int × Access)) :
    ∀ (j : Int) (st st1 : SegmentTable), FifoTrace cli s1 d1 p1 j st → 0 ≤ j →
      j + reqs.length ≤ cli.frames → faultRun R st reqs = some st1 →
      (j = 0 → ∀ q rest, reqs = q :: rest →
        q.1 = s1 ∧ Int.tdiv q.2.1 st.dir_size_ = d1 ∧ Int.tmod q.2.1 st.dir_size_ = p1) →
      FifoTrace cli s1 d1 p1 (j + reqs.length) st1 := by
  induction reqs with
  | nil =>
    intro j st st1 h _ _ hr _
    simp only [faultRun, Option.some.injEq] at hr
    subst hr
    simpa using h
  | cons q rest ih =>
    intro j st st1 h h0 hlen hr hfirst
    simp only [faultRun] at hr
    cases hs : faultStep R st q with
    | none => rw [hs] at hr; simp at hr
    | some st2 =>
      rw [hs] at hr
      simp only at hr
      simp only [List.length_cons, Nat.cast_add, Nat.cast_one] at hlen ⊢
      obtain ⟨seg, pn, off, acc⟩ := q
      have h2 := h.step h0 (by omega) hs (fun hz => hfirst hz _ _ rfl)
      have := ih (j + 1) st2 st1 h2 (by omega) (by omega) hr (fun hz => by omega)
      have e : j + 1 + (rest.length : Int) = j + ((rest.length : Int) + 1) := by ring
      rw [e] at this
      exact this

/-- C10: under FIFO with capacity `K >= 1` (`K = mids.length + 1`), starting from a freshly
constructed engine, after `K` calls that fault (`q1` and then `mids`), a further call `qL`
that faults evicts the frame mapped by the first fault: the first fault gave frame 0 to the
page of `q1`, which still holds it before the last call; `choose_victim` returns frame 0;
after the last call the page of `q1` is absent with `frame = -1`, the page of `qL` is present
with frame 0, and `replacements` grew by one. -/
theorem fifo_evicts_first_fault (R : Nat → Nat) (cli : CLI) (st0 st2 st3 : SegmentTable)
    (q1 qL : Int × Int × Int × Access) (mids : List (Int × Int × Int × Access))
    (hpol : cli.policy = Policy.FIFO) (hboot : boot R cli = some st0)
    (hlen : (mids.length : Int) + 1 = cli.frames)
    (hrun : faultRun R st0 (q1 :: mids) = some st2)
    (hlast : faultStep R st2 qL = some st3) :
    (∃ st1 pg, faultStep R st0 q1 = some st1 ∧
      pageAt st1.dirs_ q1.1 (Int.tdiv q1.2.1 cli.dir_size) (Int.tmod q1.2.1 cli.dir_size)
        = some pg ∧ pg.present = true ∧ pg.frame = 0) ∧
    (∃ pm2, st2.pm_.choose_victim (st2.time_ + 1) = some (pm2, 0)) ∧
    (∃ pg, pageAt st2.dirs_ q1.1 (Int.tdiv q1.2.1 cli.dir_size)
        (Int.tmod q1.2.1 cli.dir_size) = some pg ∧ pg.present = true ∧ pg.frame = 0) ∧
    (∃ pg, pageAt st3.dirs_ q1.1 (Int.tdiv q1.2.1 cli.dir_size)
        (Int.tmod q1.2.1 cli.dir_size) = some pg ∧ pg.present = false ∧ pg.frame = -1) ∧
    (∃ pg, pageAt st3.dirs_ qL.1 (Int.tdiv qL.2.1 cli.dir_size)
        (Int.tmod qL.2.1 cli.dir_size) = some pg ∧ pg.present = true ∧ pg.frame = 0) ∧
    st3.metrics_.replacements = st2.metrics_.replacements + 1 := by
  have hb := boot_inv hboot
  have hd0 : st0.dir_size_ = cli.dir_size := hb.shape.dir_size
  have htr0 := @FifoTrace.boot R cli st0 hboot q1.1 (Int.tdiv q1.2.1 cli.dir_size)
    (Int.tmod q1.2.1 cli.dir_size)
  have htr2 := @FifoTrace.run cli R _ _ _ (q1 :: mids) 0 st0 st2 htr0 (le_refl _)
    (by simp only [List.length_cons, Nat.cast_add, Nat.cast_one]; omega) hrun
    (fun _ q rest he => by
      simp only [List.cons.injEq] at he
      obtain ⟨rfl, _⟩ := he
      rw [hd0]
      exact ⟨rfl, rfl, rfl⟩)
  have hK : (0 : Int) + ((q1 :: mids).length : Int) = cli.frames := by
    simp only [List.length_cons, Nat.cast_add, Nat.cast_one]; omega
  rw [hK] at htr2
  have hpos : 1 ≤ cli.frames := by omega
  -- the first fault
  have hfirst : ∃ st1 pg, faultStep R st0 q1 = some st1 ∧
      pageAt st1.dirs_ q1.1 (Int.tdiv q1.2.1 cli.dir_size) (Int.tmod q1.2.1 cli.dir_size)
        = some pg ∧ pg.present = true ∧ pg.frame = 0 := by
    simp only [faultRun] at hrun
    cases hs : faultStep R st0 q1 with
    | none => rw [hs] at hrun; simp at hrun
    | some st1 =>
      have h1 := @FifoTrace.step cli R _ _ _ 0 st0 st1 q1.1 q1.2.1 q1.2.2.1 q1.2.2.2 htr0
        (le_refl _) (by omega) hs (fun _ => by rw [hd0]; exact ⟨rfl, rfl, rfl⟩)
      obtain ⟨m, hm, hmf, e1, e2, e3⟩ := h1.first (by omega)
      obtain ⟨pg, hpg, hpres, hfr⟩ := h1.inv.linked.frame_page 0 m hm hmf
      rw [e1, e2, e3] at hpg
      exact ⟨st1, pg, rfl, hpg, hpres, hfr⟩
  -- the state before the last fault
  obtain ⟨m0, hm0, hm0f, e1, e2, e3⟩ := htr2.first hpos
  obtain ⟨q, hq⟩ := htr2.head hpos
  obtain ⟨pg0, hpg0, hpres0, hfr0⟩ := htr2.inv.linked.frame_page 0 m0 hm0 hm0f
  have hcv := choose_victim_fifo_head (st2.time_ + 1)
    (htr2.inv.shape.policy.trans hpol) hq hm0 hm0f
  have hd2 : st2.dir_size_ = cli.dir_size := htr2.inv.shape.dir_size
  obtain ⟨segL, pnL, offL, accL⟩ := qL
  obtain ⟨sa, P, lat, hpa, _, _, hma, hpages, hP, hab, hc⟩ := fault_step_outcome htr2.inv hlast
  rw [hd2] at hP hc
  have hpgL := hpg0
  rw [e1, e2, e3] at hpgL
  refine ⟨hfirst, ⟨_, hcv⟩, ⟨pg0, hpgL, hpres0, hfr0⟩, ?_⟩
  rcases hc with ⟨f, m, hm, hmf, _, _⟩ | ⟨_, ⟨pm2, v, m, hcv2, hm, hmf, rfl⟩ | ⟨pm2, hcv2, _⟩⟩
  · exfalso
    have hr := vget_some_range hm
    have := (htr2.used f m hm).mpr (by rw [← htr2.inv.shape.meta_len]; exact hr.2)
    rw [hmf] at this
    cases this
  · rw [hcv] at hcv2
    simp only [Option.some.injEq, Prod.mk.injEq] at hcv2
    obtain ⟨_, rfl⟩ := hcv2
    rw [hm0] at hm
    cases hm
    have hsa0 := hpages _ _ _ pg0 hpg0
    have hne : ¬ (segL = m0.seg ∧ Int.tdiv pnL cli.dir_size = m0.dir ∧
        Int.tmod pnL cli.dir_size = m0.page) := by
      rintro ⟨a1, a2, a3⟩
      rw [a1, a2, a3, hsa0] at hP
      cases hP
      rw [hab] at hpres0
      cases hpres0
    refine ⟨?_, ?_, ?_⟩
    · simp only [SegmentTable.success, faultEvict]
      rw [← e1, ← e2, ← e3, pageAt_modPage, if_neg (fun hc => hne ⟨hc.1.symm, hc.2.1.symm,
        hc.2.2.symm⟩), pageAt_modPage, if_pos ⟨rfl, rfl, rfl⟩, hsa0]
      exact ⟨_, rfl, rfl, rfl⟩
    · simp only [SegmentTable.success, faultEvict]
      rw [pageAt_modPage, if_pos ⟨rfl, rfl, rfl⟩, pageAt_modPage, if_neg hne, hP]
      exact ⟨_, rfl, rfl, rfl⟩
    · simp only [SegmentTable.success, faultEvict, hma]
  · exfalso
    rw [hcv] at hcv2
    simp only [Option.some.injEq, Prod.mk.injEq] at hcv2
    exact absurd hcv2.2 (by decide)

theorem fifo_evicts_first_fault_witness :
    (∃ st1 pg, faultStep demoR demo0 (0, 0, 0, Access.READ) = some st1 ∧
      pageAt st1.dirs_ 0 (Int.tdiv 0 demoCLI.dir_size) (Int.tmod 0 demoCLI.dir_size)
        = some pg ∧ pg.present = true ∧ pg.frame = 0) ∧
    (∃ pm2, demoFull.pm_.choose_victim (demoFull.time_ + 1) = some (pm2, 0)) ∧
    (∃ pg, pageAt demoFull.dirs_ 0 (Int.tdiv 0 demoCLI.dir_size)
        (Int.tmod 0 demoCLI.dir_size) = some pg ∧ pg.present = true ∧ pg.frame = 0) ∧
    (∃ pg, pageAt demoEvict.dirs_ 0 (Int.tdiv 0 demoCLI.dir_size)
        (Int.tmod 0 demoCLI.dir_size) = some pg ∧ pg.present = false ∧ pg.frame = -1) ∧
    (∃ pg, pageAt demoEvict.dirs_ 0 (Int.tdiv 2 demoCLI.dir_size)
        (Int.tmod 2 demoCLI.dir_size) = some pg ∧ pg.present = true ∧ pg.frame = 0) ∧
    demoEvict.metrics_.replacements = demoFull.metrics_.replacements + 1 :=
  fifo_evicts_first_fault demoR demoCLI demo0 demoFull demoEvict (0, 0, 0, Access.READ)
    (0, 2, 0, Access.READ) [(0, 1, 0, Access.READ)] (by decide) (by decide) (by decide)
    (by decide) (by decide)

/-! ## The frame pool on its own -/

theorem free_frame_total (pm : PhysicalMemory) (id : Int)
    (hlen : (pm.meta.length : Int) = pm.num_frames) :
    ((0 ≤ id ∧ id < pm.num_frames) ∧
        pm.free_frame id = some { pm with meta := vset pm.meta id {} }) ∨
    (¬ (0 ≤ id ∧ id < pm.num_frames) ∧ pm.free_frame id = some pm) := by
  unfold PhysicalMemory.free_frame
  by_cases hr : 0 ≤ id ∧ id < pm.num_frames
  · left
    obtain ⟨m, hm⟩ := @vget_of_range _ pm.meta id hr.1 (by rw [hlen]; exact hr.2)
    rw [if_pos ⟨hr.1, hr.2⟩, hm]
    exact ⟨hr, rfl⟩
  · right
    rw [if_neg (fun hc => hr ⟨hc.1, hc.2⟩)]
    exact ⟨hr, rfl⟩

theorem map_some {pm pm1 : PhysicalMemory} {frame seg dir page now : Int}
    (h : pm.map frame seg dir page now = some pm1) :
    (∃ m, vget pm.meta frame = some m) ∧
    pm1 = { pm with
      meta := vset pm.meta frame { free := false, seg := seg, dir := dir, page := page,
                                    loaded_time := now, last_access := now },
      fifo_q := pm.fifo_q ++ [frame] } := by
  unfold PhysicalMemory.map at h
  split at h
  · simp at h
  · rename_i m hm
    simp only [Option.some.injEq] at h
    exact ⟨⟨m, hm⟩, h.symm⟩

theorem touch_some {pm pm1 : PhysicalMemory} {frame now : Int}
    (h : pm.touch frame now = some pm1) :
    pm1 = pm ∨ ∃ m, vget pm.meta frame = some m ∧ m.free = false ∧
      pm1 = { pm with meta := vset pm.meta frame { m with last_access := now } } := by
  unfold PhysicalMemory.touch PhysicalMemory.valid at h
  split at h
  · simp at h
  · rename_i hv
    split at hv
    · split at hv
      · simp at hv
      · rename_i m hm
        simp only [Option.some.injEq, Bool.not_eq_true'] at hv
        simp only [Option.some.injEq] at h
        right
        refine ⟨m, hm, hv, ?_⟩
        rw [← h, vmod_eq_vset _ hm]
    · simp at hv
  · simp only [Option.some.injEq] at h
    exact Or.inl h.symm

theorem PoolInv.new {n : Int} {p : Policy} {pm : PhysicalMemory}
    (h : PhysicalMemory.new n p = some pm) : PoolInv n p pm := by
  unfold PhysicalMemory.new at h
  split at h
  · simp at h
  rename_i hn
  simp only [Option.some.injEq] at h
  subst h
  refine ⟨rfl, rfl, ?_, ⟨fun x hx => by simp at hx, ?_⟩, ?_⟩
  · simp only [List.length_replicate]; omega
  · intro f m hm hmf
    have := vget_replicate hm
    subst this
    cases hmf
  · intro f m hm _
    exact vget_replicate hm

theorem PoolInv.update_frame {n : Int} {p : Policy} {pm : PhysicalMemory} (h : PoolInv n p pm)
    {f : Int} {m m1 : FrameMeta} (q : List Int) (hm : vget pm.meta f = some m)
    (hm1 : m1.free = true → m1 = {})
    (hq1 : ∀ x ∈ q, x = f ∨ x ∈ pm.fifo_q)
    (hq2 : ∀ x ∈ pm.fifo_q, x ∈ q) (hq3 : m1.free = false → f ∈ q) :
    PoolInv n p { pm with meta := vset pm.meta f m1, fifo_q := q } := by
  refine ⟨h.frames, h.policy, ?_, ⟨?_, ?_⟩, ?_⟩
  · simp only; rw [length_vset]; exact h.len
  · intro x hx
    simp only at hx ⊢
    rw [vget_vset]
    by_cases hxf : x = f
    · subst hxf; rw [if_pos rfl, hm]; exact ⟨_, rfl⟩
    · rw [if_neg hxf]
      rcases hq1 x hx with h1 | h1
      · exact absurd h1 hxf
      · exact h.queue.range x h1
  · intro g mg hg hgf
    simp only at hg ⊢
    rw [vget_vset] at hg
    by_cases hxf : g = f
    · subst hxf
      rw [if_pos rfl, hm] at hg
      simp only [Option.map_some', Option.some.injEq] at hg
      subst hg
      exact hq3 hgf
    · rw [if_neg hxf] at hg
      exact hq2 g (h.queue.cover g mg hg hgf)
  · intro g mg hg hgf
    simp only at hg
    rw [vget_vset] at hg
    by_cases hxf : g = f
    · subst hxf
      rw [if_pos rfl, hm] at hg
      simp only [Option.map_some', Option.some.injEq] at hg
      subst hg
      exact hm1 hgf
    · rw [if_neg hxf] at hg
      exact h.free_clear g mg hg hgf

/-- Every reachable pool state satisfies the pool invariant. -/
theorem pool_reachable_inv {n : Int} {p : Policy} {pm : PhysicalMemory}
    (h : PoolReachable n p pm) : PoolInv n p pm := by
  induction h with
  | new h0 => exact PoolInv.new h0
  | alloc _ ha ih =>
    rcases allocate_any_free_total _ ih.len with ⟨h1, _⟩ | ⟨f, m, hm, _, _, h1⟩
    · rw [ha] at h1
      simp only [Option.some.injEq, Prod.mk.injEq] at h1
      rw [h1.1]; exact ih
    · rw [ha] at h1
      simp only [Option.some.injEq, Prod.mk.injEq] at h1
      rw [h1.1]
      refine ih.update_frame _ hm (fun hc => by cases hc) ?_ ?_ ?_
      · intro x hx
        simp only [List.mem_append, List.mem_singleton] at hx
        rcases hx with hx | hx
        · exact Or.inr hx
        · exact Or.inl hx
      · intro x hx; simp [hx]
      · intro _; simp
  | victim _ hv ih =>
    obtain ⟨pm3, v3, hcv, e1, e2, e3, _, hq1, hq2, _⟩ :=
      choose_victim_total _ _ ih.len ih.queue.range
    rw [hv] at hcv
    simp only [Option.some.injEq, Prod.mk.injEq] at hcv
    obtain ⟨rfl, rfl⟩ := hcv
    refine ⟨e2.trans ih.frames, e3.trans ih.policy, ?_, ⟨?_, ?_⟩, ?_⟩
    · rw [e1, e2]; exact ih.len
    · intro x hx; rw [e1]; exact ih.queue.range x (hq1 x hx)
    · intro g mg hg hgf
      rw [e1] at hg
      refine hq2 g (ih.queue.cover g mg hg hgf) (fun m2 hm2 => ?_)
      rw [hg] at hm2; cases hm2; exact hgf
    · intro g mg hg hgf
      rw [e1] at hg
      exact ih.free_clear g mg hg hgf
  | map _ hm ih =>
    obtain ⟨⟨m, hm0⟩, rfl⟩ := map_some hm
    refine ih.update_frame _ hm0 (fun hc => by cases hc) ?_ ?_ ?_
    · intro x hx
      simp only [List.mem_append, List.mem_singleton] at hx
      rcases hx with hx | hx
      · exact Or.inr hx
      · exact Or.inl hx
    · intro x hx; simp [hx]
    · intro _; simp
  | touch _ ht ih =>
    rcases touch_some ht with rfl | ⟨m, hm, hmf, rfl⟩
    · exact ih
    · exact ih.update_frame _ hm (fun hc => by rw [hmf] at hc; cases hc)
        (fun x hx => Or.inr hx) (fun x hx => hx) (fun _ => ih.queue.cover _ m hm hmf)
  | free _ hf ih =>
    rename_i pm0 pm1 frame _
    rcases free_frame_total pm0 frame ih.len with ⟨hr, h1⟩ | ⟨_, h1⟩
    · rw [hf] at h1
      simp only [Option.some.injEq] at h1
      rw [h1]
      obtain ⟨m, hm⟩ := @vget_of_range _ pm0.meta frame hr.1 (by rw [ih.len]; exact hr.2)
      exact ih.update_frame pm0.fifo_q hm (fun _ => rfl) (fun x hx => Or.inr hx) (fun x hx => hx)
        (fun hc => by cases hc)
    · rw [hf] at h1
      simp only [Option.some.injEq] at h1
      rw [h1]; exact ih

/-! ## C14: `allocate_any_free` -/

/-- C14: on every frame pool (whose `meta` has `num_frames` entries), `allocate_any_free`
returns; it returns `-1` exactly when no frame is free, and then the pool is unchanged;
otherwise it returns the lowest-index frame marked free, appends that id to the FIFO queue,
clears the free flag of that frame and changes nothing else. -/
theorem allocate_any_free_spec (pm : PhysicalMemory)
    (hlen : (pm.meta.length : Int) = pm.num_frames) :
    ∃ pm1 f, pm.allocate_any_free = some (pm1, f) ∧
      (f = -1 ↔ ∀ g m, vget pm.meta g = some m → m.free = false) ∧
      (f = -1 → pm1 = pm) ∧
      (f ≠ -1 → ∃ m, vget pm.meta f = some m ∧ m.free = true ∧
        (∀ j mj, 0 ≤ j → j < f → vget pm.meta j = some mj → mj.free = false) ∧
        pm1.fifo_q = pm.fifo_q ++ [f] ∧
        vget pm1.meta f = some { m with free := false } ∧
        (∀ g, g ≠ f → vget pm1.meta g = vget pm.meta g) ∧
        pm1.meta.length = pm.meta.length ∧
        pm1.num_frames = pm.num_frames ∧ pm1.policy = pm.policy) := by
  rcases allocate_any_free_total pm hlen with ⟨h1, hall⟩ | ⟨f, m, hm, hmf, hmin, h1⟩
  · exact ⟨pm, -1, h1, ⟨fun _ => hall, fun _ => rfl⟩, fun _ => rfl, fun hc => absurd rfl hc⟩
  · have hf0 : f ≠ -1 := by
      have := (vget_some_range hm).1
      omega
    refine ⟨_, f, h1, ⟨fun hc => absurd hc hf0, fun hall => ?_⟩, fun hc => absurd hc hf0,
      fun _ => ⟨m, hm, hmf, hmin, rfl, ?_, ?_, ?_, rfl, rfl⟩⟩
    · have := hall f m hm
      rw [hmf] at this
      cases this
    · simp only; rw [vget_vset, if_pos rfl, hm]; rfl
    · intro g hg
      simp only; rw [vget_vset, if_neg hg]
    · simp only; rw [length_vset]

theorem allocate_any_free_spec_witness :
    ∃ pm1 f, demoStep1.1.pm_.allocate_any_free = some (pm1, f) ∧
      (f = -1 ↔ ∀ g m, vget demoStep1.1.pm_.meta g = some m → m.free = false) ∧
      (f = -1 → pm1 = demoStep1.1.pm_) ∧
      (f ≠ -1 → ∃ m, vget demoStep1.1.pm_.meta f = some m ∧ m.free = true ∧
        (∀ j mj, 0 ≤ j → j < f → vget demoStep1.1.pm_.meta j = some mj → mj.free = false) ∧
        pm1.fifo_q = demoStep1.1.pm_.fifo_q ++ [f] ∧
        vget pm1.meta f = some { m with free := false } ∧
        (∀ g, g ≠ f → vget pm1.meta g = vget demoStep1.1.pm_.meta g) ∧
        pm1.meta.length = demoStep1.1.pm_.meta.length ∧
        pm1.num_frames = demoStep1.1.pm_.num_frames ∧
        pm1.policy = demoStep1.1.pm_.policy) :=
  allocate_any_free_spec demoStep1.1.pm_ (by decide)

/-! ## C15: `free_frame` -/

/-- C15: on every frame pool (whose `meta` has `num_frames` entries) and every integer `id`,
`free_frame(id)` returns; for `id` in `[0, F)` it leaves frame `id` free with its owner
cleared (`seg = dir = page = -1`) and every other frame, the queue and the configuration
unchanged; for `id` outside `[0, F)` the pool is unchanged; applying it a second time changes
nothing more.  And in every pool state reachable from construction by the pool operations,
every free frame has a cleared owner back-reference. -/
theorem free_frame_spec (pm : PhysicalMemory) (id : Int)
    (hlen : (pm.meta.length : Int) = pm.num_frames) :
    (∃ pm1, pm.free_frame id = some pm1 ∧ pm1.free_frame id = some pm1 ∧
      ((0 ≤ id ∧ id < pm.num_frames) →
        (∃ m, vget pm1.meta id = some m ∧ m.free = true ∧
          m.seg = -1 ∧ m.dir = -1 ∧ m.page = -1) ∧
        (∀ g, g ≠ id → vget pm1.meta g = vget pm.meta g) ∧
        pm1.fifo_q = pm.fifo_q ∧ pm1.num_frames = pm.num_frames ∧
        pm1.policy = pm.policy ∧ pm1.meta.length = pm.meta.length) ∧
      (¬ (0 ≤ id ∧ id < pm.num_frames) → pm1 = pm)) ∧
    (∀ n p, PoolReachable n p pm → ∀ f m, vget pm.meta f = some m → m.free = true →
      m.seg = -1 ∧ m.dir = -1 ∧ m.page = -1) := by
  refine ⟨?_, fun n p hr f m hm hmf => ?_⟩
  · rcases free_frame_total pm id hlen with ⟨hr, h1⟩ | ⟨hr, h1⟩
    · obtain ⟨m, hm⟩ := @vget_of_range _ pm.meta id hr.1 (by rw [hlen]; exact hr.2)
      refine ⟨_, h1, ?_, fun _ => ⟨⟨{}, ?_, rfl, rfl, rfl, rfl⟩, ?_, rfl, rfl, rfl, ?_⟩,
        fun hc => absurd hr hc⟩
      · rcases free_frame_total { pm with meta := vset pm.meta id {} } id
          (by simp only; rw [length_vset]; exact hlen) with ⟨_, h2⟩ | ⟨hr2, _⟩
        · rw [h2]; simp only [vset_vset]
        · exact absurd hr hr2
      · simp only; rw [vget_vset, if_pos rfl, hm]; rfl
      · intro g hg
        simp only; rw [vget_vset, if_neg hg]
      · simp only; rw [length_vset]
    · exact ⟨pm, h1, h1, fun hc => absurd hc hr, fun _ => rfl⟩
  · have := (pool_reachable_inv hr).free_clear f m hm hmf
    subst this
    exact ⟨rfl, rfl, rfl⟩

theorem free_frame_spec_witness :
    (∃ pm1, demoStep1.1.pm_.free_frame 0 = some pm1 ∧ pm1.free_frame 0 = some pm1 ∧
      ((0 ≤ (0 : Int) ∧ (0 : Int) < demoStep1.1.pm_.num_frames) →
        (∃ m, vget pm1.meta 0 = some m ∧ m.free = true ∧
          m.seg = -1 ∧ m.dir = -1 ∧ m.page = -1) ∧
        (∀ g, g ≠ 0 → vget pm1.meta g = vget demoStep1.1.pm_.meta g) ∧
        pm1.fifo_q = demoStep1.1.pm_.fifo_q ∧ pm1.num_frames = demoStep1.1.pm_.num_frames ∧
        pm1.policy = demoStep1.1.pm_.policy ∧
        pm1.meta.length = demoStep1.1.pm_.meta.length) ∧
      (¬ (0 ≤ (0 : Int) ∧ (0 : Int) < demoStep1.1.pm_.num_frames) →
        pm1 = demoStep1.1.pm_)) ∧
    (∀ n p, PoolReachable n p demoStep1.1.pm_ → ∀ f m,
      vget demoStep1.1.pm_.meta f = some m → m.free = true →
      m.seg = -1 ∧ m.dir = -1 ∧ m.page = -1) :=
  free_frame_spec demoStep1.1.pm_ 0 (by decide)

/-! ## C13: what `choose_victim` returns on a reachable pool -/

/-- The bound on the timestamps, at the level of the pool class alone: on the one-frame LRU
pool `lruEdge`, left by `map(0, 0, 0, 0, INT_MAX)`, frame 0 is used with
`last_access = INT_MAX` and `choose_victim` returns `-1`.  No `choose_victim` call of the
engine meets such a pool (`engine_choose_victim`). -/
theorem lru_misses_max_timestamp :
    PoolReachable 1 Policy.LRU lruEdge ∧
      (vget lruEdge.meta 0).map (fun m => (m.free, m.last_access)) = some (false, INT_MAX) ∧
      lruEdge.choose_victim 0 = some (lruEdge, -1) :=
  ⟨PoolReachable.map
      (PoolReachable.new (by decide : PhysicalMemory.new 1 Policy.LRU = some lruFresh))
      (by decide : lruFresh.map 0 0 0 0 INT_MAX = some lruEdge),
    by decide, by decide⟩

/-- In the engine the bound on the timestamps holds whenever `choose_victim` can be called:
the call is made by `translate` after `++time_`, and every timestamp in the pool is a past
value of the clock.  So on every reachable engine state whose clock can still tick,
`choose_victim` returns a used frame in range, or `-1` with no frame used. -/
theorem engine_choose_victim {R : Nat → Nat} {cli : CLI} {st : SegmentTable}
    (hreach : Reachable R cli st) (hclock : st.time_ < INT_MAX) :
    (∀ f m, vget st.pm_.meta f = some m → m.last_access < st.time_ + 1 ∧
      m.last_access < INT_MAX) ∧
    ∃ pm1 v, st.pm_.choose_victim (st.time_ + 1) = some (pm1, v) ∧
      (v ≠ -1 → (0 ≤ v ∧ v < cli.frames) ∧ ∃ m, vget st.pm_.meta v = some m ∧ m.free = false) ∧
      (v = -1 → ∀ f m, vget st.pm_.meta f = some m → m.free = true) := by
  have h := reachable_inv hreach
  have hlen : (st.pm_.meta.length : Int) = st.pm_.num_frames := by
    rw [h.shape.meta_len, h.shape.frames]
  have hst : ∀ f m, vget st.pm_.meta f = some m → m.last_access < st.time_ + 1 ∧
      m.last_access < INT_MAX := by
    intro f m hm
    have := h.stamps f m hm
    constructor <;> omega
  obtain ⟨pm1, v, hcv, _, _, _, hv, _, _, hnone⟩ :=
    choose_victim_total st.pm_ (st.time_ + 1) hlen h.queue.range
  refine ⟨hst, pm1, v, hcv, ?_, hnone h.queue.cover (fun f m hm => (hst f m hm).2)⟩
  intro hne
  rcases hv with hv | ⟨m, hm, hmf⟩
  · exact absurd hv hne
  · have hr := vget_some_range hm
    exact ⟨⟨hr.1, by rw [← h.shape.meta_len]; exact hr.2⟩, m, hm, hmf⟩

/-! ## C12: the LRU victim -/

/-- The LRU scan from index `i` on: `ts` bounds the timestamps of the used frames seen so
far from below, and `best`, once set, is the first used frame seen that attains `ts`. -/
theorem lru_scan_min (meta : List FrameMeta) (T : Int) (n i : Nat) (best ts : Int)
    (h : i + n ≤ meta.length)
    (hA : ∀ (j : Nat) (m : FrameMeta), j < i → meta[j]? = some m → m.free = false →
      ts ≤ m.last_access)
    (hB : (best = -1 ∧ ts = T) ∨
      ∃ (k : Nat) (m : FrameMeta), best = (k : Int) ∧ meta[k]? = some m ∧ m.free = false ∧
        m.last_access = ts ∧
        ∀ (j : Nat) (mj : FrameMeta), j < k → meta[j]? = some mj → mj.free = false →
          ts < mj.last_access) :
    ∃ b ts1, lru_scan meta n i best ts = some b ∧
      (∀ (j : Nat) (m : FrameMeta), j < i + n → meta[j]? = some m → m.free = false →
        ts1 ≤ m.last_access) ∧
      ((b = -1 ∧ ts1 = T) ∨
        ∃ (k : Nat) (m : FrameMeta), b = (k : Int) ∧ meta[k]? = some m ∧ m.free = false ∧
          m.last_access = ts1 ∧
          ∀ (j : Nat) (mj : FrameMeta), j < k → meta[j]? = some mj → mj.free = false →
            ts1 < mj.last_access) := by
  induction n generalizing i best ts with
  | zero => exact ⟨best, ts, rfl, hA, hB⟩
  | succ n ih =>
    have hi : i < meta.length := by omega
    have hget : meta[i]? = some meta[i] := List.getElem?_eq_getElem hi
    unfold lru_scan
    rw [hget]
    simp only
    by_cases hc : meta[i].free = false ∧ meta[i].last_access < ts
    · rw [if_pos hc]
      have e : i + (n + 1) = (i + 1) + n := by omega
      rw [e]
      apply ih (i + 1) (i : Int) meta[i].last_access (by omega)
      · intro j m hj hm hmf
        by_cases hji : j = i
        · subst hji
          rw [hget] at hm
          cases hm
          exact le_refl _
        · have := hA j m (by omega) hm hmf
          omega
      · right
        refine ⟨i, meta[i], rfl, hget, hc.1, rfl, ?_⟩
        intro j mj hj hmj hmjf
        have := hA j mj hj hmj hmjf
        omega
    · rw [if_neg hc]
      have e : i + (n + 1) = (i + 1) + n := by omega
      rw [e]
      apply ih (i + 1) best ts (by omega)
      · intro j m hj hm hmf
        by_cases hji : j = i
        · subst hji
          rw [hget] at hm
          cases hm
          by_contra hlt
          exact hc ⟨hmf, by omega⟩
        · exact hA j m (by omega) hm hmf
      · exact hB

/-- C12: on every LRU pool (whose `meta` has `num_frames` entries) with at least one used
frame and the timestamps of the used frames below `INT_MAX`, `choose_victim` leaves the pool
unchanged and returns a used frame whose `last_access` is the minimum over the used frames,
the lowest-index one among those that attain it; hence, if frames `A` and `B` are both used
and `A` was touched more recently than `B`, the victim is not `A`. -/
theorem lru_choose_victim_spec (pm : PhysicalMemory) (now : Int)
    (hpol : pm.policy = Policy.LRU) (hlen : (pm.meta.length : Int) = pm.num_frames)
    (hts : ∀ f m, vget pm.meta f = some m → m.free = false → m.last_access < INT_MAX)
    (hex : ∃ f m, vget pm.meta f = some m ∧ m.free = false) :
    ∃ v m, pm.choose_victim now = some (pm, v) ∧ vget pm.meta v = some m ∧ m.free = false ∧
      (∀ f mf, vget pm.meta f = some mf → mf.free = false →
        m.last_access ≤ mf.last_access) ∧
      (∀ f mf, vget pm.meta f = some mf → mf.free = false →
        mf.last_access = m.last_access → v ≤ f) ∧
      (∀ A B mA mB, vget pm.meta A = some mA → mA.free = false →
        vget pm.meta B = some mB → mB.free = false →
        mB.last_access < mA.last_access → v ≠ A) := by
  obtain ⟨nf, pol, meta, q⟩ := pm
  simp only at hpol hlen hts hex ⊢
  subst hpol
  have hnat : ∀ (f : Int) (m : FrameMeta), vget meta f = some m →
      0 ≤ f ∧ f.toNat < nf.toNat ∧ meta[f.toNat]? = some m := by
    intro f m hm
    have hr := vget_some_range hm
    refine ⟨hr.1, by omega, ?_⟩
    unfold vget at hm
    rw [if_neg (by omega)] at hm
    exact hm
  obtain ⟨b, ts1, hb, hlow, hcase⟩ := lru_scan_min meta INT_MAX nf.toNat 0 (-1) INT_MAX
    (by omega) (fun j m hj => by omega) (Or.inl ⟨rfl, rfl⟩)
  simp only [Nat.zero_add] at hlow
  rcases hcase with ⟨_, hts1⟩ | ⟨k, m, hbk, hm, hmf, hla, hfirst⟩
  · exfalso
    obtain ⟨f, m, hm, hmf⟩ := hex
    obtain ⟨_, h2, h3⟩ := hnat f m hm
    have := hlow f.toNat m h2 h3 hmf
    have := hts f m hm hmf
    omega
  · have hvk : vget meta (k : Int) = some m := by rw [vget_natCast]; exact hm
    refine ⟨(k : Int), m, ?_, hvk, hmf, ?_, ?_, ?_⟩
    · simp only [PhysicalMemory.choose_victim, hb, hbk]
    · intro f mf hf hff
      obtain ⟨_, h2, h3⟩ := hnat f mf hf
      have := hlow f.toNat mf h2 h3 hff
      omega
    · intro f mf hf hff heq
      obtain ⟨h1, _, h3⟩ := hnat f mf hf
      by_contra hlt
      have := hfirst f.toNat mf (by omega) h3 hff
      omega
    · intro A B mA mB hA hAf hB hBf hlt hvA
      subst hvA
      rw [hvk] at hA
      cases hA
      obtain ⟨_, h2, h3⟩ := hnat B mB hB
      have := hlow B.toNat mB h2 h3 hBf
      omega

theorem lru_choose_victim_spec_witness :
    ∃ v m, lruTwo.choose_victim 9 = some (lruTwo, v) ∧ vget lruTwo.meta v = some m ∧
      m.free = false ∧
      (∀ f mf, vget lruTwo.meta f = some mf → mf.free = false →
        m.last_access ≤ mf.last_access) ∧
      (∀ f mf, vget lruTwo.meta f = some mf → mf.free = false →
        mf.last_access = m.last_access → v ≤ f) ∧
      (∀ A B mA mB, vget lruTwo.meta A = some mA → mA.free = false →
        vget lruTwo.meta B = some mB → mB.free = false →
        mB.last_access < mA.last_access → v ≠ A) :=
  lru_choose_victim_spec lruTwo 9 (by decide) (by decide)
    (fun f m hm _ => by
      have hmem := vget_mem hm
      simp only [lruTwo, List.mem_cons, List.mem_singleton, List.not_mem_nil, or_false] at hmem
      rcases hmem with rfl | rfl <;> decide)
    ⟨1, { free := false, seg := 0, dir := 0, page := 1, loaded_time := 3, last_access := 3 },
      by decide, by decide⟩

/-! ## Calls that reach the absent branch -/

/-- A call that returns with `faults` incremented passed every check, found the page absent
after lazy allocation, and ended in one of three ways: a free frame was taken, a victim was
evicted, or no victim was found. -/
theorem fault_call {cli : CLI} {R : Nat → Nat} {st st1 : SegmentTable}
    {seg pn off : Int} {acc : Access} {r lat : Int} (h : Inv cli st)
    (ht : st.translate R seg pn off acc = some (st1, r, lat))
    (hf : st1.metrics_.faults = st.metrics_.faults + 1) :
    ∃ S sa P, Passes st seg pn off acc S ∧
      st.tick.lazy_alloc R seg (Int.tdiv pn st.dir_size_) = some sa ∧
      pageAt sa.dirs_ seg (Int.tdiv pn st.dir_size_) (Int.tmod pn st.dir_size_) = some P ∧
      P.present = false ∧ ¬ (acc = Access.WRITE ∧ P.prot = Protection.READ_ONLY) ∧
      ((∃ f m, vget st.pm_.meta f = some m ∧ m.free = true ∧
          (∀ j mj, 0 ≤ j → j < f → vget st.pm_.meta j = some mj → mj.free = false) ∧
          r = S.base + pn * st.page_size_ + off ∧
          st1 = (faultFree sa f seg (Int.tdiv pn st.dir_size_) (Int.tmod pn st.dir_size_)
            (st.time_ + 1)).success lat) ∨
       ((∀ f m, vget st.pm_.meta f = some m → m.free = false) ∧
        ((∃ pm2 v m, st.pm_.choose_victim (st.time_ + 1) = some (pm2, v) ∧
            vget st.pm_.meta v = some m ∧ m.free = false ∧
            r = S.base + pn * st.page_size_ + off ∧
            st1 = (faultEvict sa pm2.fifo_q v m seg (Int.tdiv pn st.dir_size_)
              (Int.tmod pn st.dir_size_) (st.time_ + 1)).success lat) ∨
         (∃ pm2, st.pm_.choose_victim (st.time_ + 1) = some (pm2, -1) ∧ r = -1 ∧
            st1 = ({ sa with
              metrics_ := { sa.metrics_ with faults := sa.metrics_.faults + 1 },
              pm_ := pm2 }).log)))) := by
  obtain ⟨hclock, _, hc⟩ := translate_cases ht
  have hk := h.tick hclock
  rcases hc with ⟨_, rfl, _⟩ | ⟨S, hS, hc⟩
  · exfalso
    simp only [SegmentTable.seg_fault, SegmentTable.log, SegmentTable.tick] at hf
    omega
  rcases hc with ⟨_, _, rfl, _⟩ | ⟨_, _, rfl, _⟩ | ⟨_, _, _, rfl, _⟩ | ⟨hpass, hw⟩
  · exfalso
    simp only [SegmentTable.prot_violation, SegmentTable.log, SegmentTable.tick] at hf
    omega
  · exfalso
    simp only [SegmentTable.seg_fault, SegmentTable.log, SegmentTable.tick] at hf
    omega
  · exfalso
    simp only [SegmentTable.offset_fault, SegmentTable.log, SegmentTable.tick] at hf
    omega
  obtain ⟨_, _, sa, P, hsa, hP, hc⟩ := walk_cases hw
  obtain ⟨hia, _, hpa, _, hma, hps, _⟩ := hk.lazy_alloc hsa
  have hma1 : sa.metrics_ = st.metrics_ := hma
  have hpa1 : sa.pm_ = st.pm_ := hpa
  have hps1 : sa.page_size_ = st.page_size_ := hps
  have hfa : sa.metrics_.faults = st.metrics_.faults := congrArg Metrics.faults hma1
  rcases hc with ⟨_, _, rfl, _⟩ | ⟨hnw, hab, sb, hsb, hst1, hr⟩ | ⟨hnw, hab, sb, hsb, hst1, hr⟩ |
    ⟨_, _, sb, hsb, rfl, _⟩
  · exfalso
    simp only [SegmentTable.prot_violation, SegmentTable.log] at hf
    omega
  · refine ⟨S, sa, P, hpass, hsa, hP, hab, hnw, ?_⟩
    rcases page_fault_total hia.shape hia.linked hia.queue seg (Int.tdiv pn st.dir_size_)
        (Int.tmod pn st.dir_size_) (st.time_ + 1) with
      ⟨f, m, _, _, _, hpf⟩ | ⟨hall, ⟨pm2, v, m, _, _, _, hpf⟩ | ⟨pm2, hcv, hpf⟩⟩
    · rw [show st.tick.dir_size_ = st.dir_size_ from rfl, hpf] at hsb
      simp only [Option.some.injEq, Prod.mk.injEq] at hsb
      exact absurd hsb.2 (by decide)
    · rw [show st.tick.dir_size_ = st.dir_size_ from rfl, hpf] at hsb
      simp only [Option.some.injEq, Prod.mk.injEq] at hsb
      exact absurd hsb.2 (by decide)
    · rw [show st.tick.dir_size_ = st.dir_size_ from rfl, hpf] at hsb
      simp only [Option.some.injEq, Prod.mk.injEq] at hsb
      rw [hpa1] at hall hcv
      exact Or.inr ⟨hall, Or.inr ⟨pm2, hcv, hr, by rw [hst1, ← hsb.1]⟩⟩
  · refine ⟨S, sa, P, hpass, hsa, hP, hab, hnw, ?_⟩
    have hrr : r = S.base + pn * st.page_size_ + off := by
      rw [hr, (page_fault_fixed hsb).1.page_size, hps1]
    rcases page_fault_total hia.shape hia.linked hia.queue seg (Int.tdiv pn st.dir_size_)
        (Int.tmod pn st.dir_size_) (st.time_ + 1) with
      ⟨f, m, hm, hmf, hmin, hpf⟩ | ⟨hall, ⟨pm2, v, m, hcv, hm, hmf, hpf⟩ | ⟨pm2, _, hpf⟩⟩
    · rw [show st.tick.dir_size_ = st.dir_size_ from rfl, hpf] at hsb
      simp only [Option.some.injEq, Prod.mk.injEq] at hsb
      rw [hpa1] at hm hmin
      exact Or.inl ⟨f, m, hm, hmf, hmin, hrr, by rw [hst1, ← hsb.1]⟩
    · rw [show st.tick.dir_size_ = st.dir_size_ from rfl, hpf] at hsb
      simp only [Option.some.injEq, Prod.mk.injEq] at hsb
      rw [hpa1] at hm hall hcv
      exact Or.inr ⟨hall, Or.inl ⟨pm2, v, m, hcv, hm, hmf, hrr, by rw [hst1, ← hsb.1]⟩⟩
    · rw [show st.tick.dir_size_ = st.dir_size_ from rfl, hpf] at hsb
      simp only [Option.some.injEq, Prod.mk.injEq] at hsb
      exact absurd hsb.2 (by decide)
  · exfalso
    obtain ⟨_, _, hmb⟩ := page_hit_fixed hsb
    have : sb.metrics_.faults = sa.metrics_.faults := congrArg Metrics.faults hmb
    simp only [SegmentTable.success] at hf
    omega

/-- A request that passes the checks and finds its page absent returns, and `faults` grows
by one. -/
theorem fault_total {cli : CLI} {R : Nat → Nat} {st sa : SegmentTable} {seg pn off : Int}
    {acc : Access} {S : Segment} {P : Page} (h : Inv cli st) (hclock : st.time_ < INT_MAX)
    (hpass : Passes st seg pn off acc S)
    (hsa : st.tick.lazy_alloc R seg (Int.tdiv pn st.dir_size_) = some sa)
    (hP : pageAt sa.dirs_ seg (Int.tdiv pn st.dir_size_) (Int.tmod pn st.dir_size_) = some P)
    (hab : P.present = false)
    (hnw : ¬ (acc = Access.WRITE ∧ P.prot = Protection.READ_ONLY)) :
    ∃ st1 r lat, st.translate R seg pn off acc = some (st1, r, lat) ∧
      st1.metrics_.faults = st.metrics_.faults + 1 := by
  have hk := h.tick hclock
  obtain ⟨hia, hta, _, _, hma, _, _⟩ := hk.lazy_alloc hsa
  have hfa : sa.metrics_.faults = st.metrics_.faults :=
    congrArg Metrics.faults (hma : sa.metrics_ = st.metrics_)
  have hd0 : st.tick.dir_size_ ≠ 0 := by
    intro h0
    obtain ⟨row, de, hrow, hde, _⟩ := lazy_alloc_cases hsa
    have hl := hk.shape.row_len seg row hrow
    have hr := vget_some_range hde
    rw [← hk.shape.dir_size, h0] at hl
    omega
  have e : st.tick.dir_size_ = st.dir_size_ := rfl
  rw [translate_of_passes R hclock hpass]
  unfold SegmentTable.walk
  rw [if_neg hd0]
  simp only [e, hsa, hP]
  rw [if_neg hnw, if_pos hab]
  rcases page_fault_total hia.shape hia.linked hia.queue seg (Int.tdiv pn st.dir_size_)
      (Int.tmod pn st.dir_size_) (st.time_ + 1) with
    ⟨f, m, _, _, _, hpf⟩ | ⟨_, ⟨pm2, v, m, _, _, _, hpf⟩ | ⟨pm2, _, hpf⟩⟩
  · rw [hpf]
    refine ⟨_, _, _, rfl, ?_⟩
    simp only [SegmentTable.success, faultFree]
    omega
  · rw [hpf]
    refine ⟨_, _, _, rfl, ?_⟩
    simp only [SegmentTable.success, faultEvict]
    omega
  · rw [hpf]
    refine ⟨_, _, _, rfl, ?_⟩
    simp only [SegmentTable.log]
    omega

/-! ## The page entries and frames after a fault -/

theorem faultFree_pages (st : SegmentTable) (f seg dir page now : Int) {P : Page}
    (hP : pageAt st.dirs_ seg dir page = some P) :
    pageAt (faultFree st f seg dir page now).dirs_ seg dir page
        = some { P with present := true, frame := f, last_access := now } ∧
    ∀ s d p, ¬ (s = seg ∧ d = dir ∧ p = page) →
      pageAt (faultFree st f seg dir page now).dirs_ s d p = pageAt st.dirs_ s d p := by
  constructor
  · simp only [faultFree]
    rw [pageAt_modPage, if_pos ⟨rfl, rfl, rfl⟩, hP]
    rfl
  · intro s d p hne
    simp only [faultFree]
    rw [pageAt_modPage, if_neg hne]

theorem faultEvict_pages {cli : CLI} {st : SegmentTable} (h : Inv cli st) (q : List Int)
    {v seg dir page : Int} (now : Int) {m : FrameMeta} {P : Page}
    (hm : vget st.pm_.meta v = some m) (hused : m.free = false)
    (hP : pageAt st.dirs_ seg dir page = some P) (hab : P.present = false) :
    ¬ (seg = m.seg ∧ dir = m.dir ∧ page = m.page) ∧
    pageAt (faultEvict st q v m seg dir page now).dirs_ seg dir page
        = some { P with present := true, frame := v, last_access := now } ∧
    (∃ pg, pageAt st.dirs_ m.seg m.dir m.page = some pg ∧ pg.present = true ∧ pg.frame = v ∧
      pageAt (faultEvict st q v m seg dir page now).dirs_ m.seg m.dir m.page
        = some { pg with present := false, frame := -1 }) ∧
    ∀ s d p, ¬ (s = seg ∧ d = dir ∧ p = page) → ¬ (s = m.seg ∧ d = m.dir ∧ p = m.page) →
      pageAt (faultEvict st q v m seg dir page now).dirs_ s d p = pageAt st.dirs_ s d p := by
  obtain ⟨pg, hpg, hpres, hfr⟩ := h.linked.frame_page v m hm hused
  have hne : ¬ (seg = m.seg ∧ dir = m.dir ∧ page = m.page) := by
    rintro ⟨a1, a2, a3⟩
    rw [a1, a2, a3, hpg] at hP
    cases hP
    rw [hab] at hpres
    cases hpres
  refine ⟨hne, ?_, ⟨pg, hpg, hpres, hfr, ?_⟩, ?_⟩
  · simp only [faultEvict]
    rw [pageAt_modPage, if_pos ⟨rfl, rfl, rfl⟩, pageAt_modPage, if_neg hne, hP]
    rfl
  · simp only [faultEvict]
    rw [pageAt_modPage, if_neg (fun hc => hne ⟨hc.1.symm, hc.2.1.symm, hc.2.2.symm⟩),
      pageAt_modPage, if_pos ⟨rfl, rfl, rfl⟩, hpg]
    rfl
  · intro s d p h1 h2
    simp only [faultEvict]
    rw [pageAt_modPage, if_neg h1, pageAt_modPage, if_neg h2]

/-- No `translate` call frees a frame that was used before it: the frames of the pool after
the call are those before it, with at most one of them rewritten as a used frame. -/
theorem translate_meta {cli : CLI} {R : Nat → Nat} {st st1 : SegmentTable}
    {seg pn off : Int} {acc : Access} {r lat : Int} (h : Inv cli st)
    (ht : st.translate R seg pn off acc = some (st1, r, lat)) :
    st1.pm_.meta = st.pm_.meta ∨
      ∃ g mg, mg.free = false ∧ st1.pm_.meta = vset st.pm_.meta g mg := by
  obtain ⟨hclock, _, hc⟩ := translate_cases ht
  have hk := h.tick hclock
  rcases hc with ⟨_, rfl, _⟩ | ⟨S, hS, hc⟩
  · exact Or.inl rfl
  rcases hc with ⟨_, _, rfl, _⟩ | ⟨_, _, rfl, _⟩ | ⟨_, _, _, rfl, _⟩ | ⟨hpass, hw⟩
  · exact Or.inl rfl
  · exact Or.inl rfl
  · exact Or.inl rfl
  obtain ⟨_, _, sa, P, hsa, hP, hc⟩ := walk_cases hw
  obtain ⟨hia, _, hpa, _, _, _, _⟩ := hk.lazy_alloc hsa
  have hpa1 : sa.pm_ = st.pm_ := hpa
  rcases hc with ⟨_, _, rfl, _⟩ | ⟨_, _, sb, hsb, rfl, _⟩ | ⟨_, _, sb, hsb, rfl, _⟩ |
    ⟨_, _, sb, hsb, rfl, _⟩
  · exact Or.inl (congrArg PhysicalMemory.meta hpa1)
  · obtain ⟨_, _, hfalse⟩ := page_fault_fixed hsb
    obtain ⟨pm2, hcv, rfl⟩ := hfalse rfl
    obtain ⟨e1, _⟩ := choose_victim_meta hcv
    exact Or.inl (e1.trans (congrArg PhysicalMemory.meta hpa1))
  · rcases page_fault_total hia.shape hia.linked hia.queue seg (Int.tdiv pn st.dir_size_)
        (Int.tmod pn st.dir_size_) (st.time_ + 1) with
      ⟨f, m, _, _, _, hpf⟩ | ⟨_, ⟨pm2, v, m, _, _, _, hpf⟩ | ⟨pm2, _, hpf⟩⟩
    · rw [show st.tick.dir_size_ = st.dir_size_ from rfl, hpf] at hsb
      simp only [Option.some.injEq, Prod.mk.injEq] at hsb
      rw [← hsb.1]
      exact Or.inr ⟨f, (FrameMeta.mk false seg (Int.tdiv pn st.dir_size_) (Int.tmod pn st.dir_size_)
        (st.time_ + 1) (st.time_ + 1)), rfl,
        by simp only [SegmentTable.success, faultFree, hpa1]⟩
    · rw [show st.tick.dir_size_ = st.dir_size_ from rfl, hpf] at hsb
      simp only [Option.some.injEq, Prod.mk.injEq] at hsb
      rw [← hsb.1]
      exact Or.inr ⟨v, (FrameMeta.mk false seg (Int.tdiv pn st.dir_size_) (Int.tmod pn st.dir_size_)
        (st.time_ + 1) (st.time_ + 1)), rfl,
        by simp only [SegmentTable.success, faultEvict, hpa1]⟩
    · rw [show st.tick.dir_size_ = st.dir_size_ from rfl, hpf] at hsb
      simp only [Option.some.injEq, Prod.mk.injEq] at hsb
      exact absurd hsb.2 (by decide)
  · unfold SegmentTable.page_hit at hsb
    split at hsb
    · simp at hsb
    · rename_i pm1 htouch
      simp only [Option.some.injEq] at hsb
      subst hsb
      rcases touch_some htouch with rfl | ⟨m, _, hmf, rfl⟩
      · exact Or.inl (congrArg PhysicalMemory.meta hpa1)
      · exact Or.inr ⟨P.frame, { m with last_access := st.time_ + 1 }, hmf,
          by simp only [SegmentTable.success, hpa1]⟩

theorem used_after_vset {meta : List FrameMeta} {g : Int} {mg : FrameMeta}
    (hg : mg.free = false) (f : Int) (m : FrameMeta) (hm : vget meta f = some m)
    (hmf : m.free = false) : ∃ m1, vget (vset meta g mg) f = some m1 ∧ m1.free = false := by
  rw [vget_vset]
  by_cases hfg : f = g
  · subst hfg
    rw [if_pos rfl, hm]
    exact ⟨mg, rfl, hg⟩
  · rw [if_neg hfg]
    exact ⟨m, hm, hmf⟩

/-! ## C17: the two-level index split stays in range -/

/-- C17: on every state of an engine constructed with fan-out `dir_size >= 3` (with a clock
that can still tick), for every request that passes the segment, page-number and offset
bound checks, `dir = pageNum / dir_size` and `page = pageNum % dir_size` satisfy
`0 <= dir < dir_size`, `0 <= page < dir_size` and `dir * dir_size + page = pageNum`; the
lookup `dirs_[seg][dir]` is in range, and after lazy allocation the second-level table is
there and `at(page)` is in range. -/
theorem index_split_safe (R : Nat → Nat) (cli : CLI) (st : SegmentTable)
    (hreach : Reachable R cli st) (hD : 3 ≤ cli.dir_size) (hclock : st.time_ < INT_MAX)
    (seg pageNum offset : Int) (S : Segment) (hS : vget st.segments_ seg = some S)
    (hpn : 0 ≤ pageNum ∧ pageNum < S.limit_pages)
    (hoff : 0 ≤ offset ∧ offset < st.page_size_) :
    st.dir_size_ = cli.dir_size ∧
    (0 ≤ Int.tdiv pageNum st.dir_size_ ∧ Int.tdiv pageNum st.dir_size_ < st.dir_size_) ∧
    (0 ≤ Int.tmod pageNum st.dir_size_ ∧ Int.tmod pageNum st.dir_size_ < st.dir_size_) ∧
    Int.tdiv pageNum st.dir_size_ * st.dir_size_ + Int.tmod pageNum st.dir_size_ = pageNum ∧
    (∃ row de, vget st.dirs_ seg = some row ∧
      vget row (Int.tdiv pageNum st.dir_size_) = some de) ∧
    (∃ sa P, st.tick.lazy_alloc R seg (Int.tdiv pageNum st.dir_size_) = some sa ∧
      pageAt sa.dirs_ seg (Int.tdiv pageNum st.dir_size_) (Int.tmod pageNum st.dir_size_)
        = some P) := by
  have h := reachable_inv hreach
  have hk := h.tick hclock
  have hds := h.shape.dir_size
  have hlim := (h.shape.seg_shape seg S hS).2.2
  have hsr := @split_range pageNum st.dir_size_ hpn.1 (by omega) (by rw [hds]; exact hD)
  have hnw : ¬ (Access.READ = Access.WRITE ∧ S.prot = Protection.READ_ONLY) :=
    fun hc => by cases hc.1
  have hpass : Passes st.tick seg pageNum offset Access.READ S := ⟨hS, hnw, hpn, hoff⟩
  obtain ⟨sa, P, hsa, hP⟩ := @walk_lookup cli R st.tick hk hD seg pageNum offset Access.READ S
    hpass
  obtain ⟨row, de, hrow, hde, _⟩ := lazy_alloc_cases hsa
  refine ⟨hds, hsr.1, hsr.2, ?_, ⟨row, de, hrow, hde⟩, sa, P, hsa, hP⟩
  have := Int.tdiv_add_tmod pageNum st.dir_size_
  rw [mul_comm]
  exact this

theorem index_split_safe_witness :
    demo0.dir_size_ = demoCLI.dir_size ∧
    (0 ≤ Int.tdiv 3 demo0.dir_size_ ∧ Int.tdiv 3 demo0.dir_size_ < demo0.dir_size_) ∧
    (0 ≤ Int.tmod 3 demo0.dir_size_ ∧ Int.tmod 3 demo0.dir_size_ < demo0.dir_size_) ∧
    Int.tdiv 3 demo0.dir_size_ * demo0.dir_size_ + Int.tmod 3 demo0.dir_size_ = 3 ∧
    (∃ row de, vget demo0.dirs_ 0 = some row ∧
      vget row (Int.tdiv 3 demo0.dir_size_) = some de) ∧
    (∃ sa P, demo0.tick.lazy_alloc demoR 0 (Int.tdiv 3 demo0.dir_size_) = some sa ∧
      pageAt sa.dirs_ 0 (Int.tdiv 3 demo0.dir_size_) (Int.tmod 3 demo0.dir_size_)
        = some P) :=
  index_split_safe demoR demoCLI demo0 (Reachable.boot (by decide)) (by decide) (by decide)
    0 3 999 { base := 1000, limit_pages := 4, prot := Protection.READ_WRITE } (by decide)
    (by decide) (by decide)

/-! ## C18: with a frame in the pool, a fault always finds one -/

/-- C18: on every reachable state of an engine with at least one physical frame (and a clock
that can still tick): (1) a request that passes the checks and finds its page absent
returns the physical address, with `faults` and `translations` each one higher; either a
free frame is taken and `replacements` is unchanged, or no frame is free, `choose_victim`
yields a used frame, `owning_clear` on its owner returns `true`, `replacements` is one
higher, the owner is left absent with `frame = -1`; in both cases the page is left present
with the frame obtained.  (2) After any `translate` call that returns, every frame that
was used before the call is still used. -/
theorem fault_always_finds_frame (R : Nat → Nat) (cli : CLI) (st : SegmentTable)
    (hreach : Reachable R cli st) (hF : 1 ≤ cli.frames) (hclock : st.time_ < INT_MAX) :
    (∀ seg pageNum offset acc S sa P, Passes st seg pageNum offset acc S →
      st.tick.lazy_alloc R seg (Int.tdiv pageNum st.dir_size_) = some sa →
      pageAt sa.dirs_ seg (Int.tdiv pageNum st.dir_size_) (Int.tmod pageNum st.dir_size_)
        = some P →
      ¬ (acc = Access.WRITE ∧ P.prot = Protection.READ_ONLY) → P.present = false →
      ∃ st1 lat, st.translate R seg pageNum offset acc
          = some (st1, S.base + pageNum * st.page_size_ + offset, lat) ∧
        0 ≤ S.base + pageNum * st.page_size_ + offset ∧
        st1.metrics_.faults = st.metrics_.faults + 1 ∧
        st1.metrics_.translations = st.metrics_.translations + 1 ∧
        ((∃ f m pg, vget st.pm_.meta f = some m ∧ m.free = true ∧
            st1.metrics_.replacements = st.metrics_.replacements ∧
            pageAt st1.dirs_ seg (Int.tdiv pageNum st.dir_size_)
              (Int.tmod pageNum st.dir_size_) = some pg ∧
            pg.present = true ∧ pg.frame = f) ∨
         ((∀ f m, vget st.pm_.meta f = some m → m.free = false) ∧
          ∃ pm2 v m pg own, st.pm_.choose_victim (st.time_ + 1) = some (pm2, v) ∧ v ≠ -1 ∧
            vget st.pm_.meta v = some m ∧ m.free = false ∧
            (sa.owning_clear m).map (fun x => x.2) = some true ∧
            st1.metrics_.replacements = st.metrics_.replacements + 1 ∧
            pageAt st1.dirs_ seg (Int.tdiv pageNum st.dir_size_)
              (Int.tmod pageNum st.dir_size_) = some pg ∧
            pg.present = true ∧ pg.frame = v ∧
            pageAt st1.dirs_ m.seg m.dir m.page = some own ∧
            own.present = false ∧ own.frame = -1))) ∧
    (∀ seg pageNum offset acc st1 r lat,
      st.translate R seg pageNum offset acc = some (st1, r, lat) →
      ∀ f m, vget st.pm_.meta f = some m → m.free = false →
        ∃ m1, vget st1.pm_.meta f = some m1 ∧ m1.free = false) := by
  have h := reachable_inv hreach
  have hk := h.tick hclock
  constructor
  · intro seg pn off acc S sa P hpass hsa hP hnw hab
    obtain ⟨st1, r, lat, ht, hf⟩ := fault_total h hclock hpass hsa hP hab hnw
    obtain ⟨hia, _, hpa, _, hma, _, _⟩ := hk.lazy_alloc hsa
    have hpa1 : sa.pm_ = st.pm_ := hpa
    have hma1 : sa.metrics_ = st.metrics_ := hma
    have hts : ∀ f m, vget sa.pm_.meta f = some m → m.last_access < INT_MAX := by
      intro f m hm
      rw [hpa1] at hm
      have := h.stamps f m hm
      omega
    have hbase := (h.shape.seg_shape seg S hpass.1).1
    have hseg0 := (vget_some_range hpass.1).1
    have hnn : 0 ≤ S.base + pn * st.page_size_ + off := by
      have h1 : 0 ≤ pn * st.page_size_ :=
        mul_nonneg hpass.2.2.1.1 (by have := hpass.2.2.2; omega)
      have := hpass.2.2.2.1
      rw [hbase]
      omega
    obtain ⟨S1, sa1, P1, hpass1, hsa1, hP1, _, _, hc⟩ := fault_call h ht hf
    rw [hsa] at hsa1
    cases hsa1
    rw [hP] at hP1
    cases hP1
    have hS1 : S1 = S := by
      have := hpass1.1
      rw [hpass.1] at this
      cases this
      rfl
    subst hS1
    rcases hc with ⟨f, m, hm, hmf, _, hr, hst1⟩ | ⟨hall, ⟨pm2, v, m, hcv, hm, hmf, hr, hst1⟩ |
      ⟨pm2, hcv, _, hst1⟩⟩
    · subst hr
      refine ⟨st1, lat, ht, hnn, hf, ?_, Or.inl ⟨f, m,
        Page.mk f true P.prot (st.time_ + 1), hm, hmf, ?_, ?_, rfl, rfl⟩⟩
      · rw [hst1]; simp only [SegmentTable.success, faultFree, hma1]
      · rw [hst1]; simp only [SegmentTable.success, faultFree, hma1]
      · rw [hst1]
        exact (faultFree_pages sa f seg _ _ (st.time_ + 1) hP).1
    · subst hr
      have hv : v ≠ -1 := by
        have := (vget_some_range hm).1
        omega
      have hm' : vget sa.pm_.meta v = some m := by rw [hpa1]; exact hm
      obtain ⟨_, hp1, ⟨own, hown, _, _, hp2⟩, _⟩ :=
        faultEvict_pages hia pm2.fifo_q (st.time_ + 1) hm' hmf hP hab
      refine ⟨st1, lat, ht, hnn, hf, ?_, Or.inr ⟨hall, pm2, v, m,
        Page.mk v true P.prot (st.time_ + 1), Page.mk (-1) false own.prot own.last_access,
        hcv, hv, hm, hmf, ?_, ?_, ?_, rfl, rfl, ?_, rfl, rfl⟩⟩
      · rw [hst1]; simp only [SegmentTable.success, faultEvict, hma1]
      · rw [owning_clear_total hia.shape.entry_ok hown]; rfl
      · rw [hst1]; simp only [SegmentTable.success, faultEvict, hma1]
      · rw [hst1]; exact hp1
      · rw [hst1]; exact hp2
    · exfalso
      have hpf : sa.page_fault seg (Int.tdiv pn st.dir_size_) (Int.tmod pn st.dir_size_)
          (st.time_ + 1) = some ({ sa with
            metrics_ := { sa.metrics_ with faults := sa.metrics_.faults + 1 },
            pm_ := pm2 }, false) := by
        rcases page_fault_total hia.shape hia.linked hia.queue seg
            (Int.tdiv pn st.dir_size_) (Int.tmod pn st.dir_size_) (st.time_ + 1) with
          ⟨f, m, hm, hmf, _, _⟩ | ⟨_, ⟨pm3, v, m, hcv3, hm, _, _⟩ | ⟨pm3, hcv3, hpf⟩⟩
        · rw [hpa1] at hm
          have := hall f m hm
          rw [hmf] at this
          cases this
        · rw [hpa1, hcv] at hcv3
          simp only [Option.some.injEq, Prod.mk.injEq] at hcv3
          have := (vget_some_range hm).1
          omega
        · rw [hpa1, hcv] at hcv3
          simp only [Option.some.injEq, Prod.mk.injEq] at hcv3
          rw [hpf, hcv3.1]
      have := page_fault_ok hia hF hts hpf
      cases this
  · intro seg pn off acc st1 r lat ht f m hm hmf
    rcases translate_meta h ht with e | ⟨g, mg, hg, e⟩
    · rw [e]; exact ⟨m, hm, hmf⟩
    · rw [e]; exact used_after_vset hg f m hm hmf

theorem reachable_faultStep {R : Nat → Nat} {cli : CLI} {st st1 : SegmentTable}
    {q : Int × Int × Int × Access} (h : Reachable R cli st)
    (hs : faultStep R st q = some st1) : Reachable R cli st1 := by
  obtain ⟨r, lat, ht, _⟩ := faultStep_some hs
  exact Reachable.step h ht

theorem reachable_faultRun {R : Nat → Nat} {cli : CLI}
    (reqs : List (Int × Int × Int × Access)) :
    ∀ (st st1 : SegmentTable), Reachable R cli st → faultRun R st reqs = some st1 →
      Reachable R cli st1 := by
  induction reqs with
  | nil =>
    intro st st1 h hr
    simp only [faultRun, Option.some.injEq] at hr
    subst hr
    exact h
  | cons q rest ih =>
    intro st st1 h hr
    simp only [faultRun] at hr
    cases hs : faultStep R st q with
    | none => rw [hs] at hr; simp at hr
    | some st2 =>
      rw [hs] at hr
      exact ih st2 st1 (reachable_faultStep h hs) hr

theorem fault_always_finds_frame_witness :
    (∀ f m, vget demoFull.pm_.meta f = some m → m.free = false) ∧
    (∃ lat, demoFull.translate demoR 0 2 0 Access.READ = some (demoEvict, 3000, lat) ∧
      demoEvict.metrics_.faults = demoFull.metrics_.faults + 1 ∧
      demoEvict.metrics_.translations = demoFull.metrics_.translations + 1 ∧
      ∃ pm2 v m pg own,
        demoFull.pm_.choose_victim (demoFull.time_ + 1) = some (pm2, v) ∧ v ≠ -1 ∧
        vget demoFull.pm_.meta v = some m ∧ m.free = false ∧
        (demoFull.tick.owning_clear m).map (fun x => x.2) = some true ∧
        demoEvict.metrics_.replacements = demoFull.metrics_.replacements + 1 ∧
        pageAt demoEvict.dirs_ 0 0 2 = some pg ∧ pg.present = true ∧ pg.frame = v ∧
        pageAt demoEvict.dirs_ m.seg m.dir m.page = some own ∧
        own.present = false ∧ own.frame = -1) ∧
    (∀ f m, vget demoFull.pm_.meta f = some m → m.free = false →
      ∃ m1, vget demoEvict.pm_.meta f = some m1 ∧ m1.free = false) := by
  have hr : Reachable demoR demoCLI demoFull :=
    reachable_faultRun [(0, 0, 0, Access.READ), (0, 1, 0, Access.READ)] demo0 demoFull
      (Reachable.boot (by decide)) (by decide)
  have hall : ∀ f m, vget demoFull.pm_.meta f = some m → m.free = false :=
    fun f m hm => (by decide : ∀ m ∈ demoFull.pm_.meta, m.free = false) m (vget_mem hm)
  obtain ⟨r, lat0, ht0, _⟩ :=
    faultStep_some (by decide : faultStep demoR demoFull (0, 2, 0, Access.READ) = some demoEvict)
  have T := fault_always_finds_frame demoR demoCLI demoFull hr (by decide) (by decide)
  obtain ⟨st1, lat, ht, _, hf, htr, hc⟩ := T.1 0 2 0 Access.READ
    (Segment.mk 1000 4 Protection.READ_WRITE) demoFull.tick
    (Page.mk (-1) false Protection.READ_WRITE 0)
    ⟨by decide, by decide, by decide, by decide⟩ (by decide) (by decide) (by decide) rfl
  have e : (Segment.mk 1000 4 Protection.READ_WRITE).base + 2 * demoFull.page_size_ + 0
      = 3000 := by decide
  rw [e] at ht
  simp only at ht0
  rw [ht] at ht0
  simp only [Option.some.injEq, Prod.mk.injEq] at ht0
  obtain ⟨hst, _, _⟩ := ht0
  subst hst
  refine ⟨hall, ⟨lat, ht, hf, htr, ?_⟩, T.2 0 2 0 Access.READ demoEvict 3000 lat ht⟩
  rcases hc with ⟨f, m, _, hm, hmf, _⟩ | ⟨_, hev⟩
  · have := hall f m hm
    rw [hmf] at this
    cases this
  · exact hev

/-! ## C16: a second-level table is created once -/

theorem KeepsTables.same (dirs : List (List DirEntry)) : KeepsTables dirs dirs :=
  ⟨fun _ row _ de h1 h2 h3 => ⟨row, de, h1, h2, h3⟩, fun _ _ _ pg h => ⟨pg, h, rfl⟩⟩

theorem KeepsTables.chain {a b c : List (List DirEntry)} (h1 : KeepsTables a b)
    (h2 : KeepsTables b c) : KeepsTables a c := by
  constructor
  · intro s row d de hrow hde hp
    obtain ⟨row1, de1, e1, e2, e3⟩ := h1.1 s row d de hrow hde hp
    exact h2.1 s row1 d de1 e1 e2 e3
  · intro s d p pg hpg
    obtain ⟨pg1, e1, e2⟩ := h1.2 s d p pg hpg
    obtain ⟨pg2, e3, e4⟩ := h2.2 s d p pg1 e1
    exact ⟨pg2, e3, e4.trans e2⟩

theorem vmod_entry (row : List DirEntry) (d0 : Int) (g : DirEntry → DirEntry)
    (hg : ∀ de, (g de).present = de.present) {d : Int} {de : DirEntry}
    (hde : vget row d = some de) :
    ∃ de1, vget (vmod row d0 g) d = some de1 ∧ de1.present = de.present := by
  rw [vget_vmod]
  by_cases hd : d = d0
  · subst hd
    rw [if_pos rfl, hde]
    exact ⟨g de, rfl, hg de⟩
  · rw [if_neg hd]
    exact ⟨de, hde, rfl⟩

theorem modPage_entry (dirs : List (List DirEntry)) (s0 d0 p0 : Int) (f : Page → Page)
    {s d : Int} {row : List DirEntry} {de : DirEntry} (hrow : vget dirs s = some row)
    (hde : vget row d = some de) :
    ∃ row1 de1, vget (modPage dirs s0 d0 p0 f) s = some row1 ∧ vget row1 d = some de1 ∧
      de1.present = de.present := by
  unfold modPage
  rw [vget_vmod]
  by_cases hs : s = s0
  · subst hs
    rw [if_pos rfl, hrow]
    obtain ⟨de1, e1, e2⟩ := vmod_entry row d0
      (fun de => { de with pt := de.pt.map (fun t => { t with table_ := vmod t.table_ p0 f }) })
      (fun _ => rfl) hde
    exact ⟨_, de1, rfl, e1, e2⟩
  · rw [if_neg hs]
    exact ⟨row, de, hrow, hde, rfl⟩

theorem KeepsTables.modPage (dirs : List (List DirEntry)) (s0 d0 p0 : Int) (f : Page → Page)
    (hf : ∀ P, (f P).prot = P.prot) : KeepsTables dirs (modPage dirs s0 d0 p0 f) := by
  constructor
  · intro s row d de hrow hde hp
    obtain ⟨row1, de1, e1, e2, e3⟩ := modPage_entry dirs s0 d0 p0 f hrow hde
    exact ⟨row1, de1, e1, e2, e3.trans hp⟩
  · intro s d p pg hpg
    rw [pageAt_modPage]
    by_cases ht : s = s0 ∧ d = d0 ∧ p = p0
    · rw [if_pos ht]
      rw [ht.1, ht.2.1, ht.2.2] at hpg
      rw [hpg]
      exact ⟨f pg, rfl, hf pg⟩
    · rw [if_neg ht]
      exact ⟨pg, hpg, rfl⟩

theorem KeepsTables.of_lazy_alloc {cli : CLI} {R : Nat → Nat} {st sa : SegmentTable}
    {seg dir : Int} (h : Inv cli st) (ha : st.lazy_alloc R seg dir = some sa) :
    KeepsTables st.dirs_ sa.dirs_ := by
  constructor
  · intro s row1 d de1 hrow1 hde1 hp
    obtain ⟨row, de, hrow, hde, hc⟩ := lazy_alloc_cases ha
    rcases hc with ⟨_, rfl⟩ | ⟨_, t, c, _, rfl⟩
    · exact ⟨row1, de1, hrow1, hde1, hp⟩
    · simp only
      rw [vget_vset]
      by_cases hs : s = seg
      · subst hs
        rw [hrow] at hrow1
        cases hrow1
        rw [if_pos rfl, hrow]
        by_cases hd : d = dir
        · subst hd
          refine ⟨_, DirEntry.mk true (some t), rfl, ?_, rfl⟩
          rw [vget_vset, if_pos rfl, hde]
          rfl
        · refine ⟨_, de1, rfl, ?_, hp⟩
          rw [vget_vset, if_neg hd]
          exact hde1
      · rw [if_neg hs]
        exact ⟨row1, de1, hrow1, hde1, hp⟩
  · intro s d p pg hpg
    exact ⟨pg, lazy_alloc_pages h ha s d p pg hpg, rfl⟩

theorem faultFree_keeps (st : SegmentTable) (f seg dir page now : Int) :
    KeepsTables st.dirs_ (faultFree st f seg dir page now).dirs_ :=
  KeepsTables.modPage st.dirs_ seg dir page
    (fun P => { P with present := true, frame := f, last_access := now }) (fun _ => rfl)

theorem faultEvict_keeps (st : SegmentTable) (q : List Int) (v : Int) (m : FrameMeta)
    (seg dir page now : Int) :
    KeepsTables st.dirs_ (faultEvict st q v m seg dir page now).dirs_ :=
  (KeepsTables.modPage st.dirs_ m.seg m.dir m.page
    (fun P => { P with present := false, frame := -1 }) (fun _ => rfl)).chain
  (KeepsTables.modPage _ seg dir page
    (fun P => { P with present := true, frame := v, last_access := now }) (fun _ => rfl))

/-- One `translate` call keeps the materialised tables. -/
theorem KeepsTables.of_translate {cli : CLI} {R : Nat → Nat} {st st1 : SegmentTable}
    {seg pn off : Int} {acc : Access} {r lat : Int} (h : Inv cli st)
    (ht : st.translate R seg pn off acc = some (st1, r, lat)) :
    KeepsTables st.dirs_ st1.dirs_ := by
  obtain ⟨hclock, _, hc⟩ := translate_cases ht
  have hk := h.tick hclock
  rcases hc with ⟨_, rfl, _⟩ | ⟨S, hS, hc⟩
  · exact KeepsTables.same _
  rcases hc with ⟨_, _, rfl, _⟩ | ⟨_, _, rfl, _⟩ | ⟨_, _, _, rfl, _⟩ | ⟨hpass, hw⟩
  · exact KeepsTables.same _
  · exact KeepsTables.same _
  · exact KeepsTables.same _
  obtain ⟨_, _, sa, P, hsa, hP, hc⟩ := walk_cases hw
  obtain ⟨hia, _, _⟩ := hk.lazy_alloc hsa
  have hka : KeepsTables st.dirs_ sa.dirs_ :=
    @KeepsTables.of_lazy_alloc cli R st.tick sa _ _ hk hsa
  rcases hc with ⟨_, _, rfl, _⟩ | ⟨_, _, sb, hsb, rfl, _⟩ | ⟨_, _, sb, hsb, rfl, _⟩ |
    ⟨_, _, sb, hsb, rfl, _⟩
  · exact hka
  · obtain ⟨_, _, hfalse⟩ := page_fault_fixed hsb
    obtain ⟨pm2, _, rfl⟩ := hfalse rfl
    exact hka
  · rcases page_fault_total hia.shape hia.linked hia.queue seg (Int.tdiv pn st.dir_size_)
        (Int.tmod pn st.dir_size_) (st.time_ + 1) with
      ⟨f, m, _, _, _, hpf⟩ | ⟨_, ⟨pm2, v, m, _, _, _, hpf⟩ | ⟨pm2, _, hpf⟩⟩
    · rw [show st.tick.dir_size_ = st.dir_size_ from rfl, hpf] at hsb
      simp only [Option.some.injEq, Prod.mk.injEq] at hsb
      rw [← hsb.1]
      exact hka.chain (faultFree_keeps sa f _ _ _ _)
    · rw [show st.tick.dir_size_ = st.dir_size_ from rfl, hpf] at hsb
      simp only [Option.some.injEq, Prod.mk.injEq] at hsb
      rw [← hsb.1]
      exact hka.chain (faultEvict_keeps sa pm2.fifo_q v m _ _ _ _)
    · rw [show st.tick.dir_size_ = st.dir_size_ from rfl, hpf] at hsb
      simp only [Option.some.injEq, Prod.mk.injEq] at hsb
      exact absurd hsb.2 (by decide)
  · unfold SegmentTable.page_hit at hsb
    split at hsb
    · simp at hsb
    · simp only [Option.some.injEq] at hsb
      subst hsb
      exact hka.chain (KeepsTables.modPage sa.dirs_ seg (Int.tdiv pn st.dir_size_)
        (Int.tmod pn st.dir_size_) (fun Q => { Q with last_access := st.time_ + 1 })
        (fun _ => rfl))

theorem Later.inv {cli : CLI} {R : Nat → Nat} {st st1 : SegmentTable} (h : Inv cli st)
    (hl : Later R st st1) : Inv cli st1 := by
  induction hl with
  | refl => exact h
  | step _ ht ih => exact ih.translate ht

theorem Later.keeps {cli : CLI} {R : Nat → Nat} {st st1 : SegmentTable} (h : Inv cli st)
    (hl : Later R st st1) : KeepsTables st.dirs_ st1.dirs_ := by
  induction hl with
  | refl => exact KeepsTables.same _
  | step hprev ht ih => exact ih.chain (KeepsTables.of_translate (hprev.inv h) ht)

/-- C16: in every reachable engine state each directory entry owns a second-level table if
and only if its presence flag is set, and that table has exactly fan-out entries; and a
table is created at most once: lazy allocation on a present entry leaves the whole state
as it is, and in every state reached by later `translate` calls an entry that was present
is still present, and every page entry that existed still exists with the
protection bit it had. -/
theorem table_created_once (R : Nat → Nat) (cli : CLI) (st : SegmentTable)
    (hreach : Reachable R cli st) :
    (∀ s row d de, vget st.dirs_ s = some row → vget row d = some de →
      (de.present = true ↔ de.pt.isSome = true) ∧
      ∀ t, de.pt = some t → (t.table_.length : Int) = cli.dir_size ∧
        t.pages_ = cli.dir_size) ∧
    (∀ s row d de, vget st.dirs_ s = some row → vget row d = some de → de.present = true →
      st.lazy_alloc R s d = some st) ∧
    (∀ st1, Later R st st1 → KeepsTables st.dirs_ st1.dirs_) := by
  have h := reachable_inv hreach
  refine ⟨fun s row d de hrow hde => ?_, fun s row d de hrow hde hp => ?_,
    fun st1 hl => hl.keeps h⟩
  · obtain ⟨e1, e2⟩ := h.shape.entry s row d de hrow hde
    exact ⟨e1, fun t ht => ⟨(e2 t ht).2, (e2 t ht).1⟩⟩
  · unfold SegmentTable.lazy_alloc
    rw [hrow]
    simp only
    rw [hde]
    simp only [hp, if_true]

theorem table_created_once_witness :
    (∀ s row d de, vget demoStep1.1.dirs_ s = some row → vget row d = some de →
      (de.present = true ↔ de.pt.isSome = true) ∧
      ∀ t, de.pt = some t → (t.table_.length : Int) = demoCLI.dir_size ∧
        t.pages_ = demoCLI.dir_size) ∧
    (∀ s row d de, vget demoStep1.1.dirs_ s = some row → vget row d = some de →
      de.present = true → demoStep1.1.lazy_alloc demoR s d = some demoStep1.1) ∧
    (∀ st1, Later demoR demoStep1.1 st1 → KeepsTables demoStep1.1.dirs_ st1.dirs_) :=
  table_created_once demoR demoCLI demoStep1.1 demoStep1_reachable

/-! ## C20: translation is injective -/

/-- The address layout behind a successful translation on an engine state that satisfies
the invariant: the base is `1000 + 5000 * seg`, pages are below 7, offsets below the page
size. -/
theorem success_layout {cli : CLI} {R : Nat → Nat} {st st1 : SegmentTable}
    {seg pn off : Int} {acc : Access} {r lat : Int} (h : Inv cli st)
    (ht : st.translate R seg pn off acc = some (st1, r, lat)) (hr : r ≠ -1) :
    r = 1000 + seg * 5000 + pn * cli.page_size + off ∧ 0 ≤ seg ∧
      (0 ≤ pn ∧ pn < 7) ∧ (0 ≤ off ∧ off < cli.page_size) := by
  obtain ⟨_, _, hc⟩ := translate_cases ht
  rcases hc with ⟨_, _, hr1⟩ | ⟨S, hS, hc⟩
  · exact absurd hr1 hr
  rcases hc with ⟨_, _, _, hr1⟩ | ⟨_, _, _, hr1⟩ | ⟨_, _, _, _, hr1⟩ | ⟨hpass, hw⟩
  · exact absurd hr1 hr
  · exact absurd hr1 hr
  · exact absurd hr1 hr
  obtain ⟨_, _, sa, P, hsa, _, hc⟩ := walk_cases hw
  obtain ⟨hfa, _, _⟩ := lazy_alloc_fixed hsa
  have hps : sa.page_size_ = cli.page_size := hfa.page_size.trans h.shape.page_size
  obtain ⟨hb, _, h7⟩ := h.shape.seg_shape seg S hS
  have hoff := hpass.2.2.2
  rw [h.shape.page_size] at hoff
  refine ⟨?_, (vget_some_range hS).1, ⟨hpass.2.2.1.1, by have := hpass.2.2.1.2; omega⟩, hoff⟩
  rcases hc with ⟨_, _, _, hr1⟩ | ⟨_, _, _, _, _, hr1⟩ | ⟨_, _, sb, hsb, _, hr1⟩ |
    ⟨_, _, sb, hsb, _, hr1⟩
  · exact absurd hr1 hr
  · exact absurd hr1 hr
  · rw [hr1, (page_fault_fixed hsb).1.page_size, hps, hb]
  · rw [hr1, (page_hit_fixed hsb).1.page_size, hps, hb]

theorem layout_injective {ps p o p1 o1 : Int}
    (ho : 0 ≤ o ∧ o < ps) (ho1 : 0 ≤ o1 ∧ o1 < ps)
    (he : p * ps + o = p1 * ps + o1) : p = p1 ∧ o = o1 := by
  have hps : 0 < ps := by omega
  have e1 : (p - p1) * ps = o1 - o := by linarith
  have hpp : p = p1 := by
    by_contra hne
    rcases lt_or_gt_of_ne hne with hlt | hgt
    · have : (p1 - p) * ps ≥ 1 * ps := Int.mul_le_mul_of_nonneg_right (by omega) (by omega)
      nlinarith
    · have : (p - p1) * ps ≥ 1 * ps := Int.mul_le_mul_of_nonneg_right (by omega) (by omega)
      nlinarith
  subst hpp
  exact ⟨rfl, by omega⟩

/-- C20: for two successful translations on reachable states of one engine: within one
segment, different (pageNumber, offset) pairs give different addresses; and when
`7 * pageSize <= 5000`, different (segment, pageNumber, offset) triples give different
addresses. -/
theorem translate_injective (R : Nat → Nat) (cli : CLI) (st st' : SegmentTable)
    (hreach : Reachable R cli st) (hreach' : Reachable R cli st')
    (seg pn off seg' pn' off' : Int) (acc acc' : Access) (st1 st1' : SegmentTable)
    (r lat r' lat' : Int)
    (ht : st.translate R seg pn off acc = some (st1, r, lat)) (hr : r ≠ -1)
    (ht' : st'.translate R seg' pn' off' acc' = some (st1', r', lat')) (hr' : r' ≠ -1) :
    (seg = seg' → (pn, off) ≠ (pn', off') → r ≠ r') ∧
    (7 * cli.page_size ≤ 5000 → (seg, pn, off) ≠ (seg', pn', off') → r ≠ r') := by
  obtain ⟨e, hs, hp, ho⟩ := success_layout (reachable_inv hreach) ht hr
  obtain ⟨e', hs', hp', ho'⟩ := success_layout (reachable_inv hreach') ht' hr'
  constructor
  · intro hseg hne heq
    apply hne
    subst hseg
    have he : pn * cli.page_size + off = pn' * cli.page_size + off' := by linarith
    obtain ⟨a, b⟩ := layout_injective ho ho' he
    rw [a, b]
  · intro h7 hne heq
    apply hne
    have b1 : 0 ≤ pn * cli.page_size + off ∧ pn * cli.page_size + off < 5000 := by
      constructor
      · nlinarith [hp.1, ho.1]
      · nlinarith [hp.2, ho.2, ho.1]
    have b2 : 0 ≤ pn' * cli.page_size + off' ∧ pn' * cli.page_size + off' < 5000 := by
      constructor
      · nlinarith [hp'.1, ho'.1]
      · nlinarith [hp'.2, ho'.2, ho'.1]
    have hseg : seg = seg' := by omega
    subst hseg
    have he : pn * cli.page_size + off = pn' * cli.page_size + off' := by linarith
    obtain ⟨a, b⟩ := layout_injective ho ho' he
    rw [a, b]

theorem translate_injective_witness :
    smallStepA.2.1 = 1105 ∧ smallStepB.2.1 = 6005 ∧
    ((0 : Int) = 1 → ((1 : Int), (5 : Int)) ≠ (0, 5) → smallStepA.2.1 ≠ smallStepB.2.1) ∧
    (7 * smallCLI.page_size ≤ 5000 → ((0 : Int), (1 : Int), (5 : Int)) ≠ (1, 0, 5) →
      smallStepA.2.1 ≠ smallStepB.2.1) :=
  ⟨by decide, by decide,
    translate_injective demoR smallCLI small0 smallStepA.1 (Reachable.boot (by decide))
      (Reachable.step (Reachable.boot (by decide))
        (by decide : small0.translate demoR 0 1 5 Access.READ = some smallStepA))
      0 1 5 1 0 5 Access.READ Access.READ
      smallStepA.1 smallStepB.1 smallStepA.2.1 smallStepA.2.2 smallStepB.2.1 smallStepB.2.2
      (by decide) (by decide) (by decide) (by decide)⟩

/-! ## The exact outcome of a fault -/

/-- A fault while frame `j` is the first free frame takes frame `j`. -/
theorem fault_takes_free {cli : CLI} {R : Nat → Nat} {st sa : SegmentTable}
    {seg pn off : Int} {acc : Access} {S : Segment} {P : Page} {j : Int} {mj : FrameMeta}
    (h : Inv cli st) (hclock : st.time_ < INT_MAX) (hpass : Passes st seg pn off acc S)
    (hsa : st.tick.lazy_alloc R seg (Int.tdiv pn st.dir_size_) = some sa)
    (hP : pageAt sa.dirs_ seg (Int.tdiv pn st.dir_size_) (Int.tmod pn st.dir_size_) = some P)
    (hab : P.present = false)
    (hnw : ¬ (acc = Access.WRITE ∧ P.prot = Protection.READ_ONLY))
    (hj : vget st.pm_.meta j = some mj) (hjf : mj.free = true)
    (hmin : ∀ i mi, 0 ≤ i → i < j → vget st.pm_.meta i = some mi → mi.free = false) :
    ∃ lat, st.translate R seg pn off acc =
      some ((faultFree sa j seg (Int.tdiv pn st.dir_size_) (Int.tmod pn st.dir_size_)
        (st.time_ + 1)).success lat, S.base + pn * st.page_size_ + off, lat) := by
  obtain ⟨st1, r, lat, ht, hf⟩ := fault_total h hclock hpass hsa hP hab hnw
  obtain ⟨S1, sa1, P1, hpass1, hsa1, _, _, _, hc⟩ := fault_call h ht hf
  rw [hsa] at hsa1
  cases hsa1
  have hS1 : S1 = S := by
    have := hpass1.1
    rw [hpass.1] at this
    cases this
    rfl
  subst hS1
  rcases hc with ⟨f, m, hm, hmf, hmin1, hr, hst1⟩ | ⟨hall, _⟩
  · have hfj : f = j := by
      have h0j := (vget_some_range hj).1
      have h0f := (vget_some_range hm).1
      by_contra hne
      rcases lt_or_gt_of_ne hne with hlt | hgt
      · have := hmin f m h0f hlt hm
        rw [hmf] at this
        cases this
      · have := hmin1 j mj h0j hgt hj
        rw [hjf] at this
        cases this
    subst hfj hr hst1
    exact ⟨lat, ht⟩
  · have := hall j mj hj
    rw [hjf] at this
    cases this

/-- A fault on a full FIFO pool whose queue starts with `v` evicts frame `v`. -/
theorem fault_takes_head {cli : CLI} {R : Nat → Nat} {st sa : SegmentTable}
    {seg pn off : Int} {acc : Access} {S : Segment} {P : Page} {v : Int} {q : List Int}
    {m : FrameMeta}
    (h : Inv cli st) (hclock : st.time_ < INT_MAX) (hpass : Passes st seg pn off acc S)
    (hsa : st.tick.lazy_alloc R seg (Int.tdiv pn st.dir_size_) = some sa)
    (hP : pageAt sa.dirs_ seg (Int.tdiv pn st.dir_size_) (Int.tmod pn st.dir_size_) = some P)
    (hab : P.present = false)
    (hnw : ¬ (acc = Access.WRITE ∧ P.prot = Protection.READ_ONLY))
    (hpol : st.pm_.policy = Policy.FIFO)
    (hall : ∀ f m, vget st.pm_.meta f = some m → m.free = false)
    (hq : st.pm_.fifo_q = v :: q) (hm : vget st.pm_.meta v = some m) :
    ∃ lat, st.translate R seg pn off acc =
      some ((faultEvict sa (q ++ [v]) v m seg (Int.tdiv pn st.dir_size_)
        (Int.tmod pn st.dir_size_) (st.time_ + 1)).success lat,
        S.base + pn * st.page_size_ + off, lat) := by
  obtain ⟨st1, r, lat, ht, hf⟩ := fault_total h hclock hpass hsa hP hab hnw
  obtain ⟨S1, sa1, P1, hpass1, hsa1, _, _, _, hc⟩ := fault_call h ht hf
  rw [hsa] at hsa1
  cases hsa1
  have hS1 : S1 = S := by
    have := hpass1.1
    rw [hpass.1] at this
    cases this
    rfl
  subst hS1
  have hcv := choose_victim_fifo_head (st.time_ + 1) hpol hq hm (hall v m hm)
  rcases hc with ⟨f, m1, hm1, hmf, _⟩ | ⟨_, ⟨pm2, v1, m1, hcv1, hm1, _, hr, hst1⟩ |
    ⟨pm2, hcv1, _⟩⟩
  · have := hall f m1 hm1
    rw [hmf] at this
    cases this
  · rw [hcv] at hcv1
    simp only [Option.some.injEq, Prod.mk.injEq] at hcv1
    obtain ⟨rfl, rfl⟩ := hcv1
    rw [hm] at hm1
    cases hm1
    subst hr hst1
    exact ⟨lat, ht⟩
  · rw [hcv] at hcv1
    simp only [Option.some.injEq, Prod.mk.injEq] at hcv1
    have := (vget_some_range hm).1
    omega

/-- What a call that faulted had found: the request passed the checks and the page entry,
after lazy allocation, was absent. -/
theorem faultStep_found {cli : CLI} {R : Nat → Nat} {st st1 : SegmentTable}
    {seg pn off : Int} {acc : Access} (h : Inv cli st)
    (hs : faultStep R st (seg, pn, off, acc) = some st1) :
    st.time_ < INT_MAX ∧ Inv cli st1 ∧
    ∃ r lat S sa P, st.translate R seg pn off acc = some (st1, r, lat) ∧
      Passes st seg pn off acc S ∧
      st.tick.lazy_alloc R seg (Int.tdiv pn st.dir_size_) = some sa ∧
      pageAt sa.dirs_ seg (Int.tdiv pn st.dir_size_) (Int.tmod pn st.dir_size_) = some P ∧
      P.present = false ∧ ¬ (acc = Access.WRITE ∧ P.prot = Protection.READ_ONLY) ∧
      Inv cli sa ∧ sa.pm_ = st.pm_ ∧ sa.metrics_ = st.metrics_ := by
  obtain ⟨r, lat, ht, hf⟩ := faultStep_some hs
  simp only at ht
  obtain ⟨hclock, _, _⟩ := translate_cases ht
  obtain ⟨S, sa, P, hpass, hsa, hP, hab, hnw, _⟩ := fault_call h ht hf
  obtain ⟨hia, _, hpa, _, hma, _, _⟩ := (h.tick hclock).lazy_alloc hsa
  exact ⟨hclock, h.translate ht, r, lat, S, sa, P, ht, hpass, hsa, hP, hab, hnw, hia, hpa, hma⟩

/-! ## C19: the next FIFO eviction takes frame 0 again -/

/-- The queue after one more fault that takes the free frame `j`. -/
theorem FifoTrace.step_queue {cli : CLI} {R : Nat → Nat} {s1 d1 p1 j : Int}
    {st st1 : SegmentTable} {seg pn off : Int} {acc : Access}
    (h : FifoTrace cli s1 d1 p1 j st) (h0 : 0 ≤ j) (hj : j < cli.frames)
    (hs : faultStep R st (seg, pn, off, acc) = some st1) :
    st1.pm_.fifo_q = st.pm_.fifo_q ++ [j] ++ [j] := by
  obtain ⟨mj, hmj⟩ := @vget_of_range _ st.pm_.meta j h0 (by rw [h.inv.shape.meta_len]; exact hj)
  have hjfree : mj.free = true := by
    by_contra hc
    have := (h.used j mj hmj).mp (by simpa using hc)
    omega
  have hmin : ∀ i mi, 0 ≤ i → i < j → vget st.pm_.meta i = some mi → mi.free = false :=
    fun i mi _ hi hmi => (h.used i mi hmi).mpr hi
  obtain ⟨hclock, _, r, lat, S, sa, P, ht, hpass, hsa, hP, hab, hnw, _, hpa, _⟩ :=
    faultStep_found h.inv hs
  obtain ⟨lat1, ht1⟩ := fault_takes_free h.inv hclock hpass hsa hP hab hnw hmj hjfree hmin
  rw [ht] at ht1
  simp only [Option.some.injEq, Prod.mk.injEq] at ht1
  rw [ht1.1]
  simp only [SegmentTable.success, faultFree, hpa]

/-- After at least one fault of a run that stays within the free frames, the queue starts
with frame 0 twice. -/
theorem FifoTrace.run_twice {cli : CLI} {R : Nat → Nat} {s1 d1 p1 : Int}
    (reqs : List (Int × Int × Int × Access)) :
    ∀ (j : Int) (st st1 : SegmentTable), FifoTrace cli s1 d1 p1 j st → 0 ≤ j →
      j + reqs.length ≤ cli.frames → faultRun R st reqs = some st1 →
      (j = 0 → ∀ q rest, reqs = q :: rest →
        q.1 = s1 ∧ Int.tdiv q.2.1 st.dir_size_ = d1 ∧ Int.tmod q.2.1 st.dir_size_ = p1) →
      (1 ≤ j → ∃ q, st.pm_.fifo_q = 0 :: 0 :: q) →
      1 ≤ j + reqs.length → ∃ q, st1.pm_.fifo_q = 0 :: 0 :: q := by
  induction reqs with
  | nil =>
    intro j st st1 _ _ _ hr _ htw h1
    simp only [faultRun, Option.some.injEq] at hr
    subst hr
    exact htw (by simpa using h1)
  | cons q rest ih =>
    intro j st st1 h h0 hlen hr hfirst htw _
    simp only [faultRun] at hr
    cases hs : faultStep R st q with
    | none => rw [hs] at hr; simp at hr
    | some st2 =>
      rw [hs] at hr
      simp only at hr
      simp only [List.length_cons, Nat.cast_add, Nat.cast_one] at hlen
      obtain ⟨seg, pn, off, acc⟩ := q
      have h2 := h.step h0 (by omega) hs (fun hz => hfirst hz _ _ rfl)
      have hq2 := h.step_queue h0 (by omega) hs
      have htw2 : 1 ≤ j + 1 → ∃ q, st2.pm_.fifo_q = 0 :: 0 :: q := by
        intro _
        by_cases hz : j = 0
        · rw [hq2, h.empty hz, hz]
          exact ⟨[], rfl⟩
        · obtain ⟨q, hq⟩ := htw (by omega)
          rw [hq2, hq]
          exact ⟨q ++ [j] ++ [j], rfl⟩
      exact ih (j + 1) st2 st1 h2 (by omega) (by omega) hr (fun hz => by omega) htw2
        (by omega)

/-- C19: under FIFO with capacity `K >= 1` (`K = mids.length + 1`), starting from a freshly
constructed engine, after `K` calls that fault (`q1` and then `mids`), two further calls
`qA` and `qB` that fault both evict frame 0: `choose_victim` returns frame 0 before each of
them; after `qA` its page holds frame 0; after `qB` the page of `qA`, loaded by the
`(K+1)`-th fault, is absent with `frame = -1`, the page of `qB` holds frame 0, and
`replacements` grew by one at each of the two calls. -/
theorem fifo_evicts_frame_zero_again (R : Nat → Nat) (cli : CLI)
    (st0 st2 st3 st4 : SegmentTable)
    (q1 qA qB : Int × Int × Int × Access) (mids : List (Int × Int × Int × Access))
    (hpol : cli.policy = Policy.FIFO) (hboot : boot R cli = some st0)
    (hlen : (mids.length : Int) + 1 = cli.frames)
    (hrun : faultRun R st0 (q1 :: mids) = some st2)
    (hA : faultStep R st2 qA = some st3) (hB : faultStep R st3 qB = some st4) :
    (∃ pm2, st2.pm_.choose_victim (st2.time_ + 1) = some (pm2, 0)) ∧
    (∃ pg, pageAt st3.dirs_ qA.1 (Int.tdiv qA.2.1 cli.dir_size)
        (Int.tmod qA.2.1 cli.dir_size) = some pg ∧ pg.present = true ∧ pg.frame = 0) ∧
    (∃ pm2, st3.pm_.choose_victim (st3.time_ + 1) = some (pm2, 0)) ∧
    (∃ pg, pageAt st4.dirs_ qA.1 (Int.tdiv qA.2.1 cli.dir_size)
        (Int.tmod qA.2.1 cli.dir_size) = some pg ∧ pg.present = false ∧ pg.frame = -1) ∧
    (∃ pg, pageAt st4.dirs_ qB.1 (Int.tdiv qB.2.1 cli.dir_size)
        (Int.tmod qB.2.1 cli.dir_size) = some pg ∧ pg.present = true ∧ pg.frame = 0) ∧
    st3.metrics_.replacements = st2.metrics_.replacements + 1 ∧
    st4.metrics_.replacements = st3.metrics_.replacements + 1 := by
  have hb := boot_inv hboot
  have hd0 : st0.dir_size_ = cli.dir_size := hb.shape.dir_size
  have htr0 := @FifoTrace.boot R cli st0 hboot q1.1 (Int.tdiv q1.2.1 cli.dir_size)
    (Int.tmod q1.2.1 cli.dir_size)
  have hfst : (0 : Int) = 0 → ∀ q rest, q1 :: mids = q :: rest →
      q.1 = q1.1 ∧ Int.tdiv q.2.1 st0.dir_size_ = Int.tdiv q1.2.1 cli.dir_size ∧
        Int.tmod q.2.1 st0.dir_size_ = Int.tmod q1.2.1 cli.dir_size := by
    intro _ q rest he
    simp only [List.cons.injEq] at he
    obtain ⟨rfl, _⟩ := he
    rw [hd0]
    exact ⟨rfl, rfl, rfl⟩
  have hKl : (0 : Int) + ((q1 :: mids).length : Int) ≤ cli.frames := by
    simp only [List.length_cons, Nat.cast_add, Nat.cast_one]; omega
  have htr2 := @FifoTrace.run cli R _ _ _ (q1 :: mids) 0 st0 st2 htr0 (le_refl _) hKl hrun hfst
  obtain ⟨q, hq⟩ := @FifoTrace.run_twice cli R _ _ _ (q1 :: mids) 0 st0 st2 htr0 (le_refl _)
    hKl hrun hfst (fun hc => by omega)
    (by simp only [List.length_cons, Nat.cast_add, Nat.cast_one]; omega)
  have hK : (0 : Int) + ((q1 :: mids).length : Int) = cli.frames := by
    simp only [List.length_cons, Nat.cast_add, Nat.cast_one]; omega
  rw [hK] at htr2
  have hpos : 1 ≤ cli.frames := by omega
  have h2 := htr2.inv
  have hpol2 : st2.pm_.policy = Policy.FIFO := h2.shape.policy.trans hpol
  have hall2 : ∀ f m, vget st2.pm_.meta f = some m → m.free = false := by
    intro f m hm
    have hr := vget_some_range hm
    exact (htr2.used f m hm).mpr (by rw [← h2.shape.meta_len]; exact hr.2)
  obtain ⟨m0, hm0, _⟩ := htr2.first hpos
  have hcv2 := choose_victim_fifo_head (st2.time_ + 1) hpol2 hq hm0 (hall2 0 m0 hm0)
  -- the (K+1)-th fault
  obtain ⟨segA, pnA, offA, accA⟩ := qA
  obtain ⟨hclock2, h3, rA, latA, SA, sa, PA, htA, hpassA, hsaA, hPA, habA, hnwA, hia, hpa, hma⟩ :=
    faultStep_found h2 hA
  obtain ⟨latA1, htA1⟩ := fault_takes_head h2 hclock2 hpassA hsaA hPA habA hnwA hpol2 hall2
    hq hm0
  rw [htA] at htA1
  simp only [Option.some.injEq, Prod.mk.injEq] at htA1
  obtain ⟨hst3, _, _⟩ := htA1
  have hd2 : st2.dir_size_ = cli.dir_size := h2.shape.dir_size
  rw [hd2] at hPA hst3
  have hm0a : vget sa.pm_.meta 0 = some m0 := by rw [hpa]; exact hm0
  obtain ⟨_, hpA3, _, _⟩ := faultEvict_pages hia ((0 :: q) ++ [0]) (st2.time_ + 1) hm0a
    (hall2 0 m0 hm0) hPA habA
  have hq3 : st3.pm_.fifo_q = 0 :: (q ++ [0] ++ [0]) := by
    rw [hst3]
    simp only [SegmentTable.success, faultEvict, List.cons_append, List.append_assoc]
  have hmeta3 : st3.pm_.meta = vset st2.pm_.meta 0
      (FrameMeta.mk false segA (Int.tdiv pnA cli.dir_size) (Int.tmod pnA cli.dir_size)
        (st2.time_ + 1) (st2.time_ + 1)) := by
    rw [hst3]
    simp only [SegmentTable.success, faultEvict, hpa]
  have hm3 : vget st3.pm_.meta 0 = some (FrameMeta.mk false segA (Int.tdiv pnA cli.dir_size)
      (Int.tmod pnA cli.dir_size) (st2.time_ + 1) (st2.time_ + 1)) := by
    rw [hmeta3, vget_vset, if_pos rfl, hm0]
    rfl
  have hall3 : ∀ f m, vget st3.pm_.meta f = some m → m.free = false := by
    intro f m hm
    rw [hmeta3, vget_vset] at hm
    by_cases hf : f = 0
    · rw [if_pos hf, hm0] at hm
      simp only [Option.map_some', Option.some.injEq] at hm
      rw [← hm]
    · rw [if_neg hf] at hm
      exact hall2 f m hm
  have hpol3 : st3.pm_.policy = Policy.FIFO := h3.shape.policy.trans hpol
  have hcv3 := choose_victim_fifo_head (st3.time_ + 1) hpol3 hq3 hm3 rfl
  -- the (K+2)-th fault
  obtain ⟨segB, pnB, offB, accB⟩ := qB
  obtain ⟨hclock3, _, rB, latB, SB, sb, PB, htB, hpassB, hsbB, hPB, habB, hnwB, hib, hpb, hmb⟩ :=
    faultStep_found h3 hB
  obtain ⟨latB1, htB1⟩ := fault_takes_head h3 hclock3 hpassB hsbB hPB habB hnwB hpol3 hall3
    hq3 hm3
  rw [htB] at htB1
  simp only [Option.some.injEq, Prod.mk.injEq] at htB1
  obtain ⟨hst4, _, _⟩ := htB1
  have hd3 : st3.dir_size_ = cli.dir_size := h3.shape.dir_size
  rw [hd3] at hPB hst4
  have hm3b : vget sb.pm_.meta 0 = some (FrameMeta.mk false segA (Int.tdiv pnA cli.dir_size)
      (Int.tmod pnA cli.dir_size) (st2.time_ + 1) (st2.time_ + 1)) := by
    rw [hpb]; exact hm3
  obtain ⟨_, hpB4, ⟨own, _, _, _, hown4⟩, _⟩ := faultEvict_pages hib
    ((q ++ [0] ++ [0]) ++ [0]) (st3.time_ + 1) hm3b rfl hPB habB
  refine ⟨⟨_, hcv2⟩, ⟨Page.mk 0 true PA.prot (st2.time_ + 1), ?_, rfl, rfl⟩, ⟨_, hcv3⟩,
    ⟨Page.mk (-1) false own.prot own.last_access, ?_, rfl, rfl⟩,
    ⟨Page.mk 0 true PB.prot (st3.time_ + 1), ?_, rfl, rfl⟩, ?_, ?_⟩
  · rw [hst3]; exact hpA3
  · rw [hst4]; exact hown4
  · rw [hst4]; exact hpB4
  · rw [hst3]; simp only [SegmentTable.success, faultEvict, hma]
  · rw [hst4]; simp only [SegmentTable.success, faultEvict, hmb]

theorem fifo_evicts_frame_zero_again_witness :
    (∃ pm2, demoFull.pm_.choose_victim (demoFull.time_ + 1) = some (pm2, 0)) ∧
    (∃ pg, pageAt demoEvict.dirs_ 0 (Int.tdiv 2 demoCLI.dir_size)
        (Int.tmod 2 demoCLI.dir_size) = some pg ∧ pg.present = true ∧ pg.frame = 0) ∧
    (∃ pm2, demoEvict.pm_.choose_victim (demoEvict.time_ + 1) = some (pm2, 0)) ∧
    (∃ pg, pageAt demoEvict2.dirs_ 0 (Int.tdiv 2 demoCLI.dir_size)
        (Int.tmod 2 demoCLI.dir_size) = some pg ∧ pg.present = false ∧ pg.frame = -1) ∧
    (∃ pg, pageAt demoEvict2.dirs_ 0 (Int.tdiv 3 demoCLI.dir_size)
        (Int.tmod 3 demoCLI.dir_size) = some pg ∧ pg.present = true ∧ pg.frame = 0) ∧
    demoEvict.metrics_.replacements = demoFull.metrics_.replacements + 1 ∧
    demoEvict2.metrics_.replacements = demoEvict.metrics_.replacements + 1 :=
  fifo_evicts_frame_zero_again demoR demoCLI demo0 demoFull demoEvict demoEvict2
    (0, 0, 0, Access.READ) (0, 2, 0, Access.READ) (0, 3, 0, Access.READ)
    [(0, 1, 0, Access.READ)] (by decide) (by decide) (by decide) (by decide) (by decide)
    (by decide)

/-! ## Fault steps with their full effect -/

theorem boot_fresh {R : Nat → Nat} {cli : CLI} {st : SegmentTable}
    (h : boot R cli = some st) : st.time_ = 0 ∧ st.metrics_ = {} := by
  unfold boot at h
  split at h
  · simp at h
  unfold SegmentTable.new at h
  split at h
  · simp at h
  split at h
  · simp at h
  split at h
  · simp at h
  simp only [Option.some.injEq] at h
  subst h
  exact ⟨rfl, rfl⟩

/-- Lazy allocation on a present directory entry changes nothing. -/
theorem lazy_alloc_noop (R : Nat → Nat) (st : SegmentTable) {seg dir : Int}
    {row : List DirEntry} {de : DirEntry} (hrow : vget st.dirs_ seg = some row)
    (hde : vget row dir = some de) (hp : de.present = true) :
    st.lazy_alloc R seg dir = some st := by
  unfold SegmentTable.lazy_alloc
  rw [hrow]
  simp only
  rw [hde]
  simp only [hp, if_true]

theorem faultStep_of {R : Nat → Nat} {st st1 : SegmentTable} {seg pn off : Int}
    {acc : Access} {r lat : Int} (ht : st.translate R seg pn off acc = some (st1, r, lat))
    (hf : st1.metrics_.faults = st.metrics_.faults + 1) :
    faultStep R st (seg, pn, off, acc) = some st1 := by
  unfold faultStep
  simp only [ht, hf, if_true]

/-- A fault that takes the free frame `j` of a FIFO pool that has not evicted yet. -/
theorem free_fault_step {cli : CLI} {R : Nat → Nat} {s1 d1 p1 j : Int}
    {st sa : SegmentTable} {seg pn off : Int} {acc : Access} {S : Segment} {P : Page}
    (tr : FifoTrace cli s1 d1 p1 j st) (h0 : 0 ≤ j) (hj : j < cli.frames)
    (hclock : st.time_ < INT_MAX) (hpass : Passes st seg pn off acc S)
    (hsa : st.tick.lazy_alloc R seg (Int.tdiv pn st.dir_size_) = some sa)
    (hP : pageAt sa.dirs_ seg (Int.tdiv pn st.dir_size_) (Int.tmod pn st.dir_size_) = some P)
    (hab : P.present = false)
    (hnw : ¬ (acc = Access.WRITE ∧ P.prot = Protection.READ_ONLY))
    (hfirst : j = 0 → seg = s1 ∧ Int.tdiv pn st.dir_size_ = d1 ∧
      Int.tmod pn st.dir_size_ = p1) :
    ∃ st1 lat, st.translate R seg pn off acc
        = some (st1, S.base + pn * st.page_size_ + off, lat) ∧
      FifoTrace cli s1 d1 p1 (j + 1) st1 ∧
      st1.metrics_.faults = st.metrics_.faults + 1 ∧
      st1.metrics_.replacements = st.metrics_.replacements ∧
      st1.time_ = st.time_ + 1 ∧ st1.segments_ = st.segments_ ∧
      st1.pm_.fifo_q = st.pm_.fifo_q ++ [j] ++ [j] ∧
      (∀ s d p, ¬ (s = seg ∧ d = Int.tdiv pn st.dir_size_ ∧ p = Int.tmod pn st.dir_size_) →
        pageAt st1.dirs_ s d p = pageAt sa.dirs_ s d p) ∧
      (∃ row de, vget st1.dirs_ seg = some row ∧
        vget row (Int.tdiv pn st.dir_size_) = some de ∧ de.present = true) := by
  have h := tr.inv
  obtain ⟨mj, hmj⟩ := @vget_of_range _ st.pm_.meta j h0 (by rw [h.shape.meta_len]; exact hj)
  have hjfree : mj.free = true := by
    by_contra hc
    have := (tr.used j mj hmj).mp (by simpa using hc)
    omega
  have hmin : ∀ i mi, 0 ≤ i → i < j → vget st.pm_.meta i = some mi → mi.free = false :=
    fun i mi _ hi hmi => (tr.used i mi hmi).mpr hi
  obtain ⟨_, hta, hpa, hsg, hma, _, _⟩ := (h.tick hclock).lazy_alloc hsa
  have hpa1 : sa.pm_ = st.pm_ := hpa
  have hma1 : sa.metrics_ = st.metrics_ := hma
  have hta1 : sa.time_ = st.time_ + 1 := hta
  have hsg1 : sa.segments_ = st.segments_ := hsg
  obtain ⟨lat, ht⟩ := fault_takes_free h hclock hpass hsa hP hab hnw hmj hjfree hmin
  have hf : ((faultFree sa j seg (Int.tdiv pn st.dir_size_) (Int.tmod pn st.dir_size_)
      (st.time_ + 1)).success lat).metrics_.faults = st.metrics_.faults + 1 := by
    simp only [SegmentTable.success, faultFree, hma1]
  obtain ⟨row, de, hrow, hde, hpres⟩ := lazy_alloc_present hsa
  obtain ⟨row1, de1, e1, e2, e3⟩ := modPage_entry sa.dirs_ seg (Int.tdiv pn st.dir_size_)
    (Int.tmod pn st.dir_size_)
    (fun P => { P with present := true, frame := j, last_access := st.time_ + 1 }) hrow hde
  refine ⟨_, lat, ht, tr.step h0 hj (faultStep_of ht hf) hfirst, hf, ?_, ?_, ?_, ?_, ?_,
    ⟨row1, de1, e1, e2, e3.trans hpres⟩⟩
  · simp only [SegmentTable.success, faultFree, hma1]
  · simp only [SegmentTable.success, faultFree, hta1]
  · simp only [SegmentTable.success, faultFree, hsg1]
  · simp only [SegmentTable.success, faultFree, hpa1]
  · intro s d p hne
    exact (faultFree_pages sa j seg _ _ (st.time_ + 1) hP).2 s d p hne

/-- A fault on a full FIFO pool whose queue starts with `v`: frame `v` goes from its owner
`m` to the page of the request. -/
theorem evict_fault_step {cli : CLI} {R : Nat → Nat} {st sa : SegmentTable}
    {seg pn off : Int} {acc : Access} {S : Segment} {P : Page} {v : Int} {q : List Int}
    {m : FrameMeta}
    (h : Inv cli st) (hclock : st.time_ < INT_MAX) (hpass : Passes st seg pn off acc S)
    (hsa : st.tick.lazy_alloc R seg (Int.tdiv pn st.dir_size_) = some sa)
    (hP : pageAt sa.dirs_ seg (Int.tdiv pn st.dir_size_) (Int.tmod pn st.dir_size_) = some P)
    (hab : P.present = false)
    (hnw : ¬ (acc = Access.WRITE ∧ P.prot = Protection.READ_ONLY))
    (hpol : st.pm_.policy = Policy.FIFO)
    (hall : ∀ f m, vget st.pm_.meta f = some m → m.free = false)
    (hq : st.pm_.fifo_q = v :: q) (hm : vget st.pm_.meta v = some m) :
    ∃ st1 lat, st.translate R seg pn off acc
        = some (st1, S.base + pn * st.page_size_ + off, lat) ∧
      Inv cli st1 ∧
      st1.metrics_.faults = st.metrics_.faults + 1 ∧
      st1.metrics_.replacements = st.metrics_.replacements + 1 ∧
      st1.time_ = st.time_ + 1 ∧ st1.segments_ = st.segments_ ∧
      st1.pm_.fifo_q = q ++ [v] ++ [v] ∧
      st1.pm_.meta = vset st.pm_.meta v (FrameMeta.mk false seg (Int.tdiv pn st.dir_size_)
        (Int.tmod pn st.dir_size_) (st.time_ + 1) (st.time_ + 1)) ∧
      (∀ f m1, vget st1.pm_.meta f = some m1 → m1.free = false) ∧
      (∃ pg, pageAt st1.dirs_ m.seg m.dir m.page = some pg ∧ pg.present = false ∧
        pg.frame = -1) ∧
      (∃ pg, pageAt st1.dirs_ seg (Int.tdiv pn st.dir_size_) (Int.tmod pn st.dir_size_)
        = some pg ∧ pg.present = true ∧ pg.frame = v) ∧
      (∀ s d p, ¬ (s = seg ∧ d = Int.tdiv pn st.dir_size_ ∧ p = Int.tmod pn st.dir_size_) →
        ¬ (s = m.seg ∧ d = m.dir ∧ p = m.page) →
        pageAt st1.dirs_ s d p = pageAt sa.dirs_ s d p) ∧
      (∃ row de, vget st1.dirs_ seg = some row ∧
        vget row (Int.tdiv pn st.dir_size_) = some de ∧ de.present = true) := by
  obtain ⟨hia, hta, hpa, hsg, hma, _, _⟩ := (h.tick hclock).lazy_alloc hsa
  have hpa1 : sa.pm_ = st.pm_ := hpa
  have hma1 : sa.metrics_ = st.metrics_ := hma
  have hta1 : sa.time_ = st.time_ + 1 := hta
  have hsg1 : sa.segments_ = st.segments_ := hsg
  obtain ⟨lat, ht⟩ := fault_takes_head h hclock hpass hsa hP hab hnw hpol hall hq hm
  have hm' : vget sa.pm_.meta v = some m := by rw [hpa1]; exact hm
  obtain ⟨_, hp1, ⟨own, _, _, _, hp2⟩, hp3⟩ :=
    faultEvict_pages hia (q ++ [v]) (st.time_ + 1) hm' (hall v m hm) hP hab
  obtain ⟨row, de, hrow, hde, hpres⟩ := lazy_alloc_present hsa
  obtain ⟨row1, de1, e1, e2, e3⟩ := modPage_entry sa.dirs_ m.seg m.dir m.page
    (fun P => { P with present := false, frame := -1 }) hrow hde
  obtain ⟨row2, de2, e4, e5, e6⟩ := modPage_entry _ seg (Int.tdiv pn st.dir_size_)
    (Int.tmod pn st.dir_size_)
    (fun P => { P with present := true, frame := v, last_access := st.time_ + 1 }) e1 e2
  refine ⟨_, lat, ht, h.translate ht, ?_, ?_, ?_, ?_, ?_, ?_, ?_,
    ⟨Page.mk (-1) false own.prot own.last_access, hp2, rfl, rfl⟩,
    ⟨Page.mk v true P.prot (st.time_ + 1), hp1, rfl, rfl⟩, hp3,
    ⟨row2, de2, e4, e5, (e6.trans e3).trans hpres⟩⟩
  · simp only [SegmentTable.success, faultEvict, hma1]
  · simp only [SegmentTable.success, faultEvict, hma1]
  · simp only [SegmentTable.success, faultEvict, hta1]
  · simp only [SegmentTable.success, faultEvict, hsg1]
  · simp only [SegmentTable.success, faultEvict, List.append_assoc]
  · simp only [SegmentTable.success, faultEvict, hpa1]
  · intro f m1 hm1
    simp only [SegmentTable.success, faultEvict, hpa1] at hm1
    rw [vget_vset] at hm1
    by_cases hf : f = v
    · rw [if_pos hf, hm] at hm1
      simp only [Option.map_some', Option.some.injEq] at hm1
      rw [← hm1]
    · rw [if_neg hf] at hm1
      exact hall f m1 hm1

/-! ## C11: the concrete FIFO scenario -/

theorem absent_of_map {dirs : List (List DirEntry)} {s d p : Int}
    (h : (pageAt dirs s d p).map (fun P => P.present) = some false) :
    ∃ P, pageAt dirs s d p = some P ∧ P.present = false := by
  cases hp : pageAt dirs s d p with
  | none => rw [hp] at h; simp at h
  | some P =>
    rw [hp] at h
    simp only [Option.map_some', Option.some.injEq] at h
    exact ⟨P, rfl, h⟩

/-- C11: on the engine built from `demoCLI` (1 segment, 2 frames, page size 1000, fan-out 4,
FIFO) whose segment is read-write with limit 4 and whose page entries 0, 1 and 2 are absent
when their table is materialised, the calls translate(0,0,0,READ), translate(0,1,0,READ),
translate(0,2,0,READ), translate(0,0,0,READ) return 1000, 2000, 3000, 1000; `faults` is
1, 2, 3, 4 and `replacements` is 0, 0, 1, 2 after the four calls; no frame is free after the
second call; page 0 is absent with `frame = -1` after the third. -/
theorem fifo_scenario (R : Nat → Nat) (st0 sa : SegmentTable)
    (hboot : boot R demoCLI = some st0)
    (hseg : st0.segments_ = [Segment.mk 1000 4 Protection.READ_WRITE])
    (hsa : st0.tick.lazy_alloc R 0 0 = some sa)
    (hp0 : (pageAt sa.dirs_ 0 0 0).map (fun P => P.present) = some false)
    (hp1 : (pageAt sa.dirs_ 0 0 1).map (fun P => P.present) = some false)
    (hp2 : (pageAt sa.dirs_ 0 0 2).map (fun P => P.present) = some false) :
    ∃ s1 s2 s3 s4 l1 l2 l3 l4,
      st0.translate R 0 0 0 Access.READ = some (s1, 1000, l1) ∧
      s1.translate R 0 1 0 Access.READ = some (s2, 2000, l2) ∧
      s2.translate R 0 2 0 Access.READ = some (s3, 3000, l3) ∧
      s3.translate R 0 0 0 Access.READ = some (s4, 1000, l4) ∧
      (s1.metrics_.faults = 1 ∧ s1.metrics_.replacements = 0) ∧
      (s2.metrics_.faults = 2 ∧ s2.metrics_.replacements = 0) ∧
      (s3.metrics_.faults = 3 ∧ s3.metrics_.replacements = 1) ∧
      (s4.metrics_.faults = 4 ∧ s4.metrics_.replacements = 2) ∧
      (s2.pm_.meta.length = 2 ∧ ∀ f m, vget s2.pm_.meta f = some m → m.free = false) ∧
      (∃ pg, pageAt s3.dirs_ 0 0 0 = some pg ∧ pg.present = false ∧ pg.frame = -1) := by
  have h0 := boot_inv hboot
  obtain ⟨htime0, hmt0⟩ := boot_fresh hboot
  obtain ⟨hq0, _⟩ := boot_pool hboot
  have tr0 := @FifoTrace.boot R demoCLI st0 hboot 0 0 0
  obtain ⟨P0, hP0, hab0⟩ := absent_of_map hp0
  obtain ⟨P1, hP1, hab1⟩ := absent_of_map hp1
  obtain ⟨P2, hP2, hab2⟩ := absent_of_map hp2
  have e04 : Int.tdiv 0 4 = 0 ∧ Int.tmod 0 4 = 0 := by decide
  have e14 : Int.tdiv 1 4 = 0 ∧ Int.tmod 1 4 = 1 := by decide
  have e24 : Int.tdiv 2 4 = 0 ∧ Int.tmod 2 4 = 2 := by decide
  have hnw : ∀ P : Page, ¬ (Access.READ = Access.WRITE ∧ P.prot = Protection.READ_ONLY) :=
    fun _ hc => by cases hc.1
  have hS0 : vget st0.segments_ 0 = some (Segment.mk 1000 4 Protection.READ_WRITE) := by
    rw [hseg]; rfl
  have pass : ∀ (st : SegmentTable) (pn : Int), Inv demoCLI st →
      st.segments_ = st0.segments_ → 0 ≤ pn → pn < 4 →
      Passes st 0 pn 0 Access.READ (Segment.mk 1000 4 Protection.READ_WRITE) := by
    intro st pn h hs hpn0 hpn4
    have hps : (0 : Int) < st.page_size_ := by
      rw [h.shape.page_size]
      decide
    have hS : vget st.segments_ 0 = some (Segment.mk 1000 4 Protection.READ_WRITE) := by
      rw [hs]; exact hS0
    have hnw1 : ¬ (Access.READ = Access.WRITE ∧
        (Segment.mk 1000 4 Protection.READ_WRITE).prot = Protection.READ_ONLY) :=
      fun hc => by cases hc.1
    exact ⟨hS, hnw1, ⟨hpn0, hpn4⟩, ⟨le_refl _, hps⟩⟩
  -- first call
  have hd0 : st0.dir_size_ = 4 := h0.shape.dir_size
  have hps0 : st0.page_size_ = 1000 := h0.shape.page_size
  obtain ⟨s1, l1, ht1, tr1, hf1, hr1, htime1, hsg1, hq1, hpg1, row1, de1, hrow1, hde1, hpres1⟩ :=
    @free_fault_step demoCLI R 0 0 0 0 st0 sa 0 0 0 Access.READ _ P0 tr0 (le_refl _)
      (by decide) (by rw [htime0]; decide) (pass st0 0 h0 rfl (le_refl _) (by decide))
      (by rw [hd0, e04.1]; exact hsa) (by rw [hd0, e04.1, e04.2]; exact hP0) hab0 (hnw P0)
      (fun _ => by rw [hd0]; exact ⟨rfl, e04.1, e04.2⟩)
  rw [hd0, e04.1, e04.2] at hpg1
  rw [hd0, e04.1] at hde1
  rw [hps0] at ht1
  have h1 := tr1.inv
  have hd1 : s1.dir_size_ = 4 := h1.shape.dir_size
  have hps1 : s1.page_size_ = 1000 := h1.shape.page_size
  have hlz1 : s1.tick.lazy_alloc R 0 0 = some s1.tick :=
    lazy_alloc_noop R s1.tick (show vget s1.tick.dirs_ 0 = some row1 from hrow1) hde1 hpres1
  have hP1' : pageAt s1.tick.dirs_ 0 0 1 = some P1 := by
    show pageAt s1.dirs_ 0 0 1 = some P1
    rw [hpg1 0 0 1 (by decide)]
    exact hP1
  have hP2' : pageAt s1.dirs_ 0 0 2 = some P2 := by
    rw [hpg1 0 0 2 (by decide)]
    exact hP2
  -- second call
  obtain ⟨s2, l2, ht2, tr2, hf2, hr2, htime2, hsg2, hq2, hpg2, row2, de2, hrow2, hde2, hpres2⟩ :=
    @free_fault_step demoCLI R 0 0 0 (0 + 1) s1 s1.tick 0 1 0 Access.READ _ P1 tr1 (by decide)
      (by decide) (by rw [htime1, htime0]; decide)
      (pass s1 1 h1 hsg1 (by decide) (by decide))
      (by rw [hd1, e14.1]; exact hlz1) (by rw [hd1, e14.1, e14.2]; exact hP1') hab1 (hnw P1)
      (fun hc => absurd hc (by decide))
  rw [hd1, e14.1, e14.2] at hpg2
  rw [hd1, e14.1] at hde2
  rw [hps1] at ht2
  have h2 := tr2.inv
  have hd2 : s2.dir_size_ = 4 := h2.shape.dir_size
  have hps2 : s2.page_size_ = 1000 := h2.shape.page_size
  have hlen2 : (s2.pm_.meta.length : Int) = 2 := h2.shape.meta_len
  have hall2 : ∀ f m, vget s2.pm_.meta f = some m → m.free = false := by
    intro f m hm
    have hr := vget_some_range hm
    exact (tr2.used f m hm).mpr (by omega)
  have hqq2 : s2.pm_.fifo_q = 0 :: [0, 1, 1] := by
    rw [hq2, hq1, hq0]
    rfl
  obtain ⟨m0, hm0, _, em1, em2, em3⟩ := tr2.first (by decide)
  have hlz2 : s2.tick.lazy_alloc R 0 0 = some s2.tick :=
    lazy_alloc_noop R s2.tick (show vget s2.tick.dirs_ 0 = some row2 from hrow2) hde2 hpres2
  have hP2'' : pageAt s2.tick.dirs_ 0 0 2 = some P2 := by
    show pageAt s2.dirs_ 0 0 2 = some P2
    rw [hpg2 0 0 2 (by decide)]
    exact hP2'
  -- third call
  obtain ⟨s3, l3, ht3, h3, hf3, hr3, htime3, hsg3, hq3, hmeta3, hall3, ⟨own, hown, hownp,
      hownf⟩, _, _, row3, de3, hrow3, de3h, hpres3⟩ :=
    @evict_fault_step demoCLI R s2 s2.tick 0 2 0 Access.READ _ P2 0 [0, 1, 1] m0 h2
      (by rw [htime2, htime1, htime0]; decide)
      (pass s2 2 h2 (hsg2.trans hsg1) (by decide) (by decide))
      (by rw [hd2, e24.1]; exact hlz2) (by rw [hd2, e24.1, e24.2]; exact hP2'') hab2 (hnw P2)
      (h2.shape.policy.trans rfl) hall2 hqq2 hm0
  rw [em1, em2, em3] at hown
  rw [hd2, e24.1] at de3h
  rw [hd2, e24.1, e24.2] at hmeta3
  rw [hps2] at ht3
  have hd3 : s3.dir_size_ = 4 := h3.shape.dir_size
  have hps3 : s3.page_size_ = 1000 := h3.shape.page_size
  have hlz3 : s3.tick.lazy_alloc R 0 0 = some s3.tick :=
    lazy_alloc_noop R s3.tick (show vget s3.tick.dirs_ 0 = some row3 from hrow3) de3h hpres3
  have hm3 : vget s3.pm_.meta 0 = some (FrameMeta.mk false 0 0 2 (s2.time_ + 1)
      (s2.time_ + 1)) := by
    rw [hmeta3, vget_vset, if_pos rfl, hm0]
    rfl
  have hqq3 : s3.pm_.fifo_q = 0 :: [1, 1, 0, 0] := by
    rw [hq3]
    rfl
  -- fourth call
  obtain ⟨s4, l4, ht4, _, hf4, hr4, _⟩ :=
    @evict_fault_step demoCLI R s3 s3.tick 0 0 0 Access.READ _ own 0 [1, 1, 0, 0] _ h3
      (by rw [htime3, htime2, htime1, htime0]; decide)
      (pass s3 0 h3 ((hsg3.trans hsg2).trans hsg1) (le_refl _) (by decide))
      (by rw [hd3, e04.1]; exact hlz3) (by rw [hd3, e04.1, e04.2]; exact hown) hownp (hnw own)
      (h3.shape.policy.trans rfl) hall3 hqq3 hm3
  rw [hps3] at ht4
  have hmf0 : st0.metrics_.faults = 0 ∧ st0.metrics_.replacements = 0 := by
    rw [hmt0]; exact ⟨rfl, rfl⟩
  refine ⟨s1, s2, s3, s4, l1, l2, l3, l4, ht1, ht2, ht3, ht4, ⟨by omega, by omega⟩,
    ⟨by omega, by omega⟩, ⟨by omega, by omega⟩, ⟨by omega, by omega⟩,
    ⟨by omega, hall2⟩, own, hown, hownp, hownf⟩

theorem fifo_scenario_witness :
    ∃ s1 s2 s3 s4 l1 l2 l3 l4,
      demo0.translate demoR 0 0 0 Access.READ = some (s1, 1000, l1) ∧
      s1.translate demoR 0 1 0 Access.READ = some (s2, 2000, l2) ∧
      s2.translate demoR 0 2 0 Access.READ = some (s3, 3000, l3) ∧
      s3.translate demoR 0 0 0 Access.READ = some (s4, 1000, l4) ∧
      (s1.metrics_.faults = 1 ∧ s1.metrics_.replacements = 0) ∧
      (s2.metrics_.faults = 2 ∧ s2.metrics_.replacements = 0) ∧
      (s3.metrics_.faults = 3 ∧ s3.metrics_.replacements = 1) ∧
      (s4.metrics_.faults = 4 ∧ s4.metrics_.replacements = 2) ∧
      (s2.pm_.meta.length = 2 ∧ ∀ f m, vget s2.pm_.meta f = some m → m.free = false) ∧
      (∃ pg, pageAt s3.dirs_ 0 0 0 = some pg ∧ pg.present = false ∧ pg.frame = -1) :=
  fifo_scenario demoR demo0 demoLazy (by decide) (by decide) (by decide) (by decide)
    (by decide) (by decide)

end MemSim
